import Mathlib

/-!
Shallow embedding of the van Emde Boas tree from this repository.

The repository holds two near-identical implementations of the structure:
* `VanEmdeBoasTree.cpp` — universe size is a power of two (`U = 1 << bits`),
  key splitting uses shifts and masks (namespace `Pow2` below);
* the unnamed source file — generic universe size, key splitting uses
  integer division and modulo with block size `B = sqrt(U)` (namespace `Gen`).

Both store nodes as a struct `V { int U, B; int min, max; int small;
V* summary; vector<V*> block; }`; the embedding uses one inductive type for
that struct.  C++ `int` fields that can hold the sentinel `-1` (`min`, `max`
and values derived from them) are modelled as `Int`; keys and the bit mask
`small` are natural numbers (all mask arithmetic stays below `2^31`, so
`Nat` bit operations agree with the C++ `int` operations on the reachable
states).  Out-of-range vector access and null-pointer dereference are
undefined behaviour in the source; the embedding gives those branches an
arbitrary harmless result (they are unreachable under the documented
preconditions, which every theorem below assumes).
-/

inductive V : Type where
  | mk (U B : Nat) (min max : Int) (small : Nat) (summary : Option V) (block : List V) : V

def V.U : V → Nat
  | .mk U _ _ _ _ _ _ => U

def V.B : V → Nat
  | .mk _ B _ _ _ _ _ => B

def V.min : V → Int
  | .mk _ _ mn _ _ _ _ => mn

def V.max : V → Int
  | .mk _ _ _ mx _ _ _ => mx

def V.small : V → Nat
  | .mk _ _ _ _ sm _ _ => sm

def V.summary : V → Option V
  | .mk _ _ _ _ _ summ _ => summ

def V.block : V → List V
  | .mk _ _ _ _ _ _ blk => blk

/-- Default node used for the (unreachable) out-of-range `block[i]` reads;
`min = max = -1` so a read past the end looks like an empty block. -/
def blkD (blk : List V) (i : Nat) : V :=
  blk.getD i (.mk 0 0 (-1) (-1) 0 none [])

/-- Models `small &= ~(1 << x)` on the C++ `int` mask (the mask always stays
below `2^31`, where clearing one bit is exactly `Nat.ldiff`). -/
def clearBit (sm x : Nat) : Nat := Nat.ldiff sm (1 <<< x)

/-- Models the leaf-erase rescan loop `for (i = 0; i < U; i++) { if (small >> i & 1) {
if (min == -1) { min = i; small &= ~(1 << i); } max = i; } }`, iterating over the
index list and threading `(small, min, max)`. -/
def rescanList (sm : Nat) (mn mx : Int) : List Nat → Nat × Int × Int
  | [] => (sm, mn, mx)
  | i :: is =>
    if sm.testBit i then
      if mn == -1 then rescanList (clearBit sm i) (i : Int) (i : Int) is
      else rescanList sm mn (i : Int) is
    else rescanList sm mn mx is

/-- Models the leaf-successor loop `for (i = x+1; i < U; i++) if (small >> i & 1)
return i; return -1;`, iterating over the index list. -/
def scanList (sm : Nat) : List Nat → Int
  | [] => -1
  | i :: is => if sm.testBit i then (i : Int) else scanList sm is

/-- Size helpers discharging the termination obligations of the recursive
member functions. -/
theorem sizeOf_get_lt (blk : List V) (i : Nat) (h : i < blk.length) (U B : Nat)
    (mn mx : Int) (sm : Nat) (summ : Option V) :
    sizeOf (blk.get ⟨i, h⟩) < sizeOf (V.mk U B mn mx sm summ blk) := by
  have := List.sizeOf_lt_of_mem (List.get_mem blk i h)
  simp only [V.mk.sizeOf_spec]
  omega

theorem sizeOf_summ_lt (s : V) (U B : Nat) (mn mx : Int) (sm : Nat) (blk : List V) :
    sizeOf s < sizeOf (V.mk U B mn mx sm (some s) blk) := by
  simp only [V.mk.sizeOf_spec, Option.some.sizeOf_spec]
  omega

theorem sizeOf_mem_lt {b : V} {blk : List V} (hb : b ∈ blk) (U B : Nat)
    (mn mx : Int) (sm : Nat) (summ : Option V) :
    sizeOf b < sizeOf (V.mk U B mn mx sm summ blk) := by
  have := List.sizeOf_lt_of_mem hb
  simp only [V.mk.sizeOf_spec]
  omega

/-- Induction over the recursive node structure: to prove `P` everywhere it
suffices to prove it at a node assuming it for the summary and for every
block. -/
def V.induct (P : V → Prop)
    (h : ∀ U B mn mx sm summ blk,
      (∀ s, summ = some s → P s) → (∀ b ∈ blk, P b) → P (.mk U B mn mx sm summ blk)) :
    ∀ v, P v
  | .mk U B mn mx sm summ blk =>
    h U B mn mx sm summ blk
      (fun s _hs => V.induct P h s)
      (fun b _hb => V.induct P h b)
termination_by v => sizeOf v
decreasing_by
  · subst _hs
    exact sizeOf_summ_lt _ _ _ _ _ _ _
  · exact sizeOf_mem_lt _hb _ _ _ _ _ _

/-! ## The power-of-two implementation (`VanEmdeBoasTree.cpp`) -/

namespace Pow2

/-- `int V::index(int i, int j) const { return i << B | j; }` -/
def index (B i j : Nat) : Nat := (i <<< B) ||| j

/-- `int V::high(int x) const { return x >> B; }` -/
def high (B x : Nat) : Nat := x >>> B

/-- `int V::low(int x) const { return x & ((1 << B) - 1); }` -/
def low (B x : Nat) : Nat := x &&& ((1 <<< B) - 1)

/-- The constructor `V::V(int bits)`: `U = 1 << bits`, `B = bits >> 1`; a node
with `U >= 32` allocates `1 << ((bits+1) >> 1)` blocks of size `V(B)` and a
summary `V((bits+1) >> 1)`; smaller universes are leaves. -/
def build (bits : Nat) : V :=
  if h : (1 <<< bits) < 32 then .mk (1 <<< bits) (bits >>> 1) (-1) (-1) 0 none []
  else
    .mk (1 <<< bits) (bits >>> 1) (-1) (-1) 0
      (some (build ((bits + 1) >>> 1)))
      (List.replicate (1 <<< ((bits + 1) >>> 1)) (build (bits >>> 1)))
termination_by bits
decreasing_by
  · have h5 : 5 ≤ bits := by
      by_contra hb
      have : bits ≤ 4 := by omega
      have : (1 <<< bits) ≤ 1 <<< 4 := by
        simpa [Nat.shiftLeft_eq] using Nat.pow_le_pow_right (by norm_num) this
      omega
    omega
  · have h5 : 5 ≤ bits := by
      by_contra hb
      have : bits ≤ 4 := by omega
      have : (1 <<< bits) ≤ 1 <<< 4 := by
        simpa [Nat.shiftLeft_eq] using Nat.pow_le_pow_right (by norm_num) this
      omega
    omega

/-- `bool V::contains(int x) const`. -/
def contains : V → Nat → Bool
  | .mk U B mn _ sm _ blk, x =>
    ((x : Int) == mn) ||
      (if U < 32 then sm.testBit x
       else
         if h : high B x < blk.length then
           contains (blk.get ⟨high B x, h⟩) (low B x)
         else false)
termination_by v _ => sizeOf v
decreasing_by
  exact sizeOf_get_lt _ _ h _ _ _ _ _ _

/-- `void V::insert(int x)` (assumes `x` is not already a member). -/
def insert : V → Nat → V
  | .mk U B mn mx sm summ blk, x =>
    if mn == -1 then .mk U B x x sm summ blk
    else
      let x1 := if (x : Int) < mn then mn.toNat else x
      let mn1 := if (x : Int) < mn then (x : Int) else mn
      let mx1 := if (x1 : Int) > mx then (x1 : Int) else mx
      if U < 32 then .mk U B mn1 mx1 (sm ||| (1 <<< x1)) summ blk
      else
        match summ with
        | some s =>
          if h : high B x1 < blk.length then
            let s1 := if (blkD blk (high B x1)).min == -1 then insert s (high B x1) else s
            .mk U B mn1 mx1 sm (some s1)
              (blk.set (high B x1) (insert (blk.get ⟨high B x1, h⟩) (low B x1)))
          else .mk U B mn1 mx1 sm (some s) blk
        | none => .mk U B mn1 mx1 sm none blk
termination_by v _ => sizeOf v
decreasing_by
  · exact sizeOf_summ_lt _ _ _ _ _ _ _
  · exact sizeOf_get_lt _ _ h _ _ _ _ _ _

/-- `void V::erase(int x)` (assumes `x` is a member). -/
def erase : V → Nat → V
  | .mk U B mn mx sm summ blk, x =>
    if U < 32 then
      let mn1 : Int := if (x : Int) == mn then -1 else mn
      let mx1 : Int := if (x : Int) == mx then mn1 else mx
      let r := rescanList (clearBit sm x) mn1 mx1 (List.range U)
      .mk U B r.2.1 r.2.2 r.1 summ blk
    else
      match summ with
      | none => .mk U B mn mx sm none blk
      | some s =>
        if ((x : Int) == mn) && (s.min == -1) then
          -- deleting the last element
          .mk U B (-1) (-1) sm (some s) blk
        else
          -- if x == min, replace it by the next smallest element, which is the
          -- value that must actually be removed below
          let p : Nat × Int :=
            if (x : Int) == mn then
              let m := index B s.min.toNat (blkD blk s.min.toNat).min.toNat
              (m, (m : Int))
            else (x, mn)
          if h : high B p.1 < blk.length then
            let blk1 := blk.set (high B p.1) (erase (blk.get ⟨high B p.1, h⟩) (low B p.1))
            let s1 := if (blkD blk1 (high B p.1)).min == -1 then erase s (high B p.1) else s
            let mx1 : Int :=
              if (p.1 : Int) == mx then
                if s1.max == -1 then p.2
                else (index B s1.max.toNat (blkD blk1 s1.max.toNat).max.toNat : Int)
              else mx
            .mk U B p.2 mx1 sm (some s1) blk1
          else .mk U B p.2 mx sm (some s) blk
termination_by v _ => sizeOf v
decreasing_by
  · exact sizeOf_get_lt _ _ h _ _ _ _ _ _
  · exact sizeOf_summ_lt _ _ _ _ _ _ _

/-- `int V::successor(int x) const` (returns `-1` if `x` has no successor). -/
def successor : V → Nat → Int
  | .mk U B mn _ sm summ blk, x =>
    if (x : Int) < mn then mn
    else if U < 32 then scanList sm (List.range' (x + 1) (U - (x + 1)))
    else
      match summ with
      | none => -1
      | some s =>
        if ((low B x : Int)) < (blkD blk (high B x)).max then
          if h : high B x < blk.length then
            (index B (high B x) (successor (blk.get ⟨high B x, h⟩) (low B x)).toNat : Int)
          else -1
        else
          let i2 := successor s (high B x)
          if i2 != -1 then (index B i2.toNat (blkD blk i2.toNat).min.toNat : Int)
          else -1
termination_by v _ => sizeOf v
decreasing_by
  · exact sizeOf_get_lt _ _ h _ _ _ _ _ _
  · exact sizeOf_summ_lt _ _ _ _ _ _ _

end Pow2

/-! ## The generic implementation (the unnamed source file) -/

namespace Gen

/-- `int V::index(int i, int j) const { return i * B + j; }` -/
def index (B i j : Nat) : Nat := i * B + j

/-- `int V::high(int x) const { return x / B; }` -/
def high (B x : Nat) : Nat := x / B

/-- `int V::low(int x) const { return x % B; }` -/
def low (B x : Nat) : Nat := x % B

/-- The block count computed by `int blocks = B; while (blocks * B < U) ++blocks;`:
the least `k ≥ B` with `k * B ≥ U`, i.e. `max B ⌈U / B⌉`. -/
def blockCount (U B : Nat) : Nat := Max.max B ((U + B - 1) / B)

/-- The constructor `V::V(int size)`: `U = size`, `B = sqrt(U)` (exact for every
`int`-ranged `U`, so modelled by `Nat.sqrt`); a node with `U >= 32` allocates
`blockCount` blocks of size `V(B)` and a summary `V(blockCount)`. -/
def build (size : Nat) : V :=
  if h : size < 32 then .mk size (Nat.sqrt size) (-1) (-1) 0 none []
  else
    .mk size (Nat.sqrt size) (-1) (-1) 0
      (some (build (blockCount size (Nat.sqrt size))))
      (List.replicate (blockCount size (Nat.sqrt size)) (build (Nat.sqrt size)))
termination_by size
decreasing_by
  · have hB5 : 5 ≤ Nat.sqrt size := Nat.le_sqrt.mpr (by omega)
    have hBlt : Nat.sqrt size < size := Nat.sqrt_lt_self (by omega)
    have hdiv : (size + Nat.sqrt size - 1) / Nat.sqrt size < size := by
      rw [Nat.div_lt_iff_lt_mul (by omega)]
      have h1 : 5 * size ≤ size * Nat.sqrt size := by nlinarith
      omega
    exact max_lt hBlt hdiv
  · exact Nat.sqrt_lt_self (by omega)

/-- `void V::insert(int x)` (assumes `x` is not already a member). -/
def insert : V → Nat → V
  | .mk U B mn mx sm summ blk, x =>
    if mn == -1 then .mk U B x x sm summ blk
    else
      let x1 := if (x : Int) < mn then mn.toNat else x
      let mn1 := if (x : Int) < mn then (x : Int) else mn
      let mx1 := if (x1 : Int) > mx then (x1 : Int) else mx
      if U < 32 then .mk U B mn1 mx1 (sm ||| (1 <<< x1)) summ blk
      else
        match summ with
        | some s =>
          if h : high B x1 < blk.length then
            let s1 := if (blkD blk (high B x1)).min == -1 then insert s (high B x1) else s
            .mk U B mn1 mx1 sm (some s1)
              (blk.set (high B x1) (insert (blk.get ⟨high B x1, h⟩) (low B x1)))
          else .mk U B mn1 mx1 sm (some s) blk
        | none => .mk U B mn1 mx1 sm none blk
termination_by v _ => sizeOf v
decreasing_by
  · exact sizeOf_summ_lt _ _ _ _ _ _ _
  · exact sizeOf_get_lt _ _ h _ _ _ _ _ _

/-- `void V::erase(int x)` (assumes `x` is a member). -/
def erase : V → Nat → V
  | .mk U B mn mx sm summ blk, x =>
    if U < 32 then
      let mn1 : Int := if (x : Int) == mn then -1 else mn
      let mx1 : Int := if (x : Int) == mx then mn1 else mx
      let r := rescanList (clearBit sm x) mn1 mx1 (List.range U)
      .mk U B r.2.1 r.2.2 r.1 summ blk
    else
      match summ with
      | none => .mk U B mn mx sm none blk
      | some s =>
        if ((x : Int) == mn) && (s.min == -1) then
          .mk U B (-1) (-1) sm (some s) blk
        else
          let p : Nat × Int :=
            if (x : Int) == mn then
              let m := index B s.min.toNat (blkD blk s.min.toNat).min.toNat
              (m, (m : Int))
            else (x, mn)
          if h : high B p.1 < blk.length then
            let blk1 := blk.set (high B p.1) (erase (blk.get ⟨high B p.1, h⟩) (low B p.1))
            let s1 := if (blkD blk1 (high B p.1)).min == -1 then erase s (high B p.1) else s
            let mx1 : Int :=
              if (p.1 : Int) == mx then
                if s1.max == -1 then p.2
                else (index B s1.max.toNat (blkD blk1 s1.max.toNat).max.toNat : Int)
              else mx
            .mk U B p.2 mx1 sm (some s1) blk1
          else .mk U B p.2 mx sm (some s) blk
termination_by v _ => sizeOf v
decreasing_by
  · exact sizeOf_get_lt _ _ h _ _ _ _ _ _
  · exact sizeOf_summ_lt _ _ _ _ _ _ _

/-- `int V::successor(int x)` (returns `-1` if `x` has no successor). -/
def successor : V → Nat → Int
  | .mk U B mn _ sm summ blk, x =>
    if (x : Int) < mn then mn
    else if U < 32 then scanList sm (List.range' (x + 1) (U - (x + 1)))
    else
      match summ with
      | none => -1
      | some s =>
        if ((low B x : Int)) < (blkD blk (high B x)).max then
          if h : high B x < blk.length then
            (index B (high B x) (successor (blk.get ⟨high B x, h⟩) (low B x)).toNat : Int)
          else -1
        else
          let i2 := successor s (high B x)
          if i2 != -1 then (index B i2.toNat (blkD blk i2.toNat).min.toNat : Int)
          else -1
termination_by v _ => sizeOf v
decreasing_by
  · exact sizeOf_get_lt _ _ h _ _ _ _ _ _
  · exact sizeOf_summ_lt _ _ _ _ _ _ _

end Gen

/-! ## Verification layer: specification predicates -/

@[simp] theorem V.U_mk (U B : Nat) (mn mx : Int) (sm : Nat) (summ : Option V) (blk : List V) :
    (V.mk U B mn mx sm summ blk).U = U := rfl

@[simp] theorem V.B_mk (U B : Nat) (mn mx : Int) (sm : Nat) (summ : Option V) (blk : List V) :
    (V.mk U B mn mx sm summ blk).B = B := rfl

@[simp] theorem V.min_mk (U B : Nat) (mn mx : Int) (sm : Nat) (summ : Option V) (blk : List V) :
    (V.mk U B mn mx sm summ blk).min = mn := rfl

@[simp] theorem V.max_mk (U B : Nat) (mn mx : Int) (sm : Nat) (summ : Option V) (blk : List V) :
    (V.mk U B mn mx sm summ blk).max = mx := rfl

@[simp] theorem V.small_mk (U B : Nat) (mn mx : Int) (sm : Nat) (summ : Option V) (blk : List V) :
    (V.mk U B mn mx sm summ blk).small = sm := rfl

@[simp] theorem V.summary_mk (U B : Nat) (mn mx : Int) (sm : Nat) (summ : Option V) (blk : List V) :
    (V.mk U B mn mx sm summ blk).summary = summ := rfl

@[simp] theorem V.block_mk (U B : Nat) (mn mx : Int) (sm : Nat) (summ : Option V) (blk : List V) :
    (V.mk U B mn mx sm summ blk).block = blk := rfl

namespace Pow2

theorem high_eq_div (B x : Nat) : high B x = x / 2 ^ B := Nat.shiftRight_eq_div_pow x B

theorem low_eq_mod (B x : Nat) : low B x = x % 2 ^ B := by
  apply Nat.eq_of_testBit_eq
  intro i
  simp [low, Nat.one_shiftLeft, Nat.testBit_and, Nat.testBit_two_pow_sub_one,
    Nat.testBit_mod_two_pow, Bool.and_comm]

theorem low_lt (B x : Nat) : low B x < 2 ^ B := by
  rw [low_eq_mod]
  exact Nat.mod_lt _ (Nat.pos_pow_of_pos B (by norm_num))

theorem index_eq (B i j : Nat) (hj : j < 2 ^ B) : index B i j = i * 2 ^ B + j := by
  apply Nat.eq_of_testBit_eq
  intro k
  rw [index, Nat.testBit_or, Nat.testBit_shiftLeft,
    show i * 2 ^ B + j = 2 ^ B * i + j from by ring, Nat.testBit_mul_pow_two_add _ hj]
  rcases Nat.lt_or_ge k B with hk | hk
  · simp [hk, Nat.not_le_of_lt hk]
  · have : j.testBit k = false :=
      Nat.testBit_eq_false_of_lt (lt_of_lt_of_le hj (Nat.pow_le_pow_right (by norm_num) hk))
    simp [hk, this, Nat.not_lt_of_le hk]

theorem index_high_low (B x : Nat) : index B (high B x) (low B x) = x := by
  rw [index_eq B _ _ (low_lt B x), high_eq_div, low_eq_mod, Nat.mul_comm, Nat.div_add_mod]

theorem high_index (B i j : Nat) (hj : j < 2 ^ B) : high B (index B i j) = i := by
  rw [index_eq B i j hj, high_eq_div, show i * 2 ^ B + j = 2 ^ B * i + j from by ring,
    Nat.mul_add_div (Nat.pos_pow_of_pos B (by norm_num)), Nat.div_eq_of_lt hj, Nat.add_zero]

theorem low_index (B i j : Nat) (hj : j < 2 ^ B) : low B (index B i j) = j := by
  rw [index_eq B i j hj, low_eq_mod, show i * 2 ^ B + j = 2 ^ B * i + j from by ring,
    Nat.mul_add_mod, Nat.mod_eq_of_lt hj]

theorem high_lt (B x len : Nat) (hx : x < len * 2 ^ B) : high B x < len := by
  rw [high_eq_div]
  exact Nat.div_lt_of_lt_mul (by rwa [Nat.mul_comm] at hx)

theorem index_lt (B i j len : Nat) (hi : i < len) (hj : j < 2 ^ B) :
    index B i j < len * 2 ^ B := by
  rw [index_eq B i j hj]
  calc i * 2 ^ B + j < i * 2 ^ B + 2 ^ B := by omega
  _ = (i + 1) * 2 ^ B := by ring
  _ ≤ len * 2 ^ B := Nat.mul_le_mul_right _ hi

/-- Lexicographic comparison of recombined keys. -/
theorem lex_lt (W i1 j1 i2 j2 : Nat) (h1 : j1 < W) (hj2 : j2 < W) :
    (i1 * W + j1 < i2 * W + j2 ↔ i1 < i2 ∨ (i1 = i2 ∧ j1 < j2)) := by
  constructor
  · intro h
    rcases Nat.lt_trichotomy i1 i2 with hi | hi | hi
    · exact Or.inl hi
    · exact Or.inr ⟨hi, by subst hi; omega⟩
    · exfalso
      have h2 : (i2 + 1) * W ≤ i1 * W := Nat.mul_le_mul_right _ hi
      have h3 : (i2 + 1) * W = i2 * W + W := by ring
      omega
  · rintro (hi | ⟨rfl, hj⟩)
    · have h2 : (i1 + 1) * W ≤ i2 * W := Nat.mul_le_mul_right _ hi
      have h3 : (i1 + 1) * W = i1 * W + W := by ring
      omega
    · omega

/-- Membership in the blocks of an internal node, read through the key
decomposition (this is the internal branch of `contains`). -/
def Below (B : Nat) (blk : List V) (y : Nat) : Bool :=
  if h : high B y < blk.length then contains (blk.get ⟨high B y, h⟩) (low B y) else false

theorem contains_unfold (U B : Nat) (mn mx : Int) (sm : Nat) (summ : Option V)
    (blk : List V) (x : Nat) :
    contains (.mk U B mn mx sm summ blk) x =
      (((x : Int) == mn) || (if U < 32 then sm.testBit x else Below B blk x)) := by
  rw [contains, Below]

/-- The internal invariant of a power-of-two van Emde Boas node: shape facts
(`U = blockCount * 2^B`, children of size `2^B`, summary sized to the block
count), the summary tracking exactly the non-empty blocks, and the `min`/`max`
caches bounding the members, with the minimum never stored below itself. -/
def Good : V → Prop
  | .mk U B mn mx sm summ blk =>
    if U < 32 then
      summ = none ∧ blk = [] ∧
      (mn = -1 → mx = -1 ∧ sm = 0) ∧
      (mn ≠ -1 → 0 ≤ mn ∧ mn ≤ mx ∧ mx < (U : Int) ∧
        (∀ i : Nat, sm.testBit i = true → mn < (i : Int) ∧ (i : Int) ≤ mx) ∧
        (mx = mn ∨ sm.testBit mx.toNat = true))
    else
      match summ with
      | none => False
      | some s =>
        U = blk.length * 2 ^ B ∧ 0 < blk.length ∧
        (∀ b ∈ blk, b.U = 2 ^ B ∧ Good b) ∧
        s.U = blk.length ∧ Good s ∧
        (∀ k : Nat, k < blk.length → (contains s k = true ↔ (blkD blk k).min ≠ -1)) ∧
        (mn = -1 → mx = -1 ∧ ∀ b ∈ blk, b.min = -1) ∧
        (mn ≠ -1 → 0 ≤ mn ∧ mn ≤ mx ∧ mx < (U : Int) ∧
          (∀ y : Nat, Below B blk y = true → mn < (y : Int) ∧ (y : Int) ≤ mx) ∧
          (mx = mn ∨ Below B blk mx.toNat = true))
termination_by v => sizeOf v
decreasing_by
  · exact sizeOf_mem_lt (by assumption) _ _ _ _ _ _
  · exact sizeOf_summ_lt _ _ _ _ _ _ _

theorem good_leaf_iff (U B : Nat) (mn mx : Int) (sm : Nat) (summ : Option V)
    (blk : List V) (hU : U < 32) :
    Good (.mk U B mn mx sm summ blk) ↔
      (summ = none ∧ blk = [] ∧
       (mn = -1 → mx = -1 ∧ sm = 0) ∧
       (mn ≠ -1 → 0 ≤ mn ∧ mn ≤ mx ∧ mx < (U : Int) ∧
         (∀ i : Nat, sm.testBit i = true → mn < (i : Int) ∧ (i : Int) ≤ mx) ∧
         (mx = mn ∨ sm.testBit mx.toNat = true))) := by
  rw [Good.eq_def]
  simp [hU]

theorem good_node_iff (U B : Nat) (mn mx : Int) (sm : Nat) (s : V)
    (blk : List V) (hU : ¬ U < 32) :
    Good (.mk U B mn mx sm (some s) blk) ↔
      (U = blk.length * 2 ^ B ∧ 0 < blk.length ∧
       (∀ b ∈ blk, b.U = 2 ^ B ∧ Good b) ∧
       s.U = blk.length ∧ Good s ∧
       (∀ k : Nat, k < blk.length → (contains s k = true ↔ (blkD blk k).min ≠ -1)) ∧
       (mn = -1 → mx = -1 ∧ ∀ b ∈ blk, b.min = -1) ∧
       (mn ≠ -1 → 0 ≤ mn ∧ mn ≤ mx ∧ mx < (U : Int) ∧
         (∀ y : Nat, Below B blk y = true → mn < (y : Int) ∧ (y : Int) ≤ mx) ∧
         (mx = mn ∨ Below B blk mx.toNat = true))) := by
  rw [Good.eq_def]
  simp [hU]

theorem good_node_none (U B : Nat) (mn mx : Int) (sm : Nat) (blk : List V) (hU : ¬ U < 32) :
    ¬ Good (.mk U B mn mx sm none blk) := by
  rw [Good.eq_def]
  simp [hU]

theorem blkD_eq_get (blk : List V) (i : Nat) (h : i < blk.length) :
    blkD blk i = blk.get ⟨i, h⟩ :=
  List.getD_eq_get _ _ h

/-- A node whose cached minimum is the empty sentinel contains nothing. -/
theorem contains_empty : ∀ v : V, Good v → v.min = -1 → ∀ y : Nat, contains v y = false := by
  refine V.induct _ ?_
  intro U B mn mx sm summ blk ihs ihb hg hmn y
  simp only [V.min_mk] at hmn
  subst hmn
  rw [contains_unfold]
  by_cases hU : U < 32
  · obtain ⟨hmx, hsm⟩ := ((good_leaf_iff _ _ _ _ _ _ _ hU).mp hg).2.2.1 rfl
    subst hsm
    simp only [hU, if_true, Nat.zero_testBit, Bool.or_false]
    simp only [beq_eq_false_iff_ne, ne_eq]
    omega
  · match summ, hg with
    | some s, hg =>
      obtain ⟨-, -, hb, -, -, -, hemp, -⟩ := (good_node_iff _ _ _ _ _ _ _ hU).mp hg
      have hB : Below B blk y = false := by
        rw [Below]
        split
        · next h =>
          exact ihb _ (List.get_mem _ _ h) ((hb _ (List.get_mem _ _ h)).2)
            ((hemp rfl).2 _ (List.get_mem _ _ h)) _
        · rfl
      simp [hU, hB]
    | none, hg => exact absurd hg (good_node_none _ _ _ _ _ _ hU)

/-- Every member is below the universe size. -/
theorem contains_lt_U (v : V) (hg : Good v) (y : Nat) (hy : contains v y = true) : y < v.U := by
  obtain ⟨U, B, mn, mx, sm, summ, blk⟩ := v
  simp only [V.U_mk]
  by_cases hmn : mn = -1
  · rw [contains_empty _ hg hmn y] at hy
    cases hy
  rw [contains_unfold] at hy
  by_cases hU : U < 32
  · obtain ⟨-, -, -, h2⟩ := (good_leaf_iff _ _ _ _ _ _ _ hU).mp hg
    obtain ⟨hmn0, hmnmx, hmxU, hbits, -⟩ := h2 hmn
    simp only [hU, if_true, Bool.or_eq_true, beq_iff_eq] at hy
    rcases hy with hy | hy
    · omega
    · have := hbits y hy
      omega
  · match summ, hg with
    | some s, hg =>
      obtain ⟨-, -, -, -, -, -, -, h2⟩ := (good_node_iff _ _ _ _ _ _ _ hU).mp hg
      obtain ⟨hmn0, hmnmx, hmxU, hbel, -⟩ := h2 hmn
      simp only [hU, if_false, Bool.or_eq_true, beq_iff_eq] at hy
      rcases hy with hy | hy
      · omega
      · have := hbel y hy
        omega
    | none, hg => exact absurd hg (good_node_none _ _ _ _ _ _ hU)

/-- The cached minimum bounds every member from below. -/
theorem min_le_of_mem (v : V) (hg : Good v) (y : Nat) (hy : contains v y = true) :
    v.min ≤ (y : Int) := by
  obtain ⟨U, B, mn, mx, sm, summ, blk⟩ := v
  simp only [V.min_mk]
  by_cases hmn : mn = -1
  · subst hmn
    omega
  rw [contains_unfold] at hy
  by_cases hU : U < 32
  · obtain ⟨-, -, -, h2⟩ := (good_leaf_iff _ _ _ _ _ _ _ hU).mp hg
    obtain ⟨hmn0, hmnmx, hmxU, hbits, -⟩ := h2 hmn
    simp only [hU, if_true, Bool.or_eq_true, beq_iff_eq] at hy
    rcases hy with hy | hy
    · omega
    · have := hbits y hy
      omega
  · match summ, hg with
    | some s, hg =>
      obtain ⟨-, -, -, -, -, -, -, h2⟩ := (good_node_iff _ _ _ _ _ _ _ hU).mp hg
      obtain ⟨hmn0, hmnmx, hmxU, hbel, -⟩ := h2 hmn
      simp only [hU, if_false, Bool.or_eq_true, beq_iff_eq] at hy
      rcases hy with hy | hy
      · omega
      · have := hbel y hy
        omega
    | none, hg => exact absurd hg (good_node_none _ _ _ _ _ _ hU)

/-- The cached maximum bounds every member from above. -/
theorem mem_le_max (v : V) (hg : Good v) (y : Nat) (hy : contains v y = true) :
    (y : Int) ≤ v.max := by
  obtain ⟨U, B, mn, mx, sm, summ, blk⟩ := v
  simp only [V.max_mk]
  by_cases hmn : mn = -1
  · rw [contains_empty _ hg hmn y] at hy
    cases hy
  rw [contains_unfold] at hy
  by_cases hU : U < 32
  · obtain ⟨-, -, -, h2⟩ := (good_leaf_iff _ _ _ _ _ _ _ hU).mp hg
    obtain ⟨hmn0, hmnmx, hmxU, hbits, -⟩ := h2 hmn
    simp only [hU, if_true, Bool.or_eq_true, beq_iff_eq] at hy
    rcases hy with hy | hy
    · omega
    · have := hbits y hy
      omega
  · match summ, hg with
    | some s, hg =>
      obtain ⟨-, -, -, -, -, -, -, h2⟩ := (good_node_iff _ _ _ _ _ _ _ hU).mp hg
      obtain ⟨hmn0, hmnmx, hmxU, hbel, -⟩ := h2 hmn
      simp only [hU, if_false, Bool.or_eq_true, beq_iff_eq] at hy
      rcases hy with hy | hy
      · omega
      · have := hbel y hy
        omega
    | none, hg => exact absurd hg (good_node_none _ _ _ _ _ _ hU)

/-- The cached minimum of a non-empty node is itself a member. -/
theorem min_mem (v : V) (hg : Good v) (hmn : v.min ≠ -1) :
    contains v v.min.toNat = true := by
  obtain ⟨U, B, mn, mx, sm, summ, blk⟩ := v
  simp only [V.min_mk] at hmn ⊢
  rw [contains_unfold]
  by_cases hU : U < 32
  · obtain ⟨-, -, -, h2⟩ := (good_leaf_iff _ _ _ _ _ _ _ hU).mp hg
    obtain ⟨hmn0, -⟩ := h2 hmn
    simp [Int.toNat_of_nonneg hmn0]
  · match summ, hg with
    | some s, hg =>
      obtain ⟨-, -, -, -, -, -, -, h2⟩ := (good_node_iff _ _ _ _ _ _ _ hU).mp hg
      obtain ⟨hmn0, -⟩ := h2 hmn
      simp [Int.toNat_of_nonneg hmn0]
    | none, hg => exact absurd hg (good_node_none _ _ _ _ _ _ hU)

/-- The cached maximum of a non-empty node is itself a member. -/
theorem max_mem (v : V) (hg : Good v) (hmn : v.min ≠ -1) :
    contains v v.max.toNat = true := by
  obtain ⟨U, B, mn, mx, sm, summ, blk⟩ := v
  simp only [V.min_mk] at hmn
  simp only [V.max_mk]
  rw [contains_unfold]
  by_cases hU : U < 32
  · obtain ⟨-, -, -, h2⟩ := (good_leaf_iff _ _ _ _ _ _ _ hU).mp hg
    obtain ⟨hmn0, hmnmx, -, -, hwit⟩ := h2 hmn
    rcases hwit with hw | hw
    · rw [hw]
      simp [Int.toNat_of_nonneg hmn0]
    · simp [hU, hw]
  · match summ, hg with
    | some s, hg =>
      obtain ⟨-, -, -, -, -, -, -, h2⟩ := (good_node_iff _ _ _ _ _ _ _ hU).mp hg
      obtain ⟨hmn0, hmnmx, -, -, hwit⟩ := h2 hmn
      rcases hwit with hw | hw
      · rw [hw]
        simp [Int.toNat_of_nonneg hmn0]
      · simp [hU, hw]
    | none, hg => exact absurd hg (good_node_none _ _ _ _ _ _ hU)

/-- `min` and `max` are the empty sentinel together. -/
theorem min_neg_iff_max_neg (v : V) (hg : Good v) : v.min = -1 ↔ v.max = -1 := by
  obtain ⟨U, B, mn, mx, sm, summ, blk⟩ := v
  simp only [V.min_mk, V.max_mk]
  by_cases hU : U < 32
  · obtain ⟨-, -, h1, h2⟩ := (good_leaf_iff _ _ _ _ _ _ _ hU).mp hg
    constructor
    · intro h
      exact (h1 h).1
    · intro h
      by_contra hmn
      obtain ⟨hmn0, hmnmx, -⟩ := h2 hmn
      omega
  · match summ, hg with
    | some s, hg =>
      obtain ⟨-, -, -, -, -, -, h1, h2⟩ := (good_node_iff _ _ _ _ _ _ _ hU).mp hg
      constructor
      · intro h
        exact (h1 h).1
      · intro h
        by_contra hmn
        obtain ⟨hmn0, hmnmx, -⟩ := h2 hmn
        omega
    | none, hg => exact absurd hg (good_node_none _ _ _ _ _ _ hU)


theorem testBit_clearBit (sm x i : Nat) :
    (clearBit sm x).testBit i = (sm.testBit i && !(i == x)) := by
  rw [clearBit, Nat.testBit_ldiff, Nat.one_shiftLeft]
  by_cases h : i = x
  · subst h
    simp [Nat.testBit_two_pow_self]
  · simp [h, Nat.testBit_two_pow_of_ne (Ne.symm h)]

theorem scanList_spec (sm a n : Nat) :
    (scanList sm (List.range' a n) = -1 ∧ ∀ i, a ≤ i → i < a + n → sm.testBit i = false) ∨
    (∃ m : Nat, scanList sm (List.range' a n) = (m : Int) ∧ a ≤ m ∧ m < a + n ∧
      sm.testBit m = true ∧ ∀ i, a ≤ i → i < m → sm.testBit i = false) := by
  induction n generalizing a with
  | zero =>
    left
    refine ⟨rfl, ?_⟩
    omega
  | succ n ih =>
    by_cases hb : sm.testBit a
    · right
      refine ⟨a, ?_, le_refl a, by omega, hb, fun i h1 h2 => by omega⟩
      simp [List.range', scanList, hb]
    · have hstep : scanList sm (List.range' a (n + 1)) = scanList sm (List.range' (a + 1) n) := by
        simp [List.range', scanList, hb]
      rcases ih (a + 1) with ⟨h1, h2⟩ | ⟨m, h1, h2, h3, h4, h5⟩
      · left
        refine ⟨hstep.trans h1, fun i hi1 hi2 => ?_⟩
        rcases Nat.eq_or_lt_of_le hi1 with rfl | hi
        · simpa using hb
        · exact h2 i hi (by omega)
      · right
        refine ⟨m, hstep.trans h1, by omega, by omega, h4, fun i hi1 hi2 => ?_⟩
        rcases Nat.eq_or_lt_of_le hi1 with rfl | hi
        · simpa using hb
        · exact h5 i hi hi2

theorem rescan_nobits (sm : Nat) (mn mx : Int) (a n : Nat)
    (h : ∀ i, a ≤ i → i < a + n → sm.testBit i = false) :
    rescanList sm mn mx (List.range' a n) = (sm, mn, mx) := by
  induction n generalizing a with
  | zero => rfl
  | succ n ih =>
    have hb : sm.testBit a = false := h a (le_refl a) (by omega)
    simp only [List.range', rescanList, hb, Bool.false_eq_true, if_false]
    exact ih (a + 1) (fun i h1 h2 => h i (by omega) (by omega))

theorem rescan_stable (sm : Nat) (mn mx : Int) (hmn : mn ≠ -1) (a n hi : Nat)
    (h1 : a ≤ hi) (h2 : hi < a + n) (h3 : sm.testBit hi = true)
    (h4 : ∀ i, hi < i → i < a + n → sm.testBit i = false) :
    rescanList sm mn mx (List.range' a n) = (sm, mn, (hi : Int)) := by
  induction n generalizing a mx with
  | zero => omega
  | succ n ih =>
    rcases Nat.eq_or_lt_of_le h1 with rfl | hlt
    · simp only [List.range', rescanList, h3, if_true, beq_iff_eq, hmn, if_false]
      exact rescan_nobits sm mn (a : Int) (a + 1) n
        (fun i hi1 hi2 => h4 i (by omega) (by omega))
    · by_cases hb : sm.testBit a
      · simp only [List.range', rescanList, hb, if_true, beq_iff_eq, hmn, if_false]
        exact ih (a : Int) (a + 1) (by omega) (by omega)
          (fun i hi1 hi2 => h4 i hi1 (by omega))
      · simp only [List.range', rescanList, hb, Bool.false_eq_true, if_false]
        exact ih mx (a + 1) (by omega) (by omega)
          (fun i hi1 hi2 => h4 i hi1 (by omega))

theorem rescan_newmin (sm : Nat) (mx : Int) (a n lo : Nat)
    (h1 : a ≤ lo) (h2 : lo < a + n) (h3 : sm.testBit lo = true)
    (h4 : ∀ i, a ≤ i → i < lo → sm.testBit i = false) :
    rescanList sm (-1) mx (List.range' a n) =
      rescanList (clearBit sm lo) (lo : Int) (lo : Int) (List.range' (lo + 1) (a + n - (lo + 1))) := by
  induction n generalizing a with
  | zero => omega
  | succ n ih =>
    rcases Nat.eq_or_lt_of_le h1 with rfl | hlt
    · have hn : a + (n + 1) - (a + 1) = n := by omega
      simp only [List.range', rescanList, h3, if_true, beq_self_eq_true, hn]
    · have hb : sm.testBit a = false := h4 a (le_refl a) hlt
      simp only [List.range', rescanList, hb, Bool.false_eq_true, if_false]
      have hrec := ih (a + 1) (by omega) (by omega) (fun i hi1 hi2 => h4 i (by omega) hi2)
      have hm : a + 1 + n - (lo + 1) = a + (n + 1) - (lo + 1) := by omega
      rw [hm] at hrec
      exact hrec

theorem below_set (B : Nat) (blk : List V) (i : Nat) (c : V) (y : Nat) (hi : i < blk.length) :
    Below B (blk.set i c) y = if high B y = i then contains c (low B y) else Below B blk y := by
  rw [Below, Below]
  by_cases h : high B y < blk.length
  · rw [dif_pos (by simpa using h), dif_pos h]
    by_cases he : high B y = i
    · rw [if_pos he]
      subst he
      exact congrFun (congrArg contains (List.get_set_eq _)) _
    · rw [if_neg he]
      exact congrFun (congrArg contains (List.get_set_ne (fun hh => he hh.symm) _)) _
  · rw [dif_neg (by simpa using h), dif_neg h, if_neg (by omega)]

theorem insert_U (v : V) (x : Nat) : (insert v x).U = v.U := by
  obtain ⟨U, B, mn, mx, sm, summ, blk⟩ := v
  rw [insert]
  dsimp only
  repeat' split
  all_goals rfl

theorem insert_B (v : V) (x : Nat) : (insert v x).B = v.B := by
  obtain ⟨U, B, mn, mx, sm, summ, blk⟩ := v
  rw [insert]
  dsimp only
  repeat' split
  all_goals rfl

theorem erase_U (v : V) (x : Nat) : (erase v x).U = v.U := by
  obtain ⟨U, B, mn, mx, sm, summ, blk⟩ := v
  rw [erase.eq_def]
  dsimp only
  repeat' split
  all_goals rfl

theorem erase_B (v : V) (x : Nat) : (erase v x).B = v.B := by
  obtain ⟨U, B, mn, mx, sm, summ, blk⟩ := v
  rw [erase.eq_def]
  dsimp only
  repeat' split
  all_goals rfl

end Pow2


namespace Pow2

theorem beq_cast (y x : Nat) : ((y : Int) == (x : Nat)) = (y == x) := by
  rw [Bool.eq_iff_iff, beq_iff_eq, beq_iff_eq]
  omega

theorem beq_toNat (y : Nat) (mn : Int) (h : 0 ≤ mn) : ((y : Int) == mn) = (y == mn.toNat) := by
  rw [Bool.eq_iff_iff, beq_iff_eq, beq_iff_eq]
  omega

theorem insert_eq_empty (U B : Nat) (mn mx : Int) (sm : Nat) (summ : Option V)
    (blk : List V) (x : Nat) (hmn : mn = -1) :
    insert (.mk U B mn mx sm summ blk) x = .mk U B x x sm summ blk := by
  rw [insert]
  simp [hmn]

theorem insert_eq_leaf (U B : Nat) (mn mx : Int) (sm : Nat) (summ : Option V)
    (blk : List V) (x : Nat) (hmn : mn ≠ -1) (hU : U < 32) (x1 : Nat) (mn1 : Int)
    (hx1 : x1 = if (x : Int) < mn then mn.toNat else x)
    (hmn1 : mn1 = if (x : Int) < mn then (x : Int) else mn) :
    insert (.mk U B mn mx sm summ blk) x =
      .mk U B mn1 (if (x1 : Int) > mx then (x1 : Int) else mx) (sm ||| (1 <<< x1)) summ blk := by
  subst hx1 hmn1
  rw [insert]
  simp [hmn, hU]

theorem insert_eq_node (U B : Nat) (mn mx : Int) (sm : Nat) (s : V)
    (blk : List V) (x : Nat) (hmn : mn ≠ -1) (hU : ¬ U < 32) (x1 : Nat) (mn1 : Int)
    (hx1 : x1 = if (x : Int) < mn then mn.toNat else x)
    (hmn1 : mn1 = if (x : Int) < mn then (x : Int) else mn)
    (hblk : high B x1 < blk.length) :
    insert (.mk U B mn mx sm (some s) blk) x =
      .mk U B mn1 (if (x1 : Int) > mx then (x1 : Int) else mx) sm
        (some (if (blkD blk (high B x1)).min == -1 then insert s (high B x1) else s))
        (blk.set (high B x1) (insert (blk.get ⟨high B x1, hblk⟩) (low B x1))) := by
  subst hx1 hmn1
  rw [insert]
  simp [hmn, hU, hblk]

end Pow2

namespace Pow2

theorem below_empty (B : Nat) (blk : List V) (y : Nat)
    (hGb : ∀ b ∈ blk, Good b) (hEb : ∀ b ∈ blk, b.min = -1) :
    Below B blk y = false := by
  rw [Below]
  split
  · next h =>
    exact contains_empty _ (hGb _ (List.get_mem _ _ h)) (hEb _ (List.get_mem _ _ h)) _
  · rfl

theorem below_of_lt (B : Nat) (blk : List V) (y : Nat) (h : high B y < blk.length) :
    Below B blk y = contains (blk.get ⟨high B y, h⟩) (low B y) := dif_pos h

theorem testBit_one_shift (n i : Nat) : (1 <<< n).testBit i = (i == n) := by
  rw [Nat.one_shiftLeft, Bool.eq_iff_iff, beq_iff_eq]
  by_cases h : i = n
  · subst h
    simp [Nat.testBit_two_pow_self]
  · simp [h, Nat.testBit_two_pow_of_ne (fun hh => h hh.symm)]

theorem beq_neg_one (y : Nat) : ((y : Int) == -1) = false := by
  rw [Bool.eq_iff_iff, beq_iff_eq]
  constructor
  · omega
  · intro h
    cases h

theorem blkD_set_self (blk : List V) (i : Nat) (c : V) (h : i < blk.length) :
    blkD (blk.set i c) i = c := by
  rw [blkD, List.getD_eq_get _ _ (by simpa using h), List.get_set_eq]

theorem blkD_set_ne (blk : List V) (i k : Nat) (c : V) (hki : k ≠ i) :
    blkD (blk.set i c) k = blkD blk k := by
  by_cases hk : k < blk.length
  · rw [blkD, blkD, List.getD_eq_get _ _ (by simpa using hk), List.getD_eq_get _ _ hk,
      List.get_set_ne (fun hh => hki hh.symm)]
  · rw [blkD, blkD, List.getD_eq_default _ _ (by simpa using Nat.le_of_not_lt hk),
      List.getD_eq_default _ _ (Nat.le_of_not_lt hk)]

theorem insert_spec : ∀ v : V, Good v → ∀ x : Nat, x < v.U → contains v x = false →
    Good (insert v x) ∧ ∀ y : Nat, contains (insert v x) y = (contains v y || (y == x)) := by
  refine V.induct _ ?_
  intro U B mn mx sm summ blk ihs ihb hg x hx hcx
  simp only [V.U_mk] at hx
  by_cases hmn : mn = -1
  · -- the subtree is empty: min = max = x, nothing else changes
    rw [insert_eq_empty _ _ _ _ _ _ _ _ hmn]
    subst hmn
    by_cases hU : U < 32
    · have hsm : sm = 0 := (((good_leaf_iff _ _ _ _ _ _ _ hU).mp hg).2.2.1 rfl).2
      subst hsm
      constructor
      · rw [good_leaf_iff _ _ _ _ _ _ _ hU]
        refine ⟨((good_leaf_iff _ _ _ _ _ _ _ hU).mp hg).1, ((good_leaf_iff _ _ _ _ _ _ _ hU).mp hg).2.1, by intro h; omega,
          fun _ => ⟨by omega, le_refl _, by exact_mod_cast hx, ?_, Or.inl rfl⟩⟩
        intro i hi
        simp [Nat.zero_testBit] at hi
      · intro y
        rw [contains_unfold, contains_unfold]
        simp [hU, Nat.zero_testBit, beq_cast, beq_neg_one]
    · match summ, hg with
      | some s, hg =>
        obtain ⟨hsU, hpos, hb, hsu, hgs, hsync, hemp, -⟩ :=
          (good_node_iff _ _ _ _ _ _ _ hU).mp hg
        have hbel : ∀ y : Nat, Below B blk y = false :=
          fun y => below_empty _ _ _ (fun b hb' => (hb b hb').2) (hemp rfl).2
        constructor
        · rw [good_node_iff _ _ _ _ _ _ _ hU]
          refine ⟨hsU, hpos, hb, hsu, hgs, hsync, by intro h; omega,
            fun _ => ⟨by omega, le_refl _, by exact_mod_cast hx, ?_, Or.inl rfl⟩⟩
          intro y hy
          rw [hbel y] at hy
          cases hy
        · intro y
          rw [contains_unfold, contains_unfold]
          simp [hU, hbel, beq_cast, beq_neg_one]
      | none, hg => exact absurd hg (good_node_none _ _ _ _ _ _ hU)
  · -- non-empty
    rw [contains_unfold] at hcx
    have hxm : ((x : Int) == mn) = false := by
      by_contra hh
      rw [Bool.not_eq_false] at hh
      rw [hh] at hcx
      simp at hcx
    have hrest : (if U < 32 then sm.testBit x else Below B blk x) = false := by
      by_contra hh
      rw [Bool.not_eq_false] at hh
      rw [hh, hxm] at hcx
      simp at hcx
    by_cases hU : U < 32
    · -- leaf: set bit x1 in the mask after the conditional swap with min
      have hbit : sm.testBit x = false := by simpa [hU] using hrest
      obtain ⟨-, -, -, h2⟩ := (good_leaf_iff _ _ _ _ _ _ _ hU).mp hg
      obtain ⟨hmn0, hmnmx, hmxU, hbits, hwit⟩ := h2 hmn
      have hmnt : (mn.toNat : Int) = mn := Int.toNat_of_nonneg hmn0
      have hxmn : ¬ (x : Int) = mn := by simpa using hxm
      rw [insert_eq_leaf _ _ _ _ _ _ _ _ hmn hU _ _ rfl rfl]
      set x1 := (if (x : Int) < mn then mn.toNat else x) with hx1
      set mn1 := (if (x : Int) < mn then (x : Int) else mn) with hmn1
      have hx1U : x1 < U := by
        rw [hx1]
        split
        · omega
        · exact hx
      have hmn1x1 : mn1 < (x1 : Int) := by
        rw [hx1, hmn1]
        split <;> omega
      have hmn1mn : mn1 ≤ mn := by
        rw [hmn1]
        split <;> omega
      have hmn10 : 0 ≤ mn1 := by
        rw [hmn1]
        split <;> omega
      constructor
      · rw [good_leaf_iff _ _ _ _ _ _ _ hU]
        refine ⟨((good_leaf_iff _ _ _ _ _ _ _ hU).mp hg).1, ((good_leaf_iff _ _ _ _ _ _ _ hU).mp hg).2.1, by intro h; omega, fun _ => ⟨hmn10, ?_, ?_, ?_, ?_⟩⟩
        · split <;> omega
        · split
          · exact_mod_cast hx1U
          · exact hmxU
        · intro i hi
          rw [Nat.testBit_or, Bool.or_eq_true, testBit_one_shift, beq_iff_eq] at hi
          rcases hi with hi | rfl
          · have := hbits i hi
            constructor
            · omega
            · split <;> omega
          · constructor
            · exact hmn1x1
            · split <;> omega
        · by_cases hgt : (x1 : Int) > mx
          · rw [if_pos hgt]
            right
            rw [Int.toNat_natCast, Nat.testBit_or, testBit_one_shift]
            simp
          · rw [if_neg hgt]
            rcases hwit with hw | hw
            · -- mx = mn: then x1 must be mn.toNat (the swapped-down old min)
              right
              have hxlt : (x : Int) < mn := by
                by_contra hh
                rw [hx1] at hgt
                rw [if_neg hh] at hgt
                omega
              rw [Nat.testBit_or, Bool.or_eq_true, testBit_one_shift]
              right
              rw [beq_iff_eq, hx1, if_pos hxlt, hw]
            · right
              rw [Nat.testBit_or, Bool.or_eq_true]
              exact Or.inl hw
      · intro y
        rw [contains_unfold, contains_unfold, Bool.eq_iff_iff]
        simp only [hU, if_true, Bool.or_eq_true, beq_iff_eq, Nat.testBit_or,
          testBit_one_shift]
        by_cases hby : sm.testBit y = true
        · simp [hby]
        · simp only [hby, Bool.false_eq_true, false_or, or_false]
          rw [hx1, hmn1]
          split_ifs with hlt <;> omega
    · -- internal node: maybe mark the block in the summary, then descend
      match summ, hg with
      | some s, hg =>
        obtain ⟨hsU, hpos, hb, hsu, hgs, hsync, -, h2⟩ := (good_node_iff _ _ _ _ _ _ _ hU).mp hg
        obtain ⟨hmn0, hmnmx, hmxU, hbel, hwit⟩ := h2 hmn
        have hbelx : Below B blk x = false := by simpa [hU] using hrest
        have hmnt : (mn.toNat : Int) = mn := Int.toNat_of_nonneg hmn0
        have hxmn : ¬ (x : Int) = mn := by simpa using hxm
        obtain ⟨x1, hx1⟩ : ∃ x1 : Nat, x1 = (if (x : Int) < mn then mn.toNat else x) := ⟨_, rfl⟩
        obtain ⟨mn1, hmn1⟩ : ∃ mn1 : Int, mn1 = (if (x : Int) < mn then (x : Int) else mn) :=
          ⟨_, rfl⟩
        have hx1U : x1 < U := by
          rw [hx1]
          split
          · omega
          · exact hx
        have hmn1x1 : mn1 < (x1 : Int) := by
          rw [hx1, hmn1]
          split <;> omega
        have hmn1mn : mn1 ≤ mn := by
          rw [hmn1]
          split <;> omega
        have hmn10 : 0 ≤ mn1 := by
          rw [hmn1]
          split <;> omega
        have hhigh : high B x1 < blk.length := high_lt B x1 blk.length (hsU ▸ hx1U)
        have hbDi : blkD blk (high B x1) = blk.get ⟨high B x1, hhigh⟩ :=
          blkD_eq_get _ _ hhigh
        have hcmem : blk.get ⟨high B x1, hhigh⟩ ∈ blk := List.get_mem _ _ _
        have hcU : (blk.get ⟨high B x1, hhigh⟩).U = 2 ^ B := (hb _ hcmem).1
        have hcG : Good (blk.get ⟨high B x1, hhigh⟩) := (hb _ hcmem).2
        have hbelx1 : Below B blk x1 = false := by
          by_cases hlt : (x : Int) < mn
          · by_contra hh
            rw [Bool.not_eq_false] at hh
            have hbd := hbel x1 hh
            have hxx : (x1 : Int) = mn := by
              rw [hx1, if_pos hlt, hmnt]
            omega
          · have hxx : x1 = x := by
              rw [hx1, if_neg hlt]
            rw [hxx]
            exact hbelx
        have hcx1 : contains (blk.get ⟨high B x1, hhigh⟩) (low B x1) = false := by
          rw [← below_of_lt B blk x1 hhigh]
          exact hbelx1
        obtain ⟨hGc', hcc'⟩ := ihb _ hcmem hcG (low B x1) (by rw [hcU]; exact low_lt B x1) hcx1
        have hc'U : (insert (blk.get ⟨high B x1, hhigh⟩) (low B x1)).U
            = (blk.get ⟨high B x1, hhigh⟩).U := insert_U _ _
        have hc'min : (insert (blk.get ⟨high B x1, hhigh⟩) (low B x1)).min ≠ -1 := by
          intro hh
          have h0 := contains_empty _ hGc' hh (low B x1)
          rw [hcc' (low B x1)] at h0
          simp at h0
        -- uniform characterisation of the updated summary
        have hSfacts : Good (if (blkD blk (high B x1)).min == -1
              then insert s (high B x1) else s) ∧
            (if (blkD blk (high B x1)).min == -1
              then insert s (high B x1) else s).U = blk.length ∧
            (∀ k : Nat, k < blk.length →
              ((contains (if (blkD blk (high B x1)).min == -1
                  then insert s (high B x1) else s) k = true) ↔
                (k = high B x1 ∨ contains s k = true))) := by
          by_cases hbe : (blkD blk (high B x1)).min = -1
          · rw [if_pos (by simp [hbe])]
            have hsi : contains s (high B x1) = false := by
              cases hcs : contains s (high B x1)
              · rfl
              · exact absurd ((hsync _ hhigh).mp hcs) (by simpa using hbe)
            obtain ⟨hGs', hsc'⟩ := ihs s rfl hgs (high B x1) (by rw [hsu]; exact hhigh) hsi
            refine ⟨hGs', (insert_U _ _).trans hsu, fun k hk => ?_⟩
            rw [hsc' k]
            simp only [Bool.or_eq_true, beq_iff_eq]
            tauto
          · rw [if_neg (by simpa using hbe)]
            refine ⟨hgs, hsu, fun k hk => ?_⟩
            constructor
            · intro h
              right
              exact h
            · rintro (rfl | h)
              · exact (hsync _ hhigh).mpr hbe
              · exact h
        rw [insert_eq_node _ _ _ _ _ _ _ _ hmn hU _ _ hx1 hmn1 hhigh]
        obtain ⟨hGs1, hs1U, hs1c⟩ := hSfacts
        -- facts about the updated block list
        have hlen' : (blk.set (high B x1) (insert (blk.get ⟨high B x1, hhigh⟩) (low B x1))).length
            = blk.length := List.length_set _ _ _
        have hbel' : ∀ y : Nat,
            Below B (blk.set (high B x1) (insert (blk.get ⟨high B x1, hhigh⟩) (low B x1))) y
              = (if high B y = high B x1
                  then contains (insert (blk.get ⟨high B x1, hhigh⟩) (low B x1)) (low B y)
                  else Below B blk y) :=
          fun y => below_set B blk (high B x1) _ y hhigh
        have hyx1 : ∀ y : Nat, high B y = high B x1 → low B y = low B x1 → y = x1 := by
          intro y h1 h2
          have hy := (index_high_low B y).symm
          rw [h1, h2, index_high_low] at hy
          exact hy
        have hbelnew : ∀ y : Nat,
            Below B (blk.set (high B x1) (insert (blk.get ⟨high B x1, hhigh⟩) (low B x1))) y = true
              ↔ (Below B blk y = true ∨ y = x1) := by
          intro y
          rw [hbel' y]
          by_cases heq : high B y = high B x1
          · rw [if_pos heq, hcc' (low B y)]
            simp only [Bool.or_eq_true, beq_iff_eq]
            constructor
            · rintro (h | h)
              · left
                rw [below_of_lt B blk y (heq ▸ hhigh)]
                have : (⟨high B y, heq ▸ hhigh⟩ : Fin blk.length) = ⟨high B x1, hhigh⟩ := by
                  simp [heq]
                rw [this]
                exact h
              · right
                exact hyx1 y heq h
            · rintro (h | rfl)
              · left
                rw [below_of_lt B blk y (heq ▸ hhigh)] at h
                have : (⟨high B y, heq ▸ hhigh⟩ : Fin blk.length) = ⟨high B x1, hhigh⟩ := by
                  simp [heq]
                rw [this] at h
                exact h
              · right
                rfl
          · rw [if_neg heq]
            constructor
            · intro h
              left
              exact h
            · rintro (h | rfl)
              · exact h
              · exact absurd rfl heq
        constructor
        · rw [good_node_iff _ _ _ _ _ _ _ hU]
          refine ⟨by rw [hlen']; exact hsU, by rw [hlen']; exact hpos, ?_,
            by rw [hs1U, hlen'], hGs1, ?_, by intro h; omega,
            fun _ => ⟨hmn10, ?_, ?_, ?_, ?_⟩⟩
          · intro b hbm
            rcases List.mem_or_eq_of_mem_set hbm with hbm | rfl
            · exact hb b hbm
            · exact ⟨hc'U.trans hcU, hGc'⟩
          · intro k hk
            rw [hlen'] at hk
            rw [hs1c k hk]
            by_cases hki : k = high B x1
            · subst hki
              rw [blkD_set_self _ _ _ hhigh]
              constructor
              · intro _
                exact hc'min
              · intro _
                exact Or.inl rfl
            · rw [blkD_set_ne _ _ _ _ hki]
              constructor
              · rintro (rfl | h)
                · exact absurd rfl hki
                · exact (hsync k hk).mp h
              · intro h
                right
                exact (hsync k hk).mpr h
          · split <;> omega
          · split
            · exact_mod_cast hx1U
            · exact hmxU
          · intro y hy
            rw [hbelnew y] at hy
            rcases hy with hy | rfl
            · have := hbel y hy
              constructor
              · omega
              · split <;> omega
            · constructor
              · exact hmn1x1
              · split <;> omega
          · by_cases hgt : (x1 : Int) > mx
            · rw [if_pos hgt]
              right
              rw [Int.toNat_natCast, hbelnew x1]
              right
              rfl
            · rw [if_neg hgt]
              right
              rcases hwit with hw | hw
              · have hxlt : (x : Int) < mn := by
                  by_contra hh
                  rw [hx1, if_neg hh] at hgt
                  omega
                rw [hbelnew mx.toNat]
                right
                rw [hw, hx1, if_pos hxlt]
              · rw [hbelnew mx.toNat]
                left
                exact hw
        · intro y
          rw [contains_unfold, contains_unfold, Bool.eq_iff_iff]
          simp only [hU, if_false, Bool.or_eq_true, beq_iff_eq]
          rw [hbelnew y]
          by_cases hby : Below B blk y = true
          · simp [hby]
          · simp only [hby, false_or, or_false]
            rw [hx1, hmn1]
            split_ifs with hlt <;> first
              | omega
              | (simp only [false_or, or_false] <;> omega)
      | none, hg => exact absurd hg (good_node_none _ _ _ _ _ _ hU)

end Pow2


/-- Specification of `successor`: the result is `-1` when no member above `x`
exists, and otherwise the least member strictly above `x`. -/
def FirstAbove (p : Nat → Bool) (x : Nat) (r : Int) : Prop :=
  (r = -1 ∧ ∀ y : Nat, x < y → p y = false) ∨
  (∃ n : Nat, r = (n : Int) ∧ x < n ∧ p n = true ∧ ∀ y : Nat, x < y → y < n → p y = false)

namespace Pow2

theorem min_nonneg (v : V) (hg : Good v) (hmn : v.min ≠ -1) : 0 ≤ v.min := by
  obtain ⟨U, B, mn, mx, sm, summ, blk⟩ := v
  simp only [V.min_mk] at hmn ⊢
  by_cases hU : U < 32
  · exact (((good_leaf_iff _ _ _ _ _ _ _ hU).mp hg).2.2.2 hmn).1
  · match summ, hg with
    | some s, hg => exact (((good_node_iff _ _ _ _ _ _ _ hU).mp hg).2.2.2.2.2.2.2 hmn).1
    | none, hg => exact absurd hg (good_node_none _ _ _ _ _ _ hU)

theorem succ_eq_lt (U B : Nat) (mn mx : Int) (sm : Nat) (summ : Option V)
    (blk : List V) (x : Nat) (hlt : (x : Int) < mn) :
    successor (.mk U B mn mx sm summ blk) x = mn := by
  rw [successor.eq_def]
  simp [hlt]

theorem succ_eq_leaf (U B : Nat) (mn mx : Int) (sm : Nat) (summ : Option V)
    (blk : List V) (x : Nat) (hlt : ¬ (x : Int) < mn) (hU : U < 32) :
    successor (.mk U B mn mx sm summ blk) x =
      scanList sm (List.range' (x + 1) (U - (x + 1))) := by
  rw [successor.eq_def]
  simp [hlt, hU]

theorem succ_eq_node_in (U B : Nat) (mn mx : Int) (sm : Nat) (s : V)
    (blk : List V) (x : Nat) (hlt : ¬ (x : Int) < mn) (hU : ¬ U < 32)
    (hhigh : high B x < blk.length)
    (hin : ((low B x : Nat) : Int) < (blkD blk (high B x)).max) :
    successor (.mk U B mn mx sm (some s) blk) x =
      (index B (high B x) (successor (blk.get ⟨high B x, hhigh⟩) (low B x)).toNat : Int) := by
  rw [successor.eq_def]
  simp [hlt, hU, hin, hhigh]

theorem succ_eq_node_found (U B : Nat) (mn mx : Int) (sm : Nat) (s : V)
    (blk : List V) (x : Nat) (hlt : ¬ (x : Int) < mn) (hU : ¬ U < 32)
    (hout : ¬ ((low B x : Nat) : Int) < (blkD blk (high B x)).max)
    (hi2 : successor s (high B x) ≠ -1) :
    successor (.mk U B mn mx sm (some s) blk) x =
      (index B (successor s (high B x)).toNat
        ((blkD blk (successor s (high B x)).toNat).min.toNat) : Int) := by
  rw [successor.eq_def]
  simp only [hlt, if_false, hU, hout]
  simp [hi2]

theorem succ_eq_node_none (U B : Nat) (mn mx : Int) (sm : Nat) (s : V)
    (blk : List V) (x : Nat) (hlt : ¬ (x : Int) < mn) (hU : ¬ U < 32)
    (hout : ¬ ((low B x : Nat) : Int) < (blkD blk (high B x)).max)
    (hi2 : successor s (high B x) = -1) :
    successor (.mk U B mn mx sm (some s) blk) x = -1 := by
  rw [successor.eq_def]
  simp only [hlt, if_false, hU, hout]
  simp [hi2]

end Pow2

namespace Pow2

theorem below_elim (B : Nat) (blk : List V) (y : Nat) (h : Below B blk y = true) :
    ∃ hh : high B y < blk.length, contains (blk.get ⟨high B y, hh⟩) (low B y) = true := by
  rw [Below] at h
  split at h
  · exact ⟨‹_›, h⟩
  · cases h

theorem below_index (B : Nat) (blk : List V) (i j : Nat) (hi : i < blk.length)
    (hj : j < 2 ^ B) :
    Below B blk (index B i j) = contains (blk.get ⟨i, hi⟩) j := by
  rw [Below]
  simp only [high_index B i j hj, low_index B i j hj, hi, dif_pos]

theorem nonempty_of_contains (b : V) (hg : Good b) (z : Nat) (h : contains b z = true) :
    b.min ≠ -1 := by
  intro hh
  rw [contains_empty b hg hh z] at h
  cases h

theorem successor_spec : ∀ v : V, Good v → ∀ x : Nat, x < v.U →
    FirstAbove (fun y => contains v y) x (successor v x) := by
  refine V.induct _ ?_
  intro U B mn mx sm summ blk ihs ihb hg x hx
  simp only [V.U_mk] at hx
  by_cases hlt : (x : Int) < mn
  · -- step 1: x below the cached minimum, which is then the answer
    rw [succ_eq_lt _ _ _ _ _ _ _ _ hlt]
    have hmn : mn ≠ -1 := by
      intro h
      rw [h] at hlt
      omega
    have hmn0 : 0 ≤ mn := min_nonneg (V.mk U B mn mx sm summ blk) hg (by simpa using hmn)
    right
    refine ⟨mn.toNat, (Int.toNat_of_nonneg hmn0).symm, by omega, ?_, ?_⟩
    · simpa using min_mem (V.mk U B mn mx sm summ blk) hg (by simpa using hmn)
    · intro y hy1 hy2
      cases hc : contains (V.mk U B mn mx sm summ blk) y
      · exact hc
      · have := min_le_of_mem _ hg y hc
        simp only [V.min_mk] at this
        omega
  · by_cases hU : U < 32
    · -- leaf scan over the mask
      rw [succ_eq_leaf _ _ _ _ _ _ _ _ hlt hU]
      rcases scanList_spec sm (x + 1) (U - (x + 1)) with ⟨h1, h2⟩ | ⟨m, h1, h2, h3, h4, h5⟩
      · left
        refine ⟨h1, fun y hy => ?_⟩
        cases hc : contains (V.mk U B mn mx sm summ blk) y
        · exact hc
        · exfalso
          have hyU : y < U := by simpa using contains_lt_U _ hg y hc
          rw [contains_unfold] at hc
          simp only [hU, if_true, Bool.or_eq_true, beq_iff_eq] at hc
          rcases hc with hc | hc
          · omega
          · rw [h2 y (by omega) (by omega)] at hc
            cases hc
      · right
        refine ⟨m, h1, by omega, ?_, ?_⟩
        · show contains (V.mk U B mn mx sm summ blk) m = true
          rw [contains_unfold]
          simp [hU, h4]
        · intro y hy1 hy2
          cases hc : contains (V.mk U B mn mx sm summ blk) y
          · exact hc
          · exfalso
            rw [contains_unfold] at hc
            simp only [hU, if_true, Bool.or_eq_true, beq_iff_eq] at hc
            rcases hc with hc | hc
            · omega
            · rw [h5 y (by omega) hy2] at hc
              cases hc
    · -- internal node
      match summ, hg with
      | some s, hg =>
        obtain ⟨hsU, hpos, hb, hsu, hgs, hsync, -, -⟩ := (good_node_iff _ _ _ _ _ _ _ hU).mp hg
        have hhigh : high B x < blk.length := high_lt B x _ (hsU ▸ hx)
        have hbDi : blkD blk (high B x) = blk.get ⟨high B x, hhigh⟩ := blkD_eq_get _ _ hhigh
        have hcmem := List.get_mem blk (high B x) hhigh
        have hcU : (blk.get ⟨high B x, hhigh⟩).U = 2 ^ B := (hb _ hcmem).1
        have hcG := (hb _ hcmem).2
        have hmem_node : ∀ y : Nat, contains (V.mk U B mn mx sm (some s) blk) y = true ↔
            ((y : Int) = mn ∨ Below B blk y = true) := by
          intro y
          rw [contains_unfold]
          simp [hU]
        have hxeq : x = index B (high B x) (low B x) := (index_high_low B x).symm
        have hxarith : x = high B x * 2 ^ B + low B x := by
          nth_rewrite 1 [hxeq]
          rw [index_eq _ _ _ (low_lt B x)]
        have hyarith : ∀ y : Nat, y = high B y * 2 ^ B + low B y := by
          intro y
          nth_rewrite 1 [(index_high_low B y).symm]
          rw [index_eq _ _ _ (low_lt B y)]
        by_cases hin : ((low B x : Nat) : Int) < (blkD blk (high B x)).max
        · rw [succ_eq_node_in _ _ _ _ _ _ _ _ hlt hU hhigh hin]
          rw [hbDi] at hin
          have hcmax : (blk.get ⟨high B x, hhigh⟩).max ≠ -1 := by
            intro h
            rw [h] at hin
            omega
          have hcmin : (blk.get ⟨high B x, hhigh⟩).min ≠ -1 := fun h =>
            hcmax ((min_neg_iff_max_neg _ hcG).mp h)
          rcases ihb _ hcmem hcG (low B x) (by rw [hcU]; exact low_lt B x) with
            ⟨hr, hall⟩ | ⟨n, hr, hn1, hn2, hn3⟩
          · exfalso
            have hmxmem := max_mem _ hcG hcmin
            have h0 : contains (blk.get ⟨high B x, hhigh⟩)
                ((blk.get ⟨high B x, hhigh⟩).max.toNat) = false :=
              hall ((blk.get ⟨high B x, hhigh⟩).max.toNat) (by omega)
            rw [hmxmem] at h0
            cases h0
          · have hn2'' : contains (blk.get ⟨high B x, hhigh⟩) n = true := hn2
            have hn3'' : ∀ y : Nat, low B x < y → y < n →
                contains (blk.get ⟨high B x, hhigh⟩) y = false := hn3
            rw [hr, Int.toNat_natCast]
            right
            have hn2' : n < 2 ^ B := by
              have := contains_lt_U _ hcG n hn2''
              rwa [hcU] at this
            refine ⟨index B (high B x) n, rfl, ?_, ?_, ?_⟩
            · rw [index_eq _ _ _ hn2']
              omega
            · show contains (V.mk U B mn mx sm (some s) blk) (index B (high B x) n) = true
              rw [contains_unfold]
              simp only [hU, if_false, Bool.or_eq_true]
              right
              rw [below_index B blk _ _ hhigh hn2']
              exact hn2''
            · intro y hy1 hy2
              cases hc : contains (V.mk U B mn mx sm (some s) blk) y
              · exact hc
              · exfalso
                rcases (hmem_node y).mp hc with hc' | hc'
                · omega
                · obtain ⟨hylen, hyc⟩ := below_elim _ _ _ hc'
                  rw [index_eq _ _ _ hn2'] at hy2
                  have hy1' := hy1
                  rw [hxarith, hyarith y] at hy1'
                  rw [hyarith y] at hy2
                  rw [lex_lt _ _ _ _ _ (low_lt B x) (low_lt B y)] at hy1'
                  rw [lex_lt _ _ _ _ _ (low_lt B y) hn2'] at hy2
                  have hiy : high B y = high B x := by omega
                  have hjy1 : low B x < low B y := by omega
                  have hjy2 : low B y < n := by omega
                  have hfin : (⟨high B y, hylen⟩ : Fin blk.length) = ⟨high B x, hhigh⟩ := by
                    simp [hiy]
                  rw [hfin] at hyc
                  rw [hn3'' (low B y) hjy1 hjy2] at hyc
                  cases hyc
        · -- no member above inside the block: route through the summary
          have hcbound : ∀ z : Nat, contains (blk.get ⟨high B x, hhigh⟩) z = true →
              (z : Int) ≤ ((low B x : Nat) : Int) := by
            intro z hz
            have h1 := mem_le_max _ hcG z hz
            rw [← hbDi] at h1
            omega
          have hIHs := ihs s rfl hgs (high B x) (by rw [hsu]; exact hhigh)
          rcases hIHs with ⟨hr2, hall2⟩ | ⟨n2, hr2, hn21, hn22, hn23⟩
          · -- no later non-empty block either: no successor
            rw [succ_eq_node_none _ _ _ _ _ _ _ _ hlt hU hin hr2]
            left
            refine ⟨rfl, fun y hy => ?_⟩
            cases hc : contains (V.mk U B mn mx sm (some s) blk) y
            · exact hc
            · exfalso
              rcases (hmem_node y).mp hc with hc' | hc'
              · omega
              · obtain ⟨hylen, hyc⟩ := below_elim _ _ _ hc'
                have hy' := hy
                rw [hxarith, hyarith y] at hy'
                rw [lex_lt _ _ _ _ _ (low_lt B x) (low_lt B y)] at hy'
                rcases hy' with hcase | ⟨hceq, hclt⟩
                · -- a later block would have to be non-empty, but the summary is empty above
                  have hnon : (blkD blk (high B y)).min ≠ -1 := by
                    rw [blkD_eq_get _ _ hylen]
                    exact nonempty_of_contains _ ((hb _ (List.get_mem _ _ hylen)).2) _ hyc
                  have hsmem := (hsync (high B y) hylen).mpr hnon
                  have h0 : contains s (high B y) = false := hall2 (high B y) hcase
                  rw [h0] at hsmem
                  cases hsmem
                · -- same block: bounded by the block maximum
                  have hfin : (⟨high B y, hylen⟩ : Fin blk.length) = ⟨high B x, hhigh⟩ := by
                    simp [hceq]
                  rw [hfin] at hyc
                  have := hcbound (low B y) hyc
                  omega
          · -- the next non-empty block exists: answer is its cached minimum
            have hn22' : contains s n2 = true := hn22
            have hn23' : ∀ k : Nat, high B x < k → k < n2 → contains s k = false := hn23
            have hn2len : n2 < blk.length := by
              have := contains_lt_U _ hgs n2 hn22'
              rwa [hsu] at this
            have hr2' : successor s (high B x) ≠ -1 := by
              rw [hr2]
              omega
            rw [succ_eq_node_found _ _ _ _ _ _ _ _ hlt hU hin hr2', hr2, Int.toNat_natCast]
            have hbD2 : blkD blk n2 = blk.get ⟨n2, hn2len⟩ := blkD_eq_get _ _ hn2len
            have hc2mem := List.get_mem blk n2 hn2len
            have hc2U : (blk.get ⟨n2, hn2len⟩).U = 2 ^ B := (hb _ hc2mem).1
            have hc2G := (hb _ hc2mem).2
            have hc2min : (blk.get ⟨n2, hn2len⟩).min ≠ -1 := by
              have := (hsync n2 hn2len).mp hn22'
              rwa [hbD2] at this
            have hc2min0 : 0 ≤ (blk.get ⟨n2, hn2len⟩).min := min_nonneg _ hc2G hc2min
            have hm2mem : contains (blk.get ⟨n2, hn2len⟩)
                (blk.get ⟨n2, hn2len⟩).min.toNat = true := min_mem _ hc2G hc2min
            have hm2lt : (blk.get ⟨n2, hn2len⟩).min.toNat < 2 ^ B := by
              have := contains_lt_U _ hc2G _ hm2mem
              rwa [hc2U] at this
            rw [hbD2]
            right
            refine ⟨index B n2 (blk.get ⟨n2, hn2len⟩).min.toNat, rfl, ?_, ?_, ?_⟩
            · rw [index_eq _ _ _ hm2lt]
              have h5 : (high B x + 1) * 2 ^ B ≤ n2 * 2 ^ B :=
                Nat.mul_le_mul_right _ hn21
              have h6 : (high B x + 1) * 2 ^ B = high B x * 2 ^ B + 2 ^ B := by ring
              have h7 := low_lt B x
              omega
            · show contains (V.mk U B mn mx sm (some s) blk)
                (index B n2 (blk.get ⟨n2, hn2len⟩).min.toNat) = true
              rw [contains_unfold]
              simp only [hU, if_false, Bool.or_eq_true]
              right
              rw [below_index B blk _ _ hn2len hm2lt]
              exact hm2mem
            · intro y hy1 hy2
              cases hc : contains (V.mk U B mn mx sm (some s) blk) y
              · exact hc
              · exfalso
                rcases (hmem_node y).mp hc with hc' | hc'
                · omega
                · obtain ⟨hylen, hyc⟩ := below_elim _ _ _ hc'
                  have hy1' := hy1
                  rw [hxarith, hyarith y] at hy1'
                  rw [lex_lt _ _ _ _ _ (low_lt B x) (low_lt B y)] at hy1'
                  rw [index_eq _ _ _ hm2lt] at hy2
                  have hy2' := hy2
                  rw [hyarith y] at hy2'
                  rw [lex_lt _ _ _ _ _ (low_lt B y) hm2lt] at hy2'
                  rcases hy1' with hcase | ⟨hceq, hclt⟩
                  · rcases hy2' with hy2c | ⟨hyeq2, hylow2⟩
                    · -- strictly later block, strictly before n2: that block is empty
                      have hnon : (blkD blk (high B y)).min ≠ -1 := by
                        rw [blkD_eq_get _ _ hylen]
                        exact nonempty_of_contains _ ((hb _ (List.get_mem _ _ hylen)).2) _ hyc
                      have hsmem := (hsync (high B y) hylen).mpr hnon
                      rw [hn23' (high B y) hcase hy2c] at hsmem
                      cases hsmem
                    · -- y would sit below the cached minimum of block n2
                      have hfin2 : (⟨high B y, hylen⟩ : Fin blk.length) = ⟨n2, hn2len⟩ := by
                        simp [hyeq2]
                      rw [hfin2] at hyc
                      have := min_le_of_mem _ hc2G _ hyc
                      omega
                  · -- same block as x: bounded by its maximum
                    have hfin : (⟨high B y, hylen⟩ : Fin blk.length) = ⟨high B x, hhigh⟩ := by
                      simp [hceq]
                    rw [hfin] at hyc
                    have := hcbound (low B y) hyc
                    omega
      | none, hg => exact absurd hg (good_node_none _ _ _ _ _ _ hU)

end Pow2


theorem set_get_self (l : List V) (i : Nat) (h : i < l.length) :
    l.set i (l.get ⟨i, h⟩) = l := by
  apply List.ext_get (by simp)
  intro n h1 h2
  by_cases hn : n = i
  · subst hn
    rw [List.get_set_eq]
  · rw [List.get_set_ne (fun hh => hn hh.symm)]

theorem clearBit_noop (sm x : Nat) (h : sm.testBit x = false) : clearBit sm x = sm := by
  apply Nat.eq_of_testBit_eq
  intro i
  rw [Pow2.testBit_clearBit]
  by_cases hi : i = x
  · subst hi
    simp [h]
  · simp [hi]

namespace Pow2

theorem erase_eq_leaf (U B : Nat) (mn mx : Int) (sm : Nat) (summ : Option V)
    (blk : List V) (x : Nat) (hU : U < 32) (mn1 mx1 : Int)
    (hmn1 : mn1 = if (x : Int) == mn then -1 else mn)
    (hmx1 : mx1 = if (x : Int) == mx then mn1 else mx) :
    erase (.mk U B mn mx sm summ blk) x =
      .mk U B (rescanList (clearBit sm x) mn1 mx1 (List.range U)).2.1
        (rescanList (clearBit sm x) mn1 mx1 (List.range U)).2.2
        (rescanList (clearBit sm x) mn1 mx1 (List.range U)).1 summ blk := by
  subst hmn1 hmx1
  rw [erase.eq_def]
  simp [hU]

theorem erase_eq_last (U B : Nat) (mn mx : Int) (sm : Nat) (s : V)
    (blk : List V) (x : Nat) (hU : ¬ U < 32) (hxm : (x : Int) = mn) (hsm : s.min = -1) :
    erase (.mk U B mn mx sm (some s) blk) x = .mk U B (-1) (-1) sm (some s) blk := by
  rw [erase.eq_def]
  simp [hU, hxm, hsm]

theorem erase_eq_notmin (U B : Nat) (mn mx : Int) (sm : Nat) (s : V)
    (blk : List V) (x : Nat) (hU : ¬ U < 32) (hxm : ((x : Int) == mn) = false)
    (hhigh : high B x < blk.length) (blk1 : List V) (s1 : V) (mx1 : Int)
    (hblk1 : blk1 = blk.set (high B x) (erase (blk.get ⟨high B x, hhigh⟩) (low B x)))
    (hs1 : s1 = if (blkD blk1 (high B x)).min == -1 then erase s (high B x) else s)
    (hmx1 : mx1 = if (x : Int) == mx then
        (if s1.max == -1 then mn
         else (index B s1.max.toNat ((blkD blk1 s1.max.toNat).max.toNat) : Int))
      else mx) :
    erase (.mk U B mn mx sm (some s) blk) x = .mk U B mn mx1 sm (some s1) blk1 := by
  subst hblk1 hs1 hmx1
  rw [erase.eq_def]
  simp only [hU, if_false, hxm, Bool.false_and]
  simp [hhigh, hxm]

theorem erase_eq_min (U B : Nat) (mn mx : Int) (sm : Nat) (s : V)
    (blk : List V) (x : Nat) (hU : ¬ U < 32) (hxm : (x : Int) = mn) (hsm : s.min ≠ -1)
    (m : Nat) (hm : m = index B s.min.toNat (blkD blk s.min.toNat).min.toNat)
    (hhigh : high B m < blk.length) (blk1 : List V) (s1 : V) (mx1 : Int)
    (hblk1 : blk1 = blk.set (high B m) (erase (blk.get ⟨high B m, hhigh⟩) (low B m)))
    (hs1 : s1 = if (blkD blk1 (high B m)).min == -1 then erase s (high B m) else s)
    (hmx1 : mx1 = if (m : Int) == mx then
        (if s1.max == -1 then (m : Int)
         else (index B s1.max.toNat ((blkD blk1 s1.max.toNat).max.toNat) : Int))
      else mx) :
    erase (.mk U B mn mx sm (some s) blk) x = .mk U B (m : Int) mx1 sm (some s1) blk1 := by
  subst hblk1 hs1 hmx1 hm
  rw [erase.eq_def]
  simp only [hU, if_false, hxm, beq_self_eq_true, Bool.true_and]
  simp [hsm, hhigh]

end Pow2

namespace Pow2

theorem erase_absent : ∀ v : V, Good v → ∀ x : Nat, x < v.U → contains v x = false →
    erase v x = v := by
  refine V.induct _ ?_
  intro U B mn mx sm summ blk ihs ihb hg x hx hcx
  simp only [V.U_mk] at hx
  rw [contains_unfold] at hcx
  have hxm : ((x : Int) == mn) = false := by
    by_contra hh
    rw [Bool.not_eq_false] at hh
    rw [hh] at hcx
    simp at hcx
  have hrest : (if U < 32 then sm.testBit x else Below B blk x) = false := by
    by_contra hh
    rw [Bool.not_eq_false] at hh
    rw [hh, hxm] at hcx
    simp at hcx
  by_cases hU : U < 32
  · -- leaf: clearing an unset bit and rescanning is the identity
    have hbit : sm.testBit x = false := by simpa [hU] using hrest
    obtain ⟨-, -, h1, h2⟩ := (good_leaf_iff _ _ _ _ _ _ _ hU).mp hg
    have hxmn : ¬ (x : Int) = mn := by simpa using hxm
    have hxmx : ((x : Int) == mx) = false := by
      rw [beq_eq_false_iff_ne]
      intro hh
      by_cases hmn : mn = -1
      · rw [(h1 hmn).1] at hh
        omega
      · have hmxm := max_mem (V.mk U B mn mx sm summ blk) hg (by simpa using hmn)
        obtain ⟨hmn0, hmnmx, hmxU, hbits, hwit⟩ := h2 hmn
        rw [contains_unfold] at hmxm
        simp only [hU, if_true, Bool.or_eq_true, beq_iff_eq, V.max_mk] at hmxm
        have hxt : mx.toNat = x := by omega
        rcases hmxm with hc | hc
        · omega
        · rw [hxt, hbit] at hc
          cases hc
    rw [erase_eq_leaf _ _ _ _ _ _ _ _ hU mn mx (by rw [hxm]; simp) (by rw [hxmx]; simp),
      clearBit_noop sm x hbit]
    by_cases hmn : mn = -1
    · obtain ⟨hmx0, hsm0⟩ := h1 hmn
      subst hsm0 hmn hmx0
      rw [List.range_eq_range', rescan_nobits _ _ _ _ _ (fun i h1 h2 => Nat.zero_testBit i)]
    · obtain ⟨hmn0, hmnmx, hmxU, hbits, hwit⟩ := h2 hmn
      by_cases hsm : sm = 0
      · subst hsm
        rw [List.range_eq_range', rescan_nobits _ _ _ _ _ (fun i h1 h2 => Nat.zero_testBit i)]
      · -- the mask is non-empty: its greatest bit is mx, which the loop restores
        have hwit' : sm.testBit mx.toNat = true := by
          rcases hwit with hw | hw
          · exfalso
            obtain ⟨i, hi⟩ := Nat.ne_zero_implies_bit_true hsm
            have := hbits i hi
            omega
          · exact hw
        have hrs := rescan_stable sm mn mx (by intro hh; rw [hh] at hmn0; omega) 0 U
          mx.toNat (by omega) (by omega) hwit'
          (fun i hi1 hi2 => by
            cases hb2 : sm.testBit i
            · rfl
            · exfalso
              have := hbits i hb2
              omega)
        rw [List.range_eq_range', hrs]
        rw [Int.toNat_of_nonneg (by omega)]
  · -- internal: the recursive erase is a no-op on the (absent) low part
    match summ, hg with
    | some s, hg =>
      obtain ⟨hsU, hpos, hb, hsu, hgs, hsync, hemp, h2⟩ := (good_node_iff _ _ _ _ _ _ _ hU).mp hg
      have hbelx : Below B blk x = false := by simpa [hU] using hrest
      have hhigh : high B x < blk.length := high_lt B x _ (hsU ▸ hx)
      have hbDi : blkD blk (high B x) = blk.get ⟨high B x, hhigh⟩ := blkD_eq_get _ _ hhigh
      have hcmem := List.get_mem blk (high B x) hhigh
      have hcU : (blk.get ⟨high B x, hhigh⟩).U = 2 ^ B := (hb _ hcmem).1
      have hcG := (hb _ hcmem).2
      have hcx0 : contains (blk.get ⟨high B x, hhigh⟩) (low B x) = false := by
        rw [← below_of_lt B blk x hhigh]
        exact hbelx
      have hce : erase (blk.get ⟨high B x, hhigh⟩) (low B x) = blk.get ⟨high B x, hhigh⟩ :=
        ihb _ hcmem hcG (low B x) (by rw [hcU]; exact low_lt B x) hcx0
      have hxmn : ¬ (x : Int) = mn := by simpa using hxm
      have hblk1 : blk.set (high B x) (erase (blk.get ⟨high B x, hhigh⟩) (low B x)) = blk := by
        rw [hce, set_get_self]
      have hxmx : ((x : Int) == mx) = false := by
        rw [beq_eq_false_iff_ne]
        intro hh
        by_cases hmn : mn = -1
        · rw [(hemp hmn).1] at hh
          omega
        · have hmxm := max_mem (V.mk U B mn mx sm (some s) blk) hg (by simpa using hmn)
          rw [contains_unfold] at hmxm
          simp only [hU, if_false, Bool.or_eq_true, beq_iff_eq, V.max_mk] at hmxm
          obtain ⟨hmn0, hmnmx, hmxU, hbel, hwit⟩ := h2 hmn
          have hxt : mx.toNat = x := by omega
          rcases hmxm with hc | hc
          · omega
          · rw [hxt, hbelx] at hc
            cases hc
      have hs1 : (if (blkD (blk.set (high B x) (erase (blk.get ⟨high B x, hhigh⟩) (low B x)))
            (high B x)).min == -1 then erase s (high B x) else s) = s := by
        rw [hblk1, hbDi]
        by_cases hbe : (blk.get ⟨high B x, hhigh⟩).min = -1
        · rw [if_pos (beq_iff_eq.mpr hbe)]
          have hsc : contains s (high B x) = false := by
            cases hcs : contains s (high B x)
            · rfl
            · exact absurd ((hsync _ hhigh).mp hcs) (by rw [hbDi]; simpa using hbe)
          exact ihs s rfl hgs (high B x) (by rw [hsu]; exact hhigh) hsc
        · rw [if_neg (by simpa using hbe)]
      rw [erase_eq_notmin _ _ _ _ _ _ _ _ hU hxm hhigh _ _ _ rfl rfl rfl]
      rw [hs1, hblk1, hxmx]
      simp
    | none, hg => exact absurd hg (good_node_none _ _ _ _ _ _ hU)

end Pow2


namespace Pow2

/-- Common part of the internal-node erase: after removing `low x2` from block
`high x2` and fixing the summary, the blocks store exactly the old below-set
minus `x2`, the summary again tracks the non-empty blocks, and the recombined
`summary.max`/`block_max` value is the greatest remaining below-member. -/
theorem min_le_max (v : V) (hg : Good v) (hmn : v.min ≠ -1) : v.min ≤ v.max := by
  obtain ⟨U, B, mn, mx, sm, summ, blk⟩ := v
  simp only [V.min_mk, V.max_mk] at hmn ⊢
  by_cases hU : U < 32
  · exact (((good_leaf_iff _ _ _ _ _ _ _ hU).mp hg).2.2.2 hmn).2.1
  · match summ, hg with
    | some s, hg => exact (((good_node_iff _ _ _ _ _ _ _ hU).mp hg).2.2.2.2.2.2.2 hmn).2.1
    | none, hg => exact absurd hg (good_node_none _ _ _ _ _ _ hU)

theorem erase_core (B : Nat) (blk : List V) (s : V)
    (hb : ∀ b ∈ blk, b.U = 2 ^ B ∧ Good b) (hsu : s.U = blk.length) (hgs : Good s)
    (hsync : ∀ k : Nat, k < blk.length → (contains s k = true ↔ (blkD blk k).min ≠ -1))
    (x2 : Nat) (hhigh : high B x2 < blk.length)
    (hcx2 : contains (blk.get ⟨high B x2, hhigh⟩) (low B x2) = true)
    (hIHcG : Good (erase (blk.get ⟨high B x2, hhigh⟩) (low B x2)))
    (hIHcc : ∀ z : Nat, contains (erase (blk.get ⟨high B x2, hhigh⟩) (low B x2)) z
      = (contains (blk.get ⟨high B x2, hhigh⟩) z && !(z == low B x2)))
    (hIHsG : contains s (high B x2) = true → Good (erase s (high B x2)))
    (hIHsc : contains s (high B x2) = true → ∀ k : Nat,
      contains (erase s (high B x2)) k = (contains s k && !(k == high B x2)))
    (blk1 : List V)
    (hblk1 : blk1 = blk.set (high B x2) (erase (blk.get ⟨high B x2, hhigh⟩) (low B x2)))
    (s1 : V) (hs1 : s1 = if (blkD blk1 (high B x2)).min == -1 then erase s (high B x2) else s) :
    (∀ b ∈ blk1, b.U = 2 ^ B ∧ Good b) ∧ Good s1 ∧ s1.U = blk.length ∧
    (∀ k : Nat, k < blk.length → (contains s1 k = true ↔ (blkD blk1 k).min ≠ -1)) ∧
    (∀ y : Nat, Below B blk1 y = true ↔ (Below B blk y = true ∧ y ≠ x2)) ∧
    (s1.min = -1 → ∀ y : Nat, Below B blk1 y = false) ∧
    (s1.min ≠ -1 →
      Below B blk1 (index B s1.max.toNat ((blkD blk1 s1.max.toNat).max.toNat)) = true ∧
      (∀ y : Nat, Below B blk1 y = true →
        y ≤ index B s1.max.toNat ((blkD blk1 s1.max.toNat).max.toNat))) := by
  have hcmem := List.get_mem blk (high B x2) hhigh
  have hcU : (blk.get ⟨high B x2, hhigh⟩).U = 2 ^ B := (hb _ hcmem).1
  have hcG := (hb _ hcmem).2
  have hcmin : (blk.get ⟨high B x2, hhigh⟩).min ≠ -1 :=
    nonempty_of_contains _ hcG _ hcx2
  have hssome : contains s (high B x2) = true :=
    (hsync _ hhigh).mpr (by rw [blkD_eq_get _ _ hhigh]; exact hcmin)
  have hlen1 : blk1.length = blk.length := by rw [hblk1, List.length_set]
  have hbD1i : blkD blk1 (high B x2) = erase (blk.get ⟨high B x2, hhigh⟩) (low B x2) := by
    rw [hblk1]
    exact blkD_set_self _ _ _ hhigh
  have hc'U : (erase (blk.get ⟨high B x2, hhigh⟩) (low B x2)).U = 2 ^ B :=
    (erase_U _ _).trans hcU
  -- C1
  have hC1 : ∀ b ∈ blk1, b.U = 2 ^ B ∧ Good b := by
    intro b hbm
    rw [hblk1] at hbm
    rcases List.mem_or_eq_of_mem_set hbm with hbm | rfl
    · exact hb b hbm
    · exact ⟨hc'U, hIHcG⟩
  -- C4
  have hC4 : ∀ y : Nat, Below B blk1 y = true ↔ (Below B blk y = true ∧ y ≠ x2) := by
    intro y
    rw [hblk1, below_set B blk _ _ y hhigh]
    by_cases heq : high B y = high B x2
    · rw [if_pos heq, hIHcc (low B y)]
      rw [below_of_lt B blk y (heq ▸ hhigh)]
      have hfin : (⟨high B y, heq ▸ hhigh⟩ : Fin blk.length) = ⟨high B x2, hhigh⟩ := by
        simp [heq]
      rw [hfin]
      simp only [Bool.and_eq_true, Bool.not_eq_true', beq_eq_false_iff_ne, ne_eq]
      constructor
      · rintro ⟨h1, h2⟩
        refine ⟨h1, fun hy => h2 ?_⟩
        rw [hy]
      · rintro ⟨h1, h2⟩
        refine ⟨h1, fun hy => h2 ?_⟩
        have := (index_high_low B y).symm
        rw [heq, hy] at this
        rw [this, index_high_low]
    · rw [if_neg heq]
      constructor
      · intro h
        refine ⟨h, fun hy => heq ?_⟩
        rw [hy]
      · exact fun h => h.1
  -- summary characterisation
  have hSfact : Good s1 ∧ s1.U = blk.length ∧
      (∀ k : Nat, contains s1 k =
        (contains s k && !((k == high B x2) &&
          ((erase (blk.get ⟨high B x2, hhigh⟩) (low B x2)).min == -1)))) := by
    rw [hs1, hbD1i]
    by_cases hbe : (erase (blk.get ⟨high B x2, hhigh⟩) (low B x2)).min = -1
    · rw [if_pos (beq_iff_eq.mpr hbe)]
      refine ⟨hIHsG hssome, (erase_U _ _).trans hsu, fun k => ?_⟩
      rw [hIHsc hssome k, beq_iff_eq.mpr hbe]
      simp
    · rw [if_neg (by simpa using hbe)]
      refine ⟨hgs, hsu, fun k => ?_⟩
      rw [beq_eq_false_iff_ne.mpr hbe]
      simp
  obtain ⟨hGs1, hs1U, hs1c⟩ := hSfact
  -- C3
  have hC3 : ∀ k : Nat, k < blk.length → (contains s1 k = true ↔ (blkD blk1 k).min ≠ -1) := by
    intro k hk
    rw [hs1c k]
    by_cases hki : k = high B x2
    · subst hki
      rw [hbD1i]
      by_cases hbe : (erase (blk.get ⟨high B x2, hhigh⟩) (low B x2)).min = -1
      · rw [beq_iff_eq.mpr hbe, beq_self_eq_true]
        simp only [Bool.and_self, Bool.not_true, Bool.and_false]
        exact ⟨fun h => Bool.noConfusion h, fun h => absurd hbe h⟩
      · rw [beq_eq_false_iff_ne.mpr hbe, beq_self_eq_true]
        simp only [Bool.true_and, Bool.not_false, Bool.and_true]
        exact ⟨fun _ => hbe, fun _ => hssome⟩
    · rw [hblk1, blkD_set_ne _ _ _ _ hki]
      have hkif : ((k == high B x2) = false) := beq_eq_false_iff_ne.mpr hki
      rw [hkif]
      simp only [Bool.false_and, Bool.not_false, Bool.and_true]
      exact hsync k hk
  -- C5
  have hC5 : s1.min = -1 → ∀ y : Nat, Below B blk1 y = false := by
    intro hse y
    apply below_empty
    · exact fun b hbm => (hC1 b hbm).2
    · intro b hbm
      obtain ⟨⟨n, hn⟩, hget⟩ := List.mem_iff_get.mp hbm
      have hn' : n < blk.length := by rwa [hlen1] at hn
      have h0 : contains s1 n = false := contains_empty s1 hGs1 hse n
      have h1 := (hC3 n hn')
      rw [h0] at h1
      have h2 : (blkD blk1 n).min = -1 := by
        by_contra hh
        exact absurd (h1.mpr hh) (by simp)
      rw [blkD_eq_get _ _ hn] at h2
      rw [← hget]
      exact h2
  refine ⟨hC1, hGs1, hs1U, hC3, hC4, hC5, ?_⟩
  -- C6
  intro hne
  have hsmax : s1.max ≠ -1 := fun h => hne ((min_neg_iff_max_neg s1 hGs1).mpr h)
  have hsmax0 : 0 ≤ s1.max :=
    le_trans (min_nonneg s1 hGs1 hne) (min_le_max s1 hGs1 hne)
  have hmaxmem : contains s1 s1.max.toNat = true := max_mem s1 hGs1 hne
  have hmaxlen : s1.max.toNat < blk.length := by
    have := contains_lt_U s1 hGs1 _ hmaxmem
    rwa [hs1U] at this
  have hmaxlen1 : s1.max.toNat < blk1.length := by rwa [hlen1]
  have hc3min : (blkD blk1 s1.max.toNat).min ≠ -1 := (hC3 _ hmaxlen).mp hmaxmem
  have hbD3 : blkD blk1 s1.max.toNat = blk1.get ⟨s1.max.toNat, hmaxlen1⟩ :=
    blkD_eq_get _ _ hmaxlen1
  have hc3G : Good (blk1.get ⟨s1.max.toNat, hmaxlen1⟩) :=
    (hC1 _ (List.get_mem _ _ _)).2
  have hc3U : (blk1.get ⟨s1.max.toNat, hmaxlen1⟩).U = 2 ^ B :=
    (hC1 _ (List.get_mem _ _ _)).1
  have hc3min' : (blk1.get ⟨s1.max.toNat, hmaxlen1⟩).min ≠ -1 := by
    rwa [hbD3] at hc3min
  have hc3maxmem : contains (blk1.get ⟨s1.max.toNat, hmaxlen1⟩)
      (blk1.get ⟨s1.max.toNat, hmaxlen1⟩).max.toNat = true := max_mem _ hc3G hc3min'
  have hc3maxlt : (blk1.get ⟨s1.max.toNat, hmaxlen1⟩).max.toNat < 2 ^ B := by
    have := contains_lt_U _ hc3G _ hc3maxmem
    rwa [hc3U] at this
  constructor
  · rw [hbD3, below_index B blk1 _ _ hmaxlen1 hc3maxlt]
    exact hc3maxmem
  · intro y hy
    obtain ⟨hylen1, hyc⟩ := below_elim _ _ _ hy
    have hylen : high B y < blk.length := by rwa [hlen1] at hylen1
    have hynon : (blkD blk1 (high B y)).min ≠ -1 := by
      rw [blkD_eq_get _ _ hylen1]
      exact nonempty_of_contains _ (hC1 _ (List.get_mem _ _ _)).2 _ hyc
    have hys1 : contains s1 (high B y) = true := (hC3 _ hylen).mpr hynon
    have hyle : (high B y : Int) ≤ s1.max := mem_le_max s1 hGs1 _ hys1
    have hyleN : high B y ≤ s1.max.toNat := by omega
    have hyarith : y = high B y * 2 ^ B + low B y := by
      nth_rewrite 1 [(index_high_low B y).symm]
      rw [index_eq _ _ _ (low_lt B y)]
    rw [hbD3, index_eq _ _ _ hc3maxlt]
    rcases Nat.eq_or_lt_of_le hyleN with heq | hlt
    · have hfin : (⟨high B y, hylen1⟩ : Fin blk1.length) = ⟨s1.max.toNat, hmaxlen1⟩ := by
        simp [heq]
      rw [hfin] at hyc
      have hjy := mem_le_max _ hc3G _ hyc
      have hjy' : low B y ≤ (blk1.get ⟨s1.max.toNat, hmaxlen1⟩).max.toNat := by omega
      rw [hyarith, heq]
      omega
    · have h1 : (high B y + 1) * 2 ^ B ≤ s1.max.toNat * 2 ^ B :=
        Nat.mul_le_mul_right _ hlt
      have h2 : (high B y + 1) * 2 ^ B = high B y * 2 ^ B + 2 ^ B := by ring
      have h3 := low_lt B y
      omega

end Pow2


namespace Pow2

theorem erase_spec : ∀ v : V, Good v → ∀ x : Nat, contains v x = true →
    Good (erase v x) ∧ ∀ y : Nat, contains (erase v x) y = (contains v y && !(y == x)) := by
  refine V.induct _ ?_
  intro U B mn mx sm summ blk ihs ihb hg x hcx
  have hmn : mn ≠ -1 := by simpa using nonempty_of_contains _ hg x hcx
  have hxU : x < U := by simpa using contains_lt_U _ hg x hcx
  by_cases hU : U < 32
  · -- LEAF
    obtain ⟨-, -, -, h2⟩ := (good_leaf_iff _ _ _ _ _ _ _ hU).mp hg
    obtain ⟨hmn0, hmnmx, hmxU, hbits, hwit⟩ := h2 hmn
    rw [contains_unfold] at hcx
    simp only [hU, if_true, Bool.or_eq_true, beq_iff_eq] at hcx
    by_cases hxm : (x : Int) = mn
    · -- erase the cached minimum: the rescan loop promotes the lowest mask bit
      have hbitx : sm.testBit x = false := by
        cases hb2 : sm.testBit x
        · rfl
        · exfalso
          have := hbits x hb2
          omega
      rw [erase_eq_leaf _ _ _ _ _ _ _ _ hU (-1) (if (x : Int) == mx then -1 else mx)
        (by rw [beq_iff_eq.mpr hxm]; simp) rfl, clearBit_noop sm x hbitx]
      by_cases hsm : sm = 0
      · -- x was the only member
        have hmxmn : mx = mn := by
          rcases hwit with hw | hw
          · exact hw
          · rw [hsm, Nat.zero_testBit] at hw
            cases hw
        have hxmx : ((x : Int) == mx) = true := by
          rw [beq_iff_eq, hmxmn]
          exact hxm
        rw [hxmx, hsm, List.range_eq_range',
          rescan_nobits _ _ _ _ _ (fun i h1 h2 => Nat.zero_testBit i)]
        dsimp only
        constructor
        · rw [good_leaf_iff _ _ _ _ _ _ _ hU]
          exact ⟨((good_leaf_iff _ _ _ _ _ _ _ hU).mp hg).1, ((good_leaf_iff _ _ _ _ _ _ _ hU).mp hg).2.1, fun _ => ⟨rfl, rfl⟩, fun h => absurd rfl h⟩
        · intro y
          rw [contains_unfold, contains_unfold, Bool.eq_iff_iff]
          simp only [hU, if_true, Nat.zero_testBit, Bool.or_false, Bool.and_eq_true,
            beq_iff_eq, Bool.not_eq_true', beq_eq_false_iff_ne, ne_eq]
          omega
      · -- promote the lowest remaining bit to be the new minimum
        have hex : ∃ i, sm.testBit i = true := Nat.ne_zero_implies_bit_true hsm
        have hlo : sm.testBit (Nat.find hex) = true := Nat.find_spec hex
        have hlomin : ∀ i, i < Nat.find hex → sm.testBit i = false := by
          intro i hi
          have := Nat.find_min hex hi
          simpa using this
        have hlobnd := hbits _ hlo
        have hmxmn : mx ≠ mn := by
          intro hh
          rw [hh] at hlobnd
          omega
        have hxmx : ((x : Int) == mx) = false := by
          rw [beq_eq_false_iff_ne]
          intro hh
          exact hmxmn (by omega)
        have hmx0 : 0 ≤ mx := by omega
        have hlomx : Nat.find hex ≤ mx.toNat := by omega
        have hhiG : sm.testBit (Nat.findGreatest (fun i => sm.testBit i = true) mx.toNat)
            = true :=
          @Nat.findGreatest_spec (Nat.find hex) (fun i => sm.testBit i = true) _ mx.toNat
            hlomx hlo
        have hhiGb := hbits _ hhiG
        have hhiGmax : ∀ i, Nat.findGreatest (fun i => sm.testBit i = true) mx.toNat < i →
            sm.testBit i = false := by
          intro i hi
          by_cases him : i ≤ mx.toNat
          · have := @Nat.findGreatest_is_greatest i (fun i => sm.testBit i = true) _
              mx.toNat hi him
            cases hb2 : sm.testBit i
            · rfl
            · exact absurd hb2 this
          · cases hb2 : sm.testBit i
            · rfl
            · exfalso
              have := hbits i hb2
              omega
        have hlole : Nat.find hex ≤ Nat.findGreatest (fun i => sm.testBit i = true) mx.toNat :=
          @Nat.le_findGreatest (Nat.find hex) (fun i => sm.testBit i = true) _ mx.toNat
            hlomx hlo
        have hres : rescanList sm (-1) mx (List.range' 0 U) =
            (clearBit sm (Nat.find hex), ((Nat.find hex : Nat) : Int),
              ((Nat.findGreatest (fun i => sm.testBit i = true) mx.toNat : Nat) : Int)) := by
          rw [rescan_newmin sm mx 0 U (Nat.find hex) (by omega) (by omega) hlo
            (fun i h1 h2 => hlomin i h2)]
          rcases Nat.eq_or_lt_of_le hlole with heq | hlt
          · rw [← heq]
            rw [rescan_nobits _ _ _ _ _ ?_]
            intro i h1 h2
            rw [heq] at h1
            rw [testBit_clearBit, hhiGmax i (by omega)]
            simp
          · rw [rescan_stable _ _ _ (by omega) _ _
              (Nat.findGreatest (fun i => sm.testBit i = true) mx.toNat)
              (by omega) (by omega) ?_ ?_]
            · rw [testBit_clearBit]
              simp only [hhiG, Bool.true_and, Bool.not_eq_true', beq_eq_false_iff_ne, ne_eq]
              omega
            · intro i h1 h2
              rw [testBit_clearBit, hhiGmax i h1]
              simp
        rw [hxmx]
        simp only [Bool.false_eq_true, if_false]
        rw [List.range_eq_range', hres]
        dsimp only
        constructor
        · rw [good_leaf_iff _ _ _ _ _ _ _ hU]
          refine ⟨((good_leaf_iff _ _ _ _ _ _ _ hU).mp hg).1, ((good_leaf_iff _ _ _ _ _ _ _ hU).mp hg).2.1, by intro h; omega, fun _ => ⟨by omega, by exact_mod_cast hlole,
            by omega, ?_, ?_⟩⟩
          · intro i hi
            rw [testBit_clearBit, Bool.and_eq_true, Bool.not_eq_true',
              beq_eq_false_iff_ne] at hi
            obtain ⟨hi1, hi2⟩ := hi
            have hge : Nat.find hex ≤ i := by
              by_contra hh
              rw [hlomin i (by omega)] at hi1
              cases hi1
            have hle : i ≤ Nat.findGreatest (fun i => sm.testBit i = true) mx.toNat := by
              by_contra hh
              rw [hhiGmax i (by omega)] at hi1
              cases hi1
            constructor
            · omega
            · omega
          · rcases Nat.eq_or_lt_of_le hlole with heq | hlt
            · left
              rw [← heq]
            · right
              rw [Int.toNat_natCast, testBit_clearBit]
              simp only [hhiG, Bool.true_and, Bool.not_eq_true', beq_eq_false_iff_ne, ne_eq]
              omega
        · intro y
          rw [contains_unfold, contains_unfold, Bool.eq_iff_iff]
          simp only [hU, if_true, Bool.or_eq_true, Bool.and_eq_true, beq_iff_eq,
            testBit_clearBit, Bool.not_eq_true', beq_eq_false_iff_ne, ne_eq]
          by_cases hby : sm.testBit y = true
          · have hybnd := hbits y hby
            constructor
            · intro _
              exact ⟨Or.inr hby, by omega⟩
            · intro _
              by_cases hyl : y = Nat.find hex
              · exact Or.inl (by rw [hyl])
              · exact Or.inr ⟨hby, hyl⟩
          · have hyf : y ≠ Nat.find hex := by
              intro hh
              rw [hh] at hby
              exact hby hlo
            constructor
            · rintro (h | ⟨h, -⟩)
              · exact absurd h (by exact_mod_cast hyf)
              · exact absurd h hby
            · rintro ⟨(h | h), hne⟩
              · exfalso
                omega
              · exact absurd h hby
    · -- erase a mask bit (x is not the cached minimum)
      have hbitx : sm.testBit x = true := by
        rcases hcx with hc | hc
        · exact absurd hc hxm
        · exact hc
      have hxbnd := hbits x hbitx
      rw [erase_eq_leaf _ _ _ _ _ _ _ _ hU mn (if (x : Int) == mx then mn else mx)
        (by rw [beq_eq_false_iff_ne.mpr hxm]; simp) rfl]
      by_cases hsm1 : clearBit sm x = 0
      · -- x was the only mask bit: only the cached minimum remains
        have honly : ∀ i : Nat, sm.testBit i = true → i = x := by
          intro i hi
          by_contra hne
          have hbit1 : (clearBit sm x).testBit i = true := by
            rw [testBit_clearBit, hi]
            simp [hne]
          rw [hsm1, Nat.zero_testBit] at hbit1
          cases hbit1
        have hmx_x : mx = (x : Int) := by
          rcases hwit with hw | hw
          · exfalso
            omega
          · have := honly _ hw
            omega
        have hxmx : ((x : Int) == mx) = true := beq_iff_eq.mpr (by omega)
        rw [hxmx, hsm1]
        simp only [if_true]
        rw [List.range_eq_range', rescan_nobits _ _ _ _ _ (fun i h1 h2 => Nat.zero_testBit i)]
        dsimp only
        constructor
        · rw [good_leaf_iff _ _ _ _ _ _ _ hU]
          refine ⟨((good_leaf_iff _ _ _ _ _ _ _ hU).mp hg).1, ((good_leaf_iff _ _ _ _ _ _ _ hU).mp hg).2.1, fun h => absurd h hmn, fun _ => ⟨hmn0, le_refl mn, by omega, ?_, Or.inl rfl⟩⟩
          intro i hi
          rw [Nat.zero_testBit] at hi
          cases hi
        · intro y
          rw [contains_unfold, contains_unfold, Bool.eq_iff_iff]
          simp only [hU, if_true, Bool.or_eq_true, Bool.and_eq_true, beq_iff_eq,
            Nat.zero_testBit, Bool.false_eq_true, or_false, Bool.not_eq_true',
            beq_eq_false_iff_ne, ne_eq]
          constructor
          · intro h
            refine ⟨Or.inl h, ?_⟩
            omega
          · rintro ⟨(h | h), hne⟩
            · exact h
            · exact absurd (honly y h) hne
      · -- other mask bits remain: the rescan keeps min and finds the new max
        obtain ⟨i0, hi0⟩ := Nat.ne_zero_implies_bit_true hsm1
        rw [testBit_clearBit, Bool.and_eq_true, Bool.not_eq_true', beq_eq_false_iff_ne] at hi0
        obtain ⟨hi0b, hi0x⟩ := hi0
        have hi0bnd := hbits _ hi0b
        have hmx0 : 0 ≤ mx := by omega
        have hi0mx : i0 ≤ mx.toNat := by omega
        have hhiG : (clearBit sm x).testBit
            (Nat.findGreatest (fun i => (clearBit sm x).testBit i = true) mx.toNat) = true :=
          @Nat.findGreatest_spec i0 (fun i => (clearBit sm x).testBit i = true) _ mx.toNat
            hi0mx (by
              show (clearBit sm x).testBit i0 = true
              rw [testBit_clearBit, hi0b]
              simp [hi0x])
        have hhiGsm : sm.testBit
            (Nat.findGreatest (fun i => (clearBit sm x).testBit i = true) mx.toNat) = true := by
          rw [testBit_clearBit, Bool.and_eq_true] at hhiG
          exact hhiG.1
        have hhiGx : Nat.findGreatest (fun i => (clearBit sm x).testBit i = true) mx.toNat
            ≠ x := by
          rw [testBit_clearBit, Bool.and_eq_true, Bool.not_eq_true',
            beq_eq_false_iff_ne] at hhiG
          exact hhiG.2
        have hhiGbnd := hbits _ hhiGsm
        have hhiGmax : ∀ i, Nat.findGreatest (fun i => (clearBit sm x).testBit i = true)
            mx.toNat < i → (clearBit sm x).testBit i = false := by
          intro i hi
          by_cases him : i ≤ mx.toNat
          · have := @Nat.findGreatest_is_greatest i
              (fun i => (clearBit sm x).testBit i = true) _ mx.toNat hi him
            cases hb2 : (clearBit sm x).testBit i
            · rfl
            · exact absurd hb2 this
          · cases hb2 : (clearBit sm x).testBit i
            · rfl
            · exfalso
              rw [testBit_clearBit, Bool.and_eq_true] at hb2
              have := hbits i hb2.1
              omega
        have hres : rescanList (clearBit sm x) mn (if (x : Int) == mx then mn else mx)
            (List.range' 0 U) = (clearBit sm x, mn,
              ((Nat.findGreatest (fun i => (clearBit sm x).testBit i = true) mx.toNat : Nat)
                : Int)) :=
          rescan_stable _ _ _ (by omega) 0 U _ (by omega) (by omega) hhiG
            (fun i h1 h2 => hhiGmax i h1)
        rw [List.range_eq_range', hres]
        dsimp only
        constructor
        · rw [good_leaf_iff _ _ _ _ _ _ _ hU]
          refine ⟨((good_leaf_iff _ _ _ _ _ _ _ hU).mp hg).1, ((good_leaf_iff _ _ _ _ _ _ _ hU).mp hg).2.1, by intro h; omega, fun _ => ⟨hmn0, by omega, by omega, ?_, ?_⟩⟩
          · intro i hi
            rw [testBit_clearBit, Bool.and_eq_true] at hi
            have h1 := hbits i hi.1
            constructor
            · omega
            · have hle : i ≤ Nat.findGreatest (fun i => (clearBit sm x).testBit i = true)
                  mx.toNat := by
                by_contra hh
                have := hhiGmax i (by omega)
                rw [testBit_clearBit, hi.1, hi.2] at this
                simp at this
              omega
          · right
            rw [Int.toNat_natCast]
            exact hhiG
        · intro y
          rw [contains_unfold, contains_unfold, Bool.eq_iff_iff]
          simp only [hU, if_true, Bool.or_eq_true, Bool.and_eq_true, beq_iff_eq,
            testBit_clearBit, Bool.not_eq_true', beq_eq_false_iff_ne, ne_eq]
          constructor
          · rintro (h | ⟨h1, h2⟩)
            · exact ⟨Or.inl h, by omega⟩
            · exact ⟨Or.inr h1, h2⟩
          · rintro ⟨(h | h), hne⟩
            · exact Or.inl h
            · exact Or.inr ⟨h, hne⟩
  · -- INTERNAL NODE
    match summ, hg with
    | some s, hg =>
      obtain ⟨hsU, hpos, hb, hsu, hgs, hsync, -, h2⟩ := (good_node_iff _ _ _ _ _ _ _ hU).mp hg
      obtain ⟨hmn0, hmnmx, hmxU, hbel, hwit⟩ := h2 hmn
      rw [contains_unfold] at hcx
      simp only [hU, if_false, Bool.or_eq_true, beq_iff_eq] at hcx
      by_cases hxm : (x : Int) = mn
      · by_cases hsmin : s.min = -1
        · -- deleting the last element: every block is already empty
          rw [erase_eq_last _ _ _ _ _ _ _ _ hU hxm hsmin]
          have hempb : ∀ b ∈ blk, b.min = -1 := by
            intro b hbm
            obtain ⟨⟨n, hn⟩, hget⟩ := List.mem_iff_get.mp hbm
            have h0 : contains s n = false := contains_empty s hgs hsmin n
            have h1 := hsync n hn
            rw [h0] at h1
            have h3 : (blkD blk n).min = -1 := by
              by_contra hh
              exact absurd (h1.mpr hh) (by simp)
            rw [blkD_eq_get _ _ hn] at h3
            rw [← hget]
            exact h3
          have hbelall : ∀ y : Nat, Below B blk y = false :=
            fun y => below_empty _ _ _ (fun b hbm => (hb b hbm).2) hempb
          constructor
          · rw [good_node_iff _ _ _ _ _ _ _ hU]
            exact ⟨hsU, hpos, hb, hsu, hgs, hsync, fun _ => ⟨rfl, hempb⟩,
              fun h => absurd rfl h⟩
          · intro y
            rw [contains_unfold, contains_unfold, Bool.eq_iff_iff]
            simp only [hU, if_false, Bool.or_eq_true, Bool.and_eq_true, beq_iff_eq,
              hbelall, Bool.false_eq_true, or_false, Bool.not_eq_true',
              beq_eq_false_iff_ne, ne_eq]
            constructor
            · intro h
              cases h
            · rintro ⟨h, hne⟩
              exact absurd (by omega) hne
        · -- x is the cached minimum: pull up the next-smallest element
          have hsmin0 : 0 ≤ s.min := min_nonneg s hgs hsmin
          have hsminmem : contains s s.min.toNat = true := min_mem s hgs hsmin
          have hsminlen : s.min.toNat < blk.length := by
            have := contains_lt_U s hgs _ hsminmem
            rwa [hsu] at this
          have hbD0 : blkD blk s.min.toNat = blk.get ⟨s.min.toNat, hsminlen⟩ :=
            blkD_eq_get _ _ hsminlen
          have hc0G : Good (blk.get ⟨s.min.toNat, hsminlen⟩) :=
            (hb _ (List.get_mem _ _ _)).2
          have hc0U : (blk.get ⟨s.min.toNat, hsminlen⟩).U = 2 ^ B :=
            (hb _ (List.get_mem _ _ _)).1
          have hc0min : (blk.get ⟨s.min.toNat, hsminlen⟩).min ≠ -1 := by
            have := (hsync _ hsminlen).mp hsminmem
            rwa [hbD0] at this
          have hc0min0 : 0 ≤ (blk.get ⟨s.min.toNat, hsminlen⟩).min :=
            min_nonneg _ hc0G hc0min
          have hj0mem : contains (blk.get ⟨s.min.toNat, hsminlen⟩)
              (blk.get ⟨s.min.toNat, hsminlen⟩).min.toNat = true := min_mem _ hc0G hc0min
          have hj0lt : (blk.get ⟨s.min.toNat, hsminlen⟩).min.toNat < 2 ^ B := by
            have := contains_lt_U _ hc0G _ hj0mem
            rwa [hc0U] at this
          obtain ⟨m, hm⟩ : ∃ m : Nat,
              m = index B s.min.toNat (blkD blk s.min.toNat).min.toNat := ⟨_, rfl⟩
          have hmBel : Below B blk m = true := by
            rw [hm, hbD0, below_index B blk _ _ hsminlen hj0lt]
            exact hj0mem
          have hmbnd := hbel _ hmBel
          have hmLeast : ∀ y : Nat, Below B blk y = true → m ≤ y := by
            intro y hy
            obtain ⟨hylen, hyc⟩ := below_elim _ _ _ hy
            have hynon : (blkD blk (high B y)).min ≠ -1 := by
              rw [blkD_eq_get _ _ hylen]
              exact nonempty_of_contains _ (hb _ (List.get_mem _ _ _)).2 _ hyc
            have hys : contains s (high B y) = true := (hsync _ hylen).mpr hynon
            have hsle : s.min ≤ (high B y : Int) := min_le_of_mem s hgs _ hys
            have hyarith : y = high B y * 2 ^ B + low B y := by
              nth_rewrite 1 [(index_high_low B y).symm]
              rw [index_eq _ _ _ (low_lt B y)]
            rw [hm, hbD0, index_eq _ _ _ hj0lt]
            rcases Nat.eq_or_lt_of_le (show s.min.toNat ≤ high B y by omega) with heq | hlt
            · have hfin : (⟨high B y, hylen⟩ : Fin blk.length) = ⟨s.min.toNat, hsminlen⟩ := by
                simp [heq]
              rw [hfin] at hyc
              have := min_le_of_mem _ hc0G _ hyc
              have hprod : s.min.toNat * 2 ^ B = high B y * 2 ^ B := by rw [heq]
              omega
            · have h1 : (s.min.toNat + 1) * 2 ^ B ≤ high B y * 2 ^ B :=
                Nat.mul_le_mul_right _ hlt
              have h2 : (s.min.toNat + 1) * 2 ^ B = s.min.toNat * 2 ^ B + 2 ^ B := by ring
              have h3 := hj0lt
              omega
          have hmU : m < U := by
            have := hmbnd.2
            omega
          have hhighm : high B m < blk.length := high_lt B _ _ (hsU ▸ hmU)
          have hcxm : contains (blk.get ⟨high B m, hhighm⟩) (low B m) = true := by
            obtain ⟨hh, hc⟩ := below_elim _ _ _ hmBel
            exact hc
          have hIH := ihb _ (List.get_mem _ _ hhighm)
            (hb _ (List.get_mem _ _ hhighm)).2 _ hcxm
          obtain ⟨c1, hc1⟩ : ∃ c, c = erase (blk.get ⟨high B m, hhighm⟩) (low B m) := ⟨_, rfl⟩
          obtain ⟨blk1, hblk1⟩ : ∃ l, l = blk.set (high B m) c1 := ⟨_, rfl⟩
          obtain ⟨s1, hs1d⟩ : ∃ t,
              t = if (blkD blk1 (high B m)).min == -1 then erase s (high B m) else s := ⟨_, rfl⟩
          obtain ⟨mx1, hmx1⟩ : ∃ z : Int, z = if (m : Int) == mx then
              (if s1.max == -1 then (m : Int)
               else (index B s1.max.toNat ((blkD blk1 s1.max.toNat).max.toNat) : Int))
            else mx := ⟨_, rfl⟩
          obtain ⟨hcore1, hcoreG, hcoreU, hcore3, hcore4, hcore5, hcore6⟩ :=
            erase_core B blk s hb hsu hgs hsync _ hhighm hcxm hIH.1 hIH.2
              (fun hcs => (ihs s rfl hgs _ hcs).1)
              (fun hcs => (ihs s rfl hgs _ hcs).2)
              blk1 (by rw [hblk1, hc1]) s1 hs1d
          rw [erase_eq_min _ _ _ _ _ _ _ _ hU hxm hsmin m hm hhighm blk1 s1 mx1
            (by rw [hblk1, hc1]) hs1d hmx1]
          have hlen1 : blk1.length = blk.length := by
            rw [hblk1]
            exact List.length_set _ _ _
          -- the new max is correct in every branch of the fix-up
          have hGB : s1.min ≠ -1 →
              (Below B blk1 (index B s1.max.toNat ((blkD blk1 s1.max.toNat).max.toNat)) = true ∧
               ∀ y : Nat, Below B blk1 y = true →
                 y ≤ index B s1.max.toNat ((blkD blk1 s1.max.toNat).max.toNat)) := hcore6
          have hMX : ((m : Int) ≤ mx1 ∧ mx1 < (U : Int)) ∧
              (∀ y : Nat, Below B blk1 y = true → (m : Int) < y ∧ (y : Int) ≤ mx1) ∧
              (mx1 = (m : Int) ∨ Below B blk1 mx1.toNat = true) := by
            by_cases hme : (m : Int) = mx
            · rw [hmx1, if_pos (beq_iff_eq.mpr hme)]
              by_cases hs1e : s1.max = -1
              · rw [if_pos (beq_iff_eq.mpr hs1e)]
                have hs1mine : s1.min = -1 := (min_neg_iff_max_neg s1 hcoreG).mpr hs1e
                have hbel1e := hcore5 hs1mine
                refine ⟨⟨le_refl _, by omega⟩, ?_, Or.inl rfl⟩
                intro y hy
                rw [hbel1e y] at hy
                cases hy
              · rw [if_neg (by simpa using hs1e)]
                have hs1mine : s1.min ≠ -1 := fun hh =>
                  hs1e ((min_neg_iff_max_neg s1 hcoreG).mp hh)
                obtain ⟨hGBb, hGBle⟩ := hGB hs1mine
                have hGBblk := (hcore4 _).mp hGBb
                have hGBbnd := hbel _ hGBblk.1
                have hGBm : m ≤ index B s1.max.toNat ((blkD blk1 s1.max.toNat).max.toNat) :=
                  hmLeast _ hGBblk.1
                refine ⟨⟨by omega, by omega⟩, ?_, ?_⟩
                · intro y hy
                  obtain ⟨hyb, hyne⟩ := (hcore4 _).mp hy
                  have := hmLeast _ hyb
                  have := hGBle _ hy
                  constructor
                  · omega
                  · omega
                · right
                  rw [Int.toNat_natCast]
                  exact hGBb
            · rw [hmx1, if_neg (by simpa using hme)]
              refine ⟨⟨by omega, by omega⟩, ?_, ?_⟩
              · intro y hy
                obtain ⟨hyb, hyne⟩ := (hcore4 _).mp hy
                have h1 := hmLeast _ hyb
                have h2 := hbel _ hyb
                constructor
                · omega
                · omega
              · rcases hwit with hw | hw
                · exfalso
                  omega
                · right
                  have hmxne : mx.toNat ≠ m := by
                    intro hh
                    apply hme
                    omega
                  exact (hcore4 _).mpr ⟨hw, hmxne⟩
          constructor
          · rw [good_node_iff _ _ _ _ _ _ _ hU]
            refine ⟨by rw [hlen1]; exact hsU, by rw [hlen1]; exact hpos, hcore1,
              by rw [hcoreU, hlen1], hcoreG, ?_, by intro h; omega, fun _ => ?_⟩
            · intro k hk
              rw [hlen1] at hk
              exact hcore3 k hk
            · exact ⟨by omega, hMX.1.1, hMX.1.2, hMX.2.1, hMX.2.2⟩
          · intro y
            rw [contains_unfold, contains_unfold, Bool.eq_iff_iff]
            simp only [hU, if_false, Bool.or_eq_true, Bool.and_eq_true, beq_iff_eq,
              Bool.not_eq_true', beq_eq_false_iff_ne, ne_eq]
            rw [show (Below B blk1 y = true) ↔ (Below B blk y = true ∧ y ≠ m) from hcore4 y]
            constructor
            · rintro (h | ⟨hb1, hbne⟩)
              · refine ⟨Or.inr (by rw [show y = m by omega]; exact hmBel), ?_⟩
                omega
              · refine ⟨Or.inr hb1, ?_⟩
                have := hbel _ hb1
                omega
            · rintro ⟨(hy | hy), hne⟩
              · exfalso
                omega
              · by_cases hym : y = m
                · exact Or.inl (by rw [hym])
                · exact Or.inr ⟨hy, hym⟩
      · -- x ≠ min: erase from x's block and run the same fix-up
        have hbelx : Below B blk x = true := by
          rcases hcx with h | h
          · exact absurd h hxm
          · exact h
        have hhighx : high B x < blk.length := high_lt B x _ (hsU ▸ hxU)
        have hcxl : contains (blk.get ⟨high B x, hhighx⟩) (low B x) = true := by
          obtain ⟨hh, hc⟩ := below_elim _ _ _ hbelx
          exact hc
        have hIH := ihb _ (List.get_mem _ _ hhighx)
          (hb _ (List.get_mem _ _ hhighx)).2 _ hcxl
        obtain ⟨c1, hc1⟩ : ∃ c, c = erase (blk.get ⟨high B x, hhighx⟩) (low B x) := ⟨_, rfl⟩
        obtain ⟨blk1, hblk1⟩ : ∃ l, l = blk.set (high B x) c1 := ⟨_, rfl⟩
        obtain ⟨s1, hs1d⟩ : ∃ t,
            t = if (blkD blk1 (high B x)).min == -1 then erase s (high B x) else s := ⟨_, rfl⟩
        obtain ⟨mx1, hmx1⟩ : ∃ z : Int, z = if (x : Int) == mx then
            (if s1.max == -1 then mn
             else (index B s1.max.toNat ((blkD blk1 s1.max.toNat).max.toNat) : Int))
          else mx := ⟨_, rfl⟩
        obtain ⟨hcore1, hcoreG, hcoreU, hcore3, hcore4, hcore5, hcore6⟩ :=
          erase_core B blk s hb hsu hgs hsync _ hhighx hcxl hIH.1 hIH.2
            (fun hcs => (ihs s rfl hgs _ hcs).1)
            (fun hcs => (ihs s rfl hgs _ hcs).2)
            blk1 (by rw [hblk1, hc1]) s1 hs1d
        rw [erase_eq_notmin _ _ _ _ _ _ _ _ hU (beq_eq_false_iff_ne.mpr hxm) hhighx blk1 s1 mx1
          (by rw [hblk1, hc1]) hs1d hmx1]
        have hlen1 : blk1.length = blk.length := by
          rw [hblk1]
          exact List.length_set _ _ _
        have hbndx := hbel x hbelx
        have hMX : (mn ≤ mx1 ∧ mx1 < (U : Int)) ∧
            (∀ y : Nat, Below B blk1 y = true → mn < (y : Int) ∧ (y : Int) ≤ mx1) ∧
            (mx1 = mn ∨ Below B blk1 mx1.toNat = true) := by
          by_cases hme : (x : Int) = mx
          · rw [hmx1, if_pos (beq_iff_eq.mpr hme)]
            by_cases hs1e : s1.max = -1
            · rw [if_pos (beq_iff_eq.mpr hs1e)]
              have hs1mine : s1.min = -1 := (min_neg_iff_max_neg s1 hcoreG).mpr hs1e
              have hbel1e := hcore5 hs1mine
              refine ⟨⟨le_refl _, by omega⟩, ?_, Or.inl rfl⟩
              intro y hy
              rw [hbel1e y] at hy
              cases hy
            · rw [if_neg (by simpa using hs1e)]
              have hs1mine : s1.min ≠ -1 := fun hh =>
                hs1e ((min_neg_iff_max_neg s1 hcoreG).mp hh)
              obtain ⟨hGBb, hGBle⟩ := hcore6 hs1mine
              have hGBblk := (hcore4 _).mp hGBb
              have hGBbnd := hbel _ hGBblk.1
              refine ⟨⟨by omega, by omega⟩, ?_, ?_⟩
              · intro y hy
                obtain ⟨hyb, hyne⟩ := (hcore4 _).mp hy
                have h1 := hbel _ hyb
                have h2 := hGBle _ hy
                exact ⟨h1.1, by omega⟩
              · right
                rw [Int.toNat_natCast]
                exact hGBb
          · rw [hmx1, if_neg (by simpa using hme)]
            refine ⟨⟨hmnmx, hmxU⟩, ?_, ?_⟩
            · intro y hy
              obtain ⟨hyb, hyne⟩ := (hcore4 _).mp hy
              exact hbel _ hyb
            · rcases hwit with hw | hw
              · exact Or.inl hw
              · right
                have hmxne : mx.toNat ≠ x := by
                  intro hh
                  apply hme
                  omega
                exact (hcore4 _).mpr ⟨hw, hmxne⟩
        constructor
        · rw [good_node_iff _ _ _ _ _ _ _ hU]
          refine ⟨by rw [hlen1]; exact hsU, by rw [hlen1]; exact hpos, hcore1,
            by rw [hcoreU, hlen1], hcoreG, ?_, by intro h; omega, fun _ => ?_⟩
          · intro k hk
            rw [hlen1] at hk
            exact hcore3 k hk
          · exact ⟨hmn0, hMX.1.1, hMX.1.2, hMX.2.1, hMX.2.2⟩
        · intro y
          rw [contains_unfold, contains_unfold, Bool.eq_iff_iff]
          simp only [hU, if_false, Bool.or_eq_true, Bool.and_eq_true, beq_iff_eq,
            Bool.not_eq_true', beq_eq_false_iff_ne, ne_eq]
          rw [show (Below B blk1 y = true) ↔ (Below B blk y = true ∧ y ≠ x) from hcore4 y]
          constructor
          · rintro (h | ⟨hb1, hbne⟩)
            · refine ⟨Or.inl h, ?_⟩
              omega
            · exact ⟨Or.inr hb1, hbne⟩
          · rintro ⟨(hy | hy), hne⟩
            · exact Or.inl hy
            · exact Or.inr ⟨hy, hne⟩
    | none, hg => exact absurd hg (good_node_none _ _ _ _ _ _ hU)

end Pow2


namespace Pow2

theorem build_good : ∀ bits : Nat, Good (build bits) ∧ (build bits).min = -1 ∧
    (build bits).U = 1 <<< bits := by
  intro bits
  induction bits using Nat.strong_induction_on with
  | _ bits ih =>
    rw [build]
    split
    · rename_i h
      refine ⟨?_, rfl, rfl⟩
      rw [good_leaf_iff _ _ _ _ _ _ _ h]
      exact ⟨rfl, rfl, fun _ => ⟨rfl, rfl⟩, fun hne => absurd rfl hne⟩
    · rename_i h
      have h5 : 5 ≤ bits := by
        by_contra hb
        have hb4 : bits ≤ 4 := by omega
        have : (1 <<< bits) ≤ 1 <<< 4 := by
          simpa [Nat.shiftLeft_eq] using Nat.pow_le_pow_right (by norm_num) hb4
        omega
      have ihc := ih (bits >>> 1) (by omega)
      have ihs := ih ((bits + 1) >>> 1) (by omega)
      refine ⟨?_, rfl, rfl⟩
      rw [good_node_iff _ _ _ _ _ _ _ h]
      have hrep : ∀ b ∈ List.replicate (1 <<< ((bits + 1) >>> 1)) (build (bits >>> 1)),
          b = build (bits >>> 1) := fun b hb => List.eq_of_mem_replicate hb
      have hlen : (List.replicate (1 <<< ((bits + 1) >>> 1)) (build (bits >>> 1))).length
          = 1 <<< ((bits + 1) >>> 1) := List.length_replicate _ _
      refine ⟨?_, ?_, ?_, ?_, ihs.1, ?_, fun _ => ⟨rfl, ?_⟩, fun hne => absurd rfl hne⟩
      · rw [hlen, Nat.shiftLeft_eq, Nat.shiftLeft_eq, one_mul, one_mul, ← pow_add]
        congr 1
        omega
      · rw [hlen, Nat.shiftLeft_eq, one_mul]
        exact Nat.pos_pow_of_pos _ (by norm_num)
      · intro b hb
        rw [hrep b hb]
        refine ⟨?_, ihc.1⟩
        rw [ihc.2.2, Nat.shiftLeft_eq, one_mul]
      · rw [ihs.2.2, hlen]
      · intro k hk
        have hcf : contains (build ((bits + 1) >>> 1)) k = false :=
          contains_empty _ ihs.1 ihs.2.1 k
        rw [hcf]
        rw [hlen] at hk
        have hbd : blkD (List.replicate (1 <<< ((bits + 1) >>> 1)) (build (bits >>> 1))) k
            = build (bits >>> 1) := by
          rw [blkD_eq_get _ _ (by rw [hlen]; exact hk)]
          exact hrep _ (List.get_mem _ _ _)
        rw [hbd]
        simp [ihc.2.1]
      · intro b hb
        rw [hrep b hb]
        exact ihc.2.1

end Pow2


/-- A mutation request issued to the structure: the harness drives the tree with
interleaved `insert`/`erase` calls. -/
inductive Op : Type where
  | ins : Nat → Op
  | del : Nat → Op
deriving DecidableEq, Repr

/-- One step of the reference set (a duplicate-free list of the currently
stored keys). -/
def stepRef (cur : List Nat) : Op → List Nat
  | .ins x => x :: cur
  | .del x => cur.erase x

/-- The reference set after a whole operation sequence. -/
def refList (ops : List Op) : List Nat := ops.foldl stepRef []

/-- The preconditions the source comments demand, checked against a running
reference set: every key is in `[0, U)`, `insert` is only called on
non-members, `erase` only on members. -/
def validFrom (U : Nat) (cur : List Nat) : List Op → Bool
  | [] => true
  | .ins x :: t => decide (x < U) && !(cur.contains x) && validFrom U (x :: cur) t
  | .del x :: t => decide (x < U) && cur.contains x && validFrom U (cur.erase x) t

/-- A precondition-respecting operation sequence against universe `U`,
starting from the empty structure. -/
def validOps (U : Nat) (ops : List Op) : Bool := validFrom U [] ops

/-- `P` holds at every node of the tree (the node itself, its summary and,
recursively, all blocks). -/
def AllNodes (P : V → Prop) : V → Prop
  | .mk U B mn mx sm summ blk =>
    P (.mk U B mn mx sm summ blk) ∧
    (∀ s, summ = some s → AllNodes P s) ∧
    (∀ b ∈ blk, AllNodes P b)
termination_by v => sizeOf v
decreasing_by
  · subst ‹_ = some s›
    exact sizeOf_summ_lt _ _ _ _ _ _ _
  · exact sizeOf_mem_lt (by assumption) _ _ _ _ _ _

theorem allNodes_iff (P : V → Prop) (v : V) :
    AllNodes P v ↔ (P v ∧ (∀ s, v.summary = some s → AllNodes P s) ∧
      (∀ b ∈ v.block, AllNodes P b)) := by
  obtain ⟨U, B, mn, mx, sm, summ, blk⟩ := v
  rw [AllNodes]
  rfl

namespace Pow2

/-- Running one request against the power-of-two tree. -/
def applyOp (v : V) : Op → V
  | .ins x => insert v x
  | .del x => erase v x

/-- Running a whole request sequence against the power-of-two tree. -/
def applyOps (v : V) (ops : List Op) : V := ops.foldl applyOp v

theorem good_allNodes : ∀ v : V, Good v → AllNodes Good v := by
  refine V.induct _ ?_
  intro U B mn mx sm summ blk ihs ihb hg
  rw [allNodes_iff]
  by_cases hU : U < 32
  · obtain ⟨hsn, hbn, -, -⟩ := (good_leaf_iff _ _ _ _ _ _ _ hU).mp hg
    refine ⟨hg, ?_, ?_⟩
    · intro s hs
      rw [show V.summary (V.mk U B mn mx sm summ blk) = summ from rfl, hsn] at hs
      cases hs
    · intro b hb
      rw [show V.block (V.mk U B mn mx sm summ blk) = blk from rfl, hbn] at hb
      cases hb
  · match summ, hg with
    | some s, hg =>
      obtain ⟨-, -, hb, -, hgs, -, -, -⟩ := (good_node_iff _ _ _ _ _ _ _ hU).mp hg
      refine ⟨hg, ?_, ?_⟩
      · intro t ht
        rw [show V.summary (V.mk U B mn mx sm (some s) blk) = some s from rfl] at ht
        cases ht
        exact ihs s rfl hgs
      · intro b hbm
        exact ihb b hbm (hb b hbm).2
    | none, hg => exact absurd hg (good_node_none _ _ _ _ _ _ hU)

theorem applyOps_spec : ∀ (ops : List Op) (v : V) (cur : List Nat), Good v →
    cur.Nodup → (∀ y : Nat, contains v y = true ↔ y ∈ cur) →
    validFrom v.U cur ops = true →
    Good (applyOps v ops) ∧ (applyOps v ops).U = v.U ∧
    (ops.foldl stepRef cur).Nodup ∧
    (∀ y : Nat, contains (applyOps v ops) y = true ↔ y ∈ ops.foldl stepRef cur) := by
  intro ops
  induction ops with
  | nil => exact fun v cur hg hnd hmem _ => ⟨hg, rfl, hnd, hmem⟩
  | cons op t ih =>
    intro v cur hg hnd hmem hval
    match op with
    | .ins x =>
      rw [validFrom, Bool.and_eq_true, Bool.and_eq_true] at hval
      obtain ⟨⟨hxU, hxnew⟩, hval⟩ := hval
      rw [decide_eq_true_iff] at hxU
      rw [Bool.not_eq_true', ← Bool.not_eq_true] at hxnew
      have hxmem : x ∉ cur := fun hc => hxnew (List.elem_eq_true_of_mem hc)
      have hcf : contains v x = false := by
        cases hc : contains v x
        · rfl
        · exact absurd ((hmem x).mp hc) hxmem
      obtain ⟨hG1, hc1⟩ := insert_spec v hg x hxU hcf
      have hU1 : (insert v x).U = v.U := insert_U v x
      have hmem1 : ∀ y : Nat, contains (insert v x) y = true ↔ y ∈ x :: cur := by
        intro y
        rw [hc1 y, Bool.or_eq_true, beq_iff_eq, List.mem_cons]
        rw [hmem y]
        tauto
      have := ih (insert v x) (x :: cur) hG1 (List.nodup_cons.mpr ⟨hxmem, hnd⟩)
        hmem1 (by rw [hU1]; exact hval)
      simpa [applyOps, List.foldl_cons, applyOp, stepRef, hU1] using this
    | .del x =>
      rw [validFrom, Bool.and_eq_true, Bool.and_eq_true] at hval
      obtain ⟨⟨hxU, hxold⟩, hval⟩ := hval
      rw [decide_eq_true_iff] at hxU
      have hxmem : x ∈ cur := by
        have := List.mem_of_elem_eq_true hxold
        exact this
      have hct : contains v x = true := (hmem x).mpr hxmem
      obtain ⟨hG1, hc1⟩ := erase_spec v hg x hct
      have hU1 : (erase v x).U = v.U := erase_U v x
      have hmem1 : ∀ y : Nat, contains (erase v x) y = true ↔ y ∈ cur.erase x := by
        intro y
        rw [hc1 y, Bool.and_eq_true, Bool.not_eq_true', beq_eq_false_iff_ne,
          List.Nodup.mem_erase_iff hnd]
        rw [hmem y]
        tauto
      have := ih (erase v x) (cur.erase x) hG1 (List.Nodup.erase x hnd)
        hmem1 (by rw [hU1]; exact hval)
      simpa [applyOps, List.foldl_cons, applyOp, stepRef, hU1] using this

/-- Any two successor results for the same membership predicate agree. -/
theorem firstAbove_unique (p : Nat → Bool) (x : Nat) (r1 r2 : Int)
    (h1 : FirstAbove p x r1) (h2 : FirstAbove p x r2) : r1 = r2 := by
  rcases h1 with ⟨he1, hn1⟩ | ⟨n1, he1, hx1, hp1, hmin1⟩ <;>
    rcases h2 with ⟨he2, hn2⟩ | ⟨n2, he2, hx2, hp2, hmin2⟩
  · rw [he1, he2]
  · exact absurd hp2 (by rw [hn1 n2 hx2]; exact fun h => Bool.false_ne_true h)
  · exact absurd hp1 (by rw [hn2 n1 hx1]; exact fun h => Bool.false_ne_true h)
  · rw [he1, he2]
    rcases Nat.lt_trichotomy n1 n2 with h | h | h
    · exact absurd hp1 (by rw [hmin2 n1 hx1 h]; exact fun h => Bool.false_ne_true h)
    · rw [h]
    · exact absurd hp2 (by rw [hmin1 n2 hx2 h]; exact fun h => Bool.false_ne_true h)

theorem firstAbove_congr (p q : Nat → Bool) (h : ∀ y, p y = q y) (x : Nat) (r : Int)
    (hp : FirstAbove p x r) : FirstAbove q x r := by
  rcases hp with ⟨he, hn⟩ | ⟨n, he, hx, hpn, hmin⟩
  · exact Or.inl ⟨he, fun y hy => (h y).symm.trans (hn y hy)⟩
  · exact Or.inr ⟨n, he, hx, (h n).symm.trans hpn, fun y h1 h2 => (h y).symm.trans (hmin y h1 h2)⟩

end Pow2


namespace Gen

/-! Arithmetic of the division/modulo key decomposition. -/

theorem high_eq_divG (B x : Nat) : high B x = x / B := rfl

theorem low_eq_modG (B x : Nat) : low B x = x % B := rfl

theorem low_ltG (B x : Nat) (hB : 0 < B) : low B x < B := Nat.mod_lt _ hB

theorem index_eqG (B i j : Nat) (hj : j < B) : index B i j = i * B + j := rfl

theorem index_high_lowG (B x : Nat) : index B (high B x) (low B x) = x := by
  show x / B * B + x % B = x
  rw [Nat.mul_comm, Nat.div_add_mod]

theorem high_indexG (B i j : Nat) (hj : j < B) : high B (index B i j) = i := by
  show (i * B + j) / B = i
  rw [Nat.mul_comm, Nat.mul_add_div (by omega), Nat.div_eq_of_lt hj, Nat.add_zero]

theorem low_indexG (B i j : Nat) (hj : j < B) : low B (index B i j) = j := by
  show (i * B + j) % B = j
  rw [Nat.mul_comm, Nat.mul_add_mod, Nat.mod_eq_of_lt hj]

theorem high_ltG (B x len : Nat) (hx : x < len * B) : high B x < len := by
  rw [high_eq_divG]
  exact Nat.div_lt_of_lt_mul (by rwa [Nat.mul_comm] at hx)

theorem index_ltG (B i j len : Nat) (hi : i < len) (hj : j < B) :
    index B i j < len * B := by
  rw [index_eqG B i j hj]
  calc i * B + j < i * B + B := by omega
  _ = (i + 1) * B := by ring
  _ ≤ len * B := Nat.mul_le_mul_right _ hi

/-- Lexicographic comparison of recombined keys. -/
theorem lex_ltG (W i1 j1 i2 j2 : Nat) (h1 : j1 < W) (hj2 : j2 < W) :
    (i1 * W + j1 < i2 * W + j2 ↔ i1 < i2 ∨ (i1 = i2 ∧ j1 < j2)) := by
  constructor
  · intro h
    rcases Nat.lt_trichotomy i1 i2 with hi | hi | hi
    · exact Or.inl hi
    · exact Or.inr ⟨hi, by subst hi; omega⟩
    · exfalso
      have h2 : (i2 + 1) * W ≤ i1 * W := Nat.mul_le_mul_right _ hi
      have h3 : (i2 + 1) * W = i2 * W + W := by ring
      omega
  · rintro (hi | ⟨rfl, hj⟩)
    · have h2 : (i1 + 1) * W ≤ i2 * W := Nat.mul_le_mul_right _ hi
      have h3 : (i1 + 1) * W = i1 * W + W := by ring
      omega
    · omega

/-- The membership predicate of a node: the key set the tree represents.
`part_000` exposes no `contains` method, so this member test (the same
recursion the power-of-two file's `contains` performs, read through this
file's `high`/`low`) serves as the abstraction function for specifications. -/
def stored : V → Nat → Bool
  | .mk U B mn _ sm _ blk, x =>
    ((x : Int) == mn) ||
      (if U < 32 then sm.testBit x
       else
         if h : high B x < blk.length then
           stored (blk.get ⟨high B x, h⟩) (low B x)
         else false)
termination_by v _ => sizeOf v
decreasing_by
  exact sizeOf_get_lt _ _ h _ _ _ _ _ _

/-- Membership in the blocks of an internal node, read through the key
decomposition (this is the internal branch of `stored`). -/
def Below (B : Nat) (blk : List V) (y : Nat) : Bool :=
  if h : high B y < blk.length then stored (blk.get ⟨high B y, h⟩) (low B y) else false

theorem contains_unfoldG (U B : Nat) (mn mx : Int) (sm : Nat) (summ : Option V)
    (blk : List V) (x : Nat) :
    stored (.mk U B mn mx sm summ blk) x =
      (((x : Int) == mn) || (if U < 32 then sm.testBit x else Below B blk x)) := by
  rw [stored, Below]

/-- The internal invariant of a power-of-two van Emde Boas node: shape facts
(`U = blockCount * 2^B`, children of size `2^B`, summary sized to the block
count), the summary tracking exactly the non-empty blocks, and the `min`/`max`
caches bounding the members, with the minimum never stored below itself. -/
def Good : V → Prop
  | .mk U B mn mx sm summ blk =>
    if U < 32 then
      summ = none ∧ blk = [] ∧
      (mn = -1 → mx = -1 ∧ sm = 0) ∧
      (mn ≠ -1 → 0 ≤ mn ∧ mn ≤ mx ∧ mx < (U : Int) ∧
        (∀ i : Nat, sm.testBit i = true → mn < (i : Int) ∧ (i : Int) ≤ mx) ∧
        (mx = mn ∨ sm.testBit mx.toNat = true))
    else
      match summ with
      | none => False
      | some s =>
        U ≤ blk.length * B ∧ 0 < blk.length ∧
        (∀ b ∈ blk, b.U = B ∧ Good b) ∧
        s.U = blk.length ∧ Good s ∧
        (∀ k : Nat, k < blk.length → (stored s k = true ↔ (blkD blk k).min ≠ -1)) ∧
        (mn = -1 → mx = -1 ∧ ∀ b ∈ blk, b.min = -1) ∧
        (mn ≠ -1 → 0 ≤ mn ∧ mn ≤ mx ∧ mx < (U : Int) ∧
          (∀ y : Nat, Below B blk y = true → mn < (y : Int) ∧ (y : Int) ≤ mx) ∧
          (mx = mn ∨ Below B blk mx.toNat = true))
termination_by v => sizeOf v
decreasing_by
  · exact sizeOf_mem_lt (by assumption) _ _ _ _ _ _
  · exact sizeOf_summ_lt _ _ _ _ _ _ _

theorem good_leaf_iffG (U B : Nat) (mn mx : Int) (sm : Nat) (summ : Option V)
    (blk : List V) (hU : U < 32) :
    Good (.mk U B mn mx sm summ blk) ↔
      (summ = none ∧ blk = [] ∧
       (mn = -1 → mx = -1 ∧ sm = 0) ∧
       (mn ≠ -1 → 0 ≤ mn ∧ mn ≤ mx ∧ mx < (U : Int) ∧
         (∀ i : Nat, sm.testBit i = true → mn < (i : Int) ∧ (i : Int) ≤ mx) ∧
         (mx = mn ∨ sm.testBit mx.toNat = true))) := by
  rw [Good.eq_def]
  simp [hU]

theorem good_node_iffG (U B : Nat) (mn mx : Int) (sm : Nat) (s : V)
    (blk : List V) (hU : ¬ U < 32) :
    Good (.mk U B mn mx sm (some s) blk) ↔
      (U ≤ blk.length * B ∧ 0 < blk.length ∧
       (∀ b ∈ blk, b.U = B ∧ Good b) ∧
       s.U = blk.length ∧ Good s ∧
       (∀ k : Nat, k < blk.length → (stored s k = true ↔ (blkD blk k).min ≠ -1)) ∧
       (mn = -1 → mx = -1 ∧ ∀ b ∈ blk, b.min = -1) ∧
       (mn ≠ -1 → 0 ≤ mn ∧ mn ≤ mx ∧ mx < (U : Int) ∧
         (∀ y : Nat, Below B blk y = true → mn < (y : Int) ∧ (y : Int) ≤ mx) ∧
         (mx = mn ∨ Below B blk mx.toNat = true))) := by
  rw [Good.eq_def]
  simp [hU]

theorem good_node_noneG (U B : Nat) (mn mx : Int) (sm : Nat) (blk : List V) (hU : ¬ U < 32) :
    ¬ Good (.mk U B mn mx sm none blk) := by
  rw [Good.eq_def]
  simp [hU]

theorem blkD_eq_getG (blk : List V) (i : Nat) (h : i < blk.length) :
    blkD blk i = blk.get ⟨i, h⟩ :=
  List.getD_eq_get _ _ h

/-- A node whose cached minimum is the empty sentinel stored nothing. -/
theorem contains_emptyG : ∀ v : V, Good v → v.min = -1 → ∀ y : Nat, stored v y = false := by
  refine V.induct _ ?_
  intro U B mn mx sm summ blk ihs ihb hg hmn y
  simp only [V.min_mk] at hmn
  subst hmn
  rw [contains_unfoldG]
  by_cases hU : U < 32
  · obtain ⟨hmx, hsm⟩ := ((good_leaf_iffG _ _ _ _ _ _ _ hU).mp hg).2.2.1 rfl
    subst hsm
    simp only [hU, if_true, Nat.zero_testBit, Bool.or_false]
    simp only [beq_eq_false_iff_ne, ne_eq]
    omega
  · match summ, hg with
    | some s, hg =>
      obtain ⟨-, -, hb, -, -, -, hemp, -⟩ := (good_node_iffG _ _ _ _ _ _ _ hU).mp hg
      have hB : Below B blk y = false := by
        rw [Below]
        split
        · next h =>
          exact ihb _ (List.get_mem _ _ h) ((hb _ (List.get_mem _ _ h)).2)
            ((hemp rfl).2 _ (List.get_mem _ _ h)) _
        · rfl
      simp [hU, hB]
    | none, hg => exact absurd hg (good_node_noneG _ _ _ _ _ _ hU)

/-- Every member is below the universe size. -/
theorem contains_lt_UG (v : V) (hg : Good v) (y : Nat) (hy : stored v y = true) : y < v.U := by
  obtain ⟨U, B, mn, mx, sm, summ, blk⟩ := v
  simp only [V.U_mk]
  by_cases hmn : mn = -1
  · rw [contains_emptyG _ hg hmn y] at hy
    cases hy
  rw [contains_unfoldG] at hy
  by_cases hU : U < 32
  · obtain ⟨-, -, -, h2⟩ := (good_leaf_iffG _ _ _ _ _ _ _ hU).mp hg
    obtain ⟨hmn0, hmnmx, hmxU, hbits, -⟩ := h2 hmn
    simp only [hU, if_true, Bool.or_eq_true, beq_iff_eq] at hy
    rcases hy with hy | hy
    · omega
    · have := hbits y hy
      omega
  · match summ, hg with
    | some s, hg =>
      obtain ⟨-, -, -, -, -, -, -, h2⟩ := (good_node_iffG _ _ _ _ _ _ _ hU).mp hg
      obtain ⟨hmn0, hmnmx, hmxU, hbel, -⟩ := h2 hmn
      simp only [hU, if_false, Bool.or_eq_true, beq_iff_eq] at hy
      rcases hy with hy | hy
      · omega
      · have := hbel y hy
        omega
    | none, hg => exact absurd hg (good_node_noneG _ _ _ _ _ _ hU)

/-- The cached minimum bounds every member from below. -/
theorem min_le_of_memG (v : V) (hg : Good v) (y : Nat) (hy : stored v y = true) :
    v.min ≤ (y : Int) := by
  obtain ⟨U, B, mn, mx, sm, summ, blk⟩ := v
  simp only [V.min_mk]
  by_cases hmn : mn = -1
  · subst hmn
    omega
  rw [contains_unfoldG] at hy
  by_cases hU : U < 32
  · obtain ⟨-, -, -, h2⟩ := (good_leaf_iffG _ _ _ _ _ _ _ hU).mp hg
    obtain ⟨hmn0, hmnmx, hmxU, hbits, -⟩ := h2 hmn
    simp only [hU, if_true, Bool.or_eq_true, beq_iff_eq] at hy
    rcases hy with hy | hy
    · omega
    · have := hbits y hy
      omega
  · match summ, hg with
    | some s, hg =>
      obtain ⟨-, -, -, -, -, -, -, h2⟩ := (good_node_iffG _ _ _ _ _ _ _ hU).mp hg
      obtain ⟨hmn0, hmnmx, hmxU, hbel, -⟩ := h2 hmn
      simp only [hU, if_false, Bool.or_eq_true, beq_iff_eq] at hy
      rcases hy with hy | hy
      · omega
      · have := hbel y hy
        omega
    | none, hg => exact absurd hg (good_node_noneG _ _ _ _ _ _ hU)

/-- The cached maximum bounds every member from above. -/
theorem mem_le_maxG (v : V) (hg : Good v) (y : Nat) (hy : stored v y = true) :
    (y : Int) ≤ v.max := by
  obtain ⟨U, B, mn, mx, sm, summ, blk⟩ := v
  simp only [V.max_mk]
  by_cases hmn : mn = -1
  · rw [contains_emptyG _ hg hmn y] at hy
    cases hy
  rw [contains_unfoldG] at hy
  by_cases hU : U < 32
  · obtain ⟨-, -, -, h2⟩ := (good_leaf_iffG _ _ _ _ _ _ _ hU).mp hg
    obtain ⟨hmn0, hmnmx, hmxU, hbits, -⟩ := h2 hmn
    simp only [hU, if_true, Bool.or_eq_true, beq_iff_eq] at hy
    rcases hy with hy | hy
    · omega
    · have := hbits y hy
      omega
  · match summ, hg with
    | some s, hg =>
      obtain ⟨-, -, -, -, -, -, -, h2⟩ := (good_node_iffG _ _ _ _ _ _ _ hU).mp hg
      obtain ⟨hmn0, hmnmx, hmxU, hbel, -⟩ := h2 hmn
      simp only [hU, if_false, Bool.or_eq_true, beq_iff_eq] at hy
      rcases hy with hy | hy
      · omega
      · have := hbel y hy
        omega
    | none, hg => exact absurd hg (good_node_noneG _ _ _ _ _ _ hU)

/-- The cached minimum of a non-empty node is itself a member. -/
theorem min_memG (v : V) (hg : Good v) (hmn : v.min ≠ -1) :
    stored v v.min.toNat = true := by
  obtain ⟨U, B, mn, mx, sm, summ, blk⟩ := v
  simp only [V.min_mk] at hmn ⊢
  rw [contains_unfoldG]
  by_cases hU : U < 32
  · obtain ⟨-, -, -, h2⟩ := (good_leaf_iffG _ _ _ _ _ _ _ hU).mp hg
    obtain ⟨hmn0, -⟩ := h2 hmn
    simp [Int.toNat_of_nonneg hmn0]
  · match summ, hg with
    | some s, hg =>
      obtain ⟨-, -, -, -, -, -, -, h2⟩ := (good_node_iffG _ _ _ _ _ _ _ hU).mp hg
      obtain ⟨hmn0, -⟩ := h2 hmn
      simp [Int.toNat_of_nonneg hmn0]
    | none, hg => exact absurd hg (good_node_noneG _ _ _ _ _ _ hU)

/-- The cached maximum of a non-empty node is itself a member. -/
theorem max_memG (v : V) (hg : Good v) (hmn : v.min ≠ -1) :
    stored v v.max.toNat = true := by
  obtain ⟨U, B, mn, mx, sm, summ, blk⟩ := v
  simp only [V.min_mk] at hmn
  simp only [V.max_mk]
  rw [contains_unfoldG]
  by_cases hU : U < 32
  · obtain ⟨-, -, -, h2⟩ := (good_leaf_iffG _ _ _ _ _ _ _ hU).mp hg
    obtain ⟨hmn0, hmnmx, -, -, hwit⟩ := h2 hmn
    rcases hwit with hw | hw
    · rw [hw]
      simp [Int.toNat_of_nonneg hmn0]
    · simp [hU, hw]
  · match summ, hg with
    | some s, hg =>
      obtain ⟨-, -, -, -, -, -, -, h2⟩ := (good_node_iffG _ _ _ _ _ _ _ hU).mp hg
      obtain ⟨hmn0, hmnmx, -, -, hwit⟩ := h2 hmn
      rcases hwit with hw | hw
      · rw [hw]
        simp [Int.toNat_of_nonneg hmn0]
      · simp [hU, hw]
    | none, hg => exact absurd hg (good_node_noneG _ _ _ _ _ _ hU)

/-- `min` and `max` are the empty sentinel together. -/
theorem min_neg_iff_max_negG (v : V) (hg : Good v) : v.min = -1 ↔ v.max = -1 := by
  obtain ⟨U, B, mn, mx, sm, summ, blk⟩ := v
  simp only [V.min_mk, V.max_mk]
  by_cases hU : U < 32
  · obtain ⟨-, -, h1, h2⟩ := (good_leaf_iffG _ _ _ _ _ _ _ hU).mp hg
    constructor
    · intro h
      exact (h1 h).1
    · intro h
      by_contra hmn
      obtain ⟨hmn0, hmnmx, -⟩ := h2 hmn
      omega
  · match summ, hg with
    | some s, hg =>
      obtain ⟨-, -, -, -, -, -, h1, h2⟩ := (good_node_iffG _ _ _ _ _ _ _ hU).mp hg
      constructor
      · intro h
        exact (h1 h).1
      · intro h
        by_contra hmn
        obtain ⟨hmn0, hmnmx, -⟩ := h2 hmn
        omega
    | none, hg => exact absurd hg (good_node_noneG _ _ _ _ _ _ hU)


theorem testBit_clearBitG (sm x i : Nat) :
    (clearBit sm x).testBit i = (sm.testBit i && !(i == x)) := by
  rw [clearBit, Nat.testBit_ldiff, Nat.one_shiftLeft]
  by_cases h : i = x
  · subst h
    simp [Nat.testBit_two_pow_self]
  · simp [h, Nat.testBit_two_pow_of_ne (Ne.symm h)]

theorem scanList_specG (sm a n : Nat) :
    (scanList sm (List.range' a n) = -1 ∧ ∀ i, a ≤ i → i < a + n → sm.testBit i = false) ∨
    (∃ m : Nat, scanList sm (List.range' a n) = (m : Int) ∧ a ≤ m ∧ m < a + n ∧
      sm.testBit m = true ∧ ∀ i, a ≤ i → i < m → sm.testBit i = false) := by
  induction n generalizing a with
  | zero =>
    left
    refine ⟨rfl, ?_⟩
    omega
  | succ n ih =>
    by_cases hb : sm.testBit a
    · right
      refine ⟨a, ?_, le_refl a, by omega, hb, fun i h1 h2 => by omega⟩
      simp [List.range', scanList, hb]
    · have hstep : scanList sm (List.range' a (n + 1)) = scanList sm (List.range' (a + 1) n) := by
        simp [List.range', scanList, hb]
      rcases ih (a + 1) with ⟨h1, h2⟩ | ⟨m, h1, h2, h3, h4, h5⟩
      · left
        refine ⟨hstep.trans h1, fun i hi1 hi2 => ?_⟩
        rcases Nat.eq_or_lt_of_le hi1 with rfl | hi
        · simpa using hb
        · exact h2 i hi (by omega)
      · right
        refine ⟨m, hstep.trans h1, by omega, by omega, h4, fun i hi1 hi2 => ?_⟩
        rcases Nat.eq_or_lt_of_le hi1 with rfl | hi
        · simpa using hb
        · exact h5 i hi hi2

theorem rescan_nobitsG (sm : Nat) (mn mx : Int) (a n : Nat)
    (h : ∀ i, a ≤ i → i < a + n → sm.testBit i = false) :
    rescanList sm mn mx (List.range' a n) = (sm, mn, mx) := by
  induction n generalizing a with
  | zero => rfl
  | succ n ih =>
    have hb : sm.testBit a = false := h a (le_refl a) (by omega)
    simp only [List.range', rescanList, hb, Bool.false_eq_true, if_false]
    exact ih (a + 1) (fun i h1 h2 => h i (by omega) (by omega))

theorem rescan_stableG (sm : Nat) (mn mx : Int) (hmn : mn ≠ -1) (a n hi : Nat)
    (h1 : a ≤ hi) (h2 : hi < a + n) (h3 : sm.testBit hi = true)
    (h4 : ∀ i, hi < i → i < a + n → sm.testBit i = false) :
    rescanList sm mn mx (List.range' a n) = (sm, mn, (hi : Int)) := by
  induction n generalizing a mx with
  | zero => omega
  | succ n ih =>
    rcases Nat.eq_or_lt_of_le h1 with rfl | hlt
    · simp only [List.range', rescanList, h3, if_true, beq_iff_eq, hmn, if_false]
      exact rescan_nobitsG sm mn (a : Int) (a + 1) n
        (fun i hi1 hi2 => h4 i (by omega) (by omega))
    · by_cases hb : sm.testBit a
      · simp only [List.range', rescanList, hb, if_true, beq_iff_eq, hmn, if_false]
        exact ih (a : Int) (a + 1) (by omega) (by omega)
          (fun i hi1 hi2 => h4 i hi1 (by omega))
      · simp only [List.range', rescanList, hb, Bool.false_eq_true, if_false]
        exact ih mx (a + 1) (by omega) (by omega)
          (fun i hi1 hi2 => h4 i hi1 (by omega))

theorem rescan_newminG (sm : Nat) (mx : Int) (a n lo : Nat)
    (h1 : a ≤ lo) (h2 : lo < a + n) (h3 : sm.testBit lo = true)
    (h4 : ∀ i, a ≤ i → i < lo → sm.testBit i = false) :
    rescanList sm (-1) mx (List.range' a n) =
      rescanList (clearBit sm lo) (lo : Int) (lo : Int) (List.range' (lo + 1) (a + n - (lo + 1))) := by
  induction n generalizing a with
  | zero => omega
  | succ n ih =>
    rcases Nat.eq_or_lt_of_le h1 with rfl | hlt
    · have hn : a + (n + 1) - (a + 1) = n := by omega
      simp only [List.range', rescanList, h3, if_true, beq_self_eq_true, hn]
    · have hb : sm.testBit a = false := h4 a (le_refl a) hlt
      simp only [List.range', rescanList, hb, Bool.false_eq_true, if_false]
      have hrec := ih (a + 1) (by omega) (by omega) (fun i hi1 hi2 => h4 i (by omega) hi2)
      have hm : a + 1 + n - (lo + 1) = a + (n + 1) - (lo + 1) := by omega
      rw [hm] at hrec
      exact hrec

theorem below_setG (B : Nat) (blk : List V) (i : Nat) (c : V) (y : Nat) (hi : i < blk.length) :
    Below B (blk.set i c) y = if high B y = i then stored c (low B y) else Below B blk y := by
  rw [Below, Below]
  by_cases h : high B y < blk.length
  · rw [dif_pos (by simpa using h), dif_pos h]
    by_cases he : high B y = i
    · rw [if_pos he]
      subst he
      exact congrFun (congrArg stored (List.get_set_eq _)) _
    · rw [if_neg he]
      exact congrFun (congrArg stored (List.get_set_ne (fun hh => he hh.symm) _)) _
  · rw [dif_neg (by simpa using h), dif_neg h, if_neg (by omega)]

theorem insert_UG (v : V) (x : Nat) : (insert v x).U = v.U := by
  obtain ⟨U, B, mn, mx, sm, summ, blk⟩ := v
  rw [insert]
  dsimp only
  repeat' split
  all_goals rfl

theorem insert_BG (v : V) (x : Nat) : (insert v x).B = v.B := by
  obtain ⟨U, B, mn, mx, sm, summ, blk⟩ := v
  rw [insert]
  dsimp only
  repeat' split
  all_goals rfl

theorem erase_UG (v : V) (x : Nat) : (erase v x).U = v.U := by
  obtain ⟨U, B, mn, mx, sm, summ, blk⟩ := v
  rw [erase.eq_def]
  dsimp only
  repeat' split
  all_goals rfl

theorem erase_BG (v : V) (x : Nat) : (erase v x).B = v.B := by
  obtain ⟨U, B, mn, mx, sm, summ, blk⟩ := v
  rw [erase.eq_def]
  dsimp only
  repeat' split
  all_goals rfl

end Gen


namespace Gen

theorem beq_castG (y x : Nat) : ((y : Int) == (x : Nat)) = (y == x) := by
  rw [Bool.eq_iff_iff, beq_iff_eq, beq_iff_eq]
  omega

theorem beq_toNatG (y : Nat) (mn : Int) (h : 0 ≤ mn) : ((y : Int) == mn) = (y == mn.toNat) := by
  rw [Bool.eq_iff_iff, beq_iff_eq, beq_iff_eq]
  omega

theorem insert_eq_emptyG (U B : Nat) (mn mx : Int) (sm : Nat) (summ : Option V)
    (blk : List V) (x : Nat) (hmn : mn = -1) :
    insert (.mk U B mn mx sm summ blk) x = .mk U B x x sm summ blk := by
  rw [insert]
  simp [hmn]

theorem insert_eq_leafG (U B : Nat) (mn mx : Int) (sm : Nat) (summ : Option V)
    (blk : List V) (x : Nat) (hmn : mn ≠ -1) (hU : U < 32) (x1 : Nat) (mn1 : Int)
    (hx1 : x1 = if (x : Int) < mn then mn.toNat else x)
    (hmn1 : mn1 = if (x : Int) < mn then (x : Int) else mn) :
    insert (.mk U B mn mx sm summ blk) x =
      .mk U B mn1 (if (x1 : Int) > mx then (x1 : Int) else mx) (sm ||| (1 <<< x1)) summ blk := by
  subst hx1 hmn1
  rw [insert]
  simp [hmn, hU]

theorem insert_eq_nodeG (U B : Nat) (mn mx : Int) (sm : Nat) (s : V)
    (blk : List V) (x : Nat) (hmn : mn ≠ -1) (hU : ¬ U < 32) (x1 : Nat) (mn1 : Int)
    (hx1 : x1 = if (x : Int) < mn then mn.toNat else x)
    (hmn1 : mn1 = if (x : Int) < mn then (x : Int) else mn)
    (hblk : high B x1 < blk.length) :
    insert (.mk U B mn mx sm (some s) blk) x =
      .mk U B mn1 (if (x1 : Int) > mx then (x1 : Int) else mx) sm
        (some (if (blkD blk (high B x1)).min == -1 then insert s (high B x1) else s))
        (blk.set (high B x1) (insert (blk.get ⟨high B x1, hblk⟩) (low B x1))) := by
  subst hx1 hmn1
  rw [insert]
  simp [hmn, hU, hblk]

end Gen

namespace Gen

theorem below_emptyG (B : Nat) (blk : List V) (y : Nat)
    (hGb : ∀ b ∈ blk, Good b) (hEb : ∀ b ∈ blk, b.min = -1) :
    Below B blk y = false := by
  rw [Below]
  split
  · next h =>
    exact contains_emptyG _ (hGb _ (List.get_mem _ _ h)) (hEb _ (List.get_mem _ _ h)) _
  · rfl

theorem below_of_ltG (B : Nat) (blk : List V) (y : Nat) (h : high B y < blk.length) :
    Below B blk y = stored (blk.get ⟨high B y, h⟩) (low B y) := dif_pos h

theorem testBit_one_shiftG (n i : Nat) : (1 <<< n).testBit i = (i == n) := by
  rw [Nat.one_shiftLeft, Bool.eq_iff_iff, beq_iff_eq]
  by_cases h : i = n
  · subst h
    simp [Nat.testBit_two_pow_self]
  · simp [h, Nat.testBit_two_pow_of_ne (fun hh => h hh.symm)]

theorem beq_neg_oneG (y : Nat) : ((y : Int) == -1) = false := by
  rw [Bool.eq_iff_iff, beq_iff_eq]
  constructor
  · omega
  · intro h
    cases h

theorem blkD_set_selfG (blk : List V) (i : Nat) (c : V) (h : i < blk.length) :
    blkD (blk.set i c) i = c := by
  rw [blkD, List.getD_eq_get _ _ (by simpa using h), List.get_set_eq]

theorem blkD_set_neG (blk : List V) (i k : Nat) (c : V) (hki : k ≠ i) :
    blkD (blk.set i c) k = blkD blk k := by
  by_cases hk : k < blk.length
  · rw [blkD, blkD, List.getD_eq_get _ _ (by simpa using hk), List.getD_eq_get _ _ hk,
      List.get_set_ne (fun hh => hki hh.symm)]
  · rw [blkD, blkD, List.getD_eq_default _ _ (by simpa using Nat.le_of_not_lt hk),
      List.getD_eq_default _ _ (Nat.le_of_not_lt hk)]

theorem insert_specG : ∀ v : V, Good v → ∀ x : Nat, x < v.U → stored v x = false →
    Good (insert v x) ∧ ∀ y : Nat, stored (insert v x) y = (stored v y || (y == x)) := by
  refine V.induct _ ?_
  intro U B mn mx sm summ blk ihs ihb hg x hx hcx
  simp only [V.U_mk] at hx
  by_cases hmn : mn = -1
  · -- the subtree is empty: min = max = x, nothing else changes
    rw [insert_eq_emptyG _ _ _ _ _ _ _ _ hmn]
    subst hmn
    by_cases hU : U < 32
    · have hsm : sm = 0 := (((good_leaf_iffG _ _ _ _ _ _ _ hU).mp hg).2.2.1 rfl).2
      subst hsm
      constructor
      · rw [good_leaf_iffG _ _ _ _ _ _ _ hU]
        refine ⟨((good_leaf_iffG _ _ _ _ _ _ _ hU).mp hg).1, ((good_leaf_iffG _ _ _ _ _ _ _ hU).mp hg).2.1, by intro h; omega,
          fun _ => ⟨by omega, le_refl _, by exact_mod_cast hx, ?_, Or.inl rfl⟩⟩
        intro i hi
        simp [Nat.zero_testBit] at hi
      · intro y
        rw [contains_unfoldG, contains_unfoldG]
        simp [hU, Nat.zero_testBit, beq_castG, beq_neg_oneG]
    · match summ, hg with
      | some s, hg =>
        obtain ⟨hsU, hpos, hb, hsu, hgs, hsync, hemp, -⟩ :=
          (good_node_iffG _ _ _ _ _ _ _ hU).mp hg
        have hB : 0 < B := by
          rcases Nat.eq_zero_or_pos B with h0 | h0
          · rw [h0, Nat.mul_zero] at hsU
            omega
          · exact h0
        have hbel : ∀ y : Nat, Below B blk y = false :=
          fun y => below_emptyG _ _ _ (fun b hb' => (hb b hb').2) (hemp rfl).2
        constructor
        · rw [good_node_iffG _ _ _ _ _ _ _ hU]
          refine ⟨hsU, hpos, hb, hsu, hgs, hsync, by intro h; omega,
            fun _ => ⟨by omega, le_refl _, by exact_mod_cast hx, ?_, Or.inl rfl⟩⟩
          intro y hy
          rw [hbel y] at hy
          cases hy
        · intro y
          rw [contains_unfoldG, contains_unfoldG]
          simp [hU, hbel, beq_castG, beq_neg_oneG]
      | none, hg => exact absurd hg (good_node_noneG _ _ _ _ _ _ hU)
  · -- non-empty
    rw [contains_unfoldG] at hcx
    have hxm : ((x : Int) == mn) = false := by
      by_contra hh
      rw [Bool.not_eq_false] at hh
      rw [hh] at hcx
      simp at hcx
    have hrest : (if U < 32 then sm.testBit x else Below B blk x) = false := by
      by_contra hh
      rw [Bool.not_eq_false] at hh
      rw [hh, hxm] at hcx
      simp at hcx
    by_cases hU : U < 32
    · -- leaf: set bit x1 in the mask after the conditional swap with min
      have hbit : sm.testBit x = false := by simpa [hU] using hrest
      obtain ⟨-, -, -, h2⟩ := (good_leaf_iffG _ _ _ _ _ _ _ hU).mp hg
      obtain ⟨hmn0, hmnmx, hmxU, hbits, hwit⟩ := h2 hmn
      have hmnt : (mn.toNat : Int) = mn := Int.toNat_of_nonneg hmn0
      have hxmn : ¬ (x : Int) = mn := by simpa using hxm
      rw [insert_eq_leafG _ _ _ _ _ _ _ _ hmn hU _ _ rfl rfl]
      set x1 := (if (x : Int) < mn then mn.toNat else x) with hx1
      set mn1 := (if (x : Int) < mn then (x : Int) else mn) with hmn1
      have hx1U : x1 < U := by
        rw [hx1]
        split
        · omega
        · exact hx
      have hmn1x1 : mn1 < (x1 : Int) := by
        rw [hx1, hmn1]
        split <;> omega
      have hmn1mn : mn1 ≤ mn := by
        rw [hmn1]
        split <;> omega
      have hmn10 : 0 ≤ mn1 := by
        rw [hmn1]
        split <;> omega
      constructor
      · rw [good_leaf_iffG _ _ _ _ _ _ _ hU]
        refine ⟨((good_leaf_iffG _ _ _ _ _ _ _ hU).mp hg).1, ((good_leaf_iffG _ _ _ _ _ _ _ hU).mp hg).2.1, by intro h; omega, fun _ => ⟨hmn10, ?_, ?_, ?_, ?_⟩⟩
        · split <;> omega
        · split
          · exact_mod_cast hx1U
          · exact hmxU
        · intro i hi
          rw [Nat.testBit_or, Bool.or_eq_true, testBit_one_shiftG, beq_iff_eq] at hi
          rcases hi with hi | rfl
          · have := hbits i hi
            constructor
            · omega
            · split <;> omega
          · constructor
            · exact hmn1x1
            · split <;> omega
        · by_cases hgt : (x1 : Int) > mx
          · rw [if_pos hgt]
            right
            rw [Int.toNat_natCast, Nat.testBit_or, testBit_one_shiftG]
            simp
          · rw [if_neg hgt]
            rcases hwit with hw | hw
            · -- mx = mn: then x1 must be mn.toNat (the swapped-down old min)
              right
              have hxlt : (x : Int) < mn := by
                by_contra hh
                rw [hx1] at hgt
                rw [if_neg hh] at hgt
                omega
              rw [Nat.testBit_or, Bool.or_eq_true, testBit_one_shiftG]
              right
              rw [beq_iff_eq, hx1, if_pos hxlt, hw]
            · right
              rw [Nat.testBit_or, Bool.or_eq_true]
              exact Or.inl hw
      · intro y
        rw [contains_unfoldG, contains_unfoldG, Bool.eq_iff_iff]
        simp only [hU, if_true, Bool.or_eq_true, beq_iff_eq, Nat.testBit_or,
          testBit_one_shiftG]
        by_cases hby : sm.testBit y = true
        · simp [hby]
        · simp only [hby, Bool.false_eq_true, false_or, or_false]
          rw [hx1, hmn1]
          split_ifs with hlt <;> omega
    · -- internal node: maybe mark the block in the summary, then descend
      match summ, hg with
      | some s, hg =>
        obtain ⟨hsU, hpos, hb, hsu, hgs, hsync, -, h2⟩ := (good_node_iffG _ _ _ _ _ _ _ hU).mp hg
        have hB : 0 < B := by
          rcases Nat.eq_zero_or_pos B with h0 | h0
          · rw [h0, Nat.mul_zero] at hsU
            omega
          · exact h0
        obtain ⟨hmn0, hmnmx, hmxU, hbel, hwit⟩ := h2 hmn
        have hbelx : Below B blk x = false := by simpa [hU] using hrest
        have hmnt : (mn.toNat : Int) = mn := Int.toNat_of_nonneg hmn0
        have hxmn : ¬ (x : Int) = mn := by simpa using hxm
        obtain ⟨x1, hx1⟩ : ∃ x1 : Nat, x1 = (if (x : Int) < mn then mn.toNat else x) := ⟨_, rfl⟩
        obtain ⟨mn1, hmn1⟩ : ∃ mn1 : Int, mn1 = (if (x : Int) < mn then (x : Int) else mn) :=
          ⟨_, rfl⟩
        have hx1U : x1 < U := by
          rw [hx1]
          split
          · omega
          · exact hx
        have hmn1x1 : mn1 < (x1 : Int) := by
          rw [hx1, hmn1]
          split <;> omega
        have hmn1mn : mn1 ≤ mn := by
          rw [hmn1]
          split <;> omega
        have hmn10 : 0 ≤ mn1 := by
          rw [hmn1]
          split <;> omega
        have hhigh : high B x1 < blk.length := high_ltG B x1 blk.length (lt_of_lt_of_le hx1U hsU)
        have hbDi : blkD blk (high B x1) = blk.get ⟨high B x1, hhigh⟩ :=
          blkD_eq_getG _ _ hhigh
        have hcmem : blk.get ⟨high B x1, hhigh⟩ ∈ blk := List.get_mem _ _ _
        have hcU : (blk.get ⟨high B x1, hhigh⟩).U = B := (hb _ hcmem).1
        have hcG : Good (blk.get ⟨high B x1, hhigh⟩) := (hb _ hcmem).2
        have hbelx1 : Below B blk x1 = false := by
          by_cases hlt : (x : Int) < mn
          · by_contra hh
            rw [Bool.not_eq_false] at hh
            have hbd := hbel x1 hh
            have hxx : (x1 : Int) = mn := by
              rw [hx1, if_pos hlt, hmnt]
            omega
          · have hxx : x1 = x := by
              rw [hx1, if_neg hlt]
            rw [hxx]
            exact hbelx
        have hcx1 : stored (blk.get ⟨high B x1, hhigh⟩) (low B x1) = false := by
          rw [← below_of_ltG B blk x1 hhigh]
          exact hbelx1
        obtain ⟨hGc', hcc'⟩ := ihb _ hcmem hcG (low B x1) (by rw [hcU]; exact low_ltG B x1 hB) hcx1
        have hc'U : (insert (blk.get ⟨high B x1, hhigh⟩) (low B x1)).U
            = (blk.get ⟨high B x1, hhigh⟩).U := insert_UG _ _
        have hc'min : (insert (blk.get ⟨high B x1, hhigh⟩) (low B x1)).min ≠ -1 := by
          intro hh
          have h0 := contains_emptyG _ hGc' hh (low B x1)
          rw [hcc' (low B x1)] at h0
          simp at h0
        -- uniform characterisation of the updated summary
        have hSfacts : Good (if (blkD blk (high B x1)).min == -1
              then insert s (high B x1) else s) ∧
            (if (blkD blk (high B x1)).min == -1
              then insert s (high B x1) else s).U = blk.length ∧
            (∀ k : Nat, k < blk.length →
              ((stored (if (blkD blk (high B x1)).min == -1
                  then insert s (high B x1) else s) k = true) ↔
                (k = high B x1 ∨ stored s k = true))) := by
          by_cases hbe : (blkD blk (high B x1)).min = -1
          · rw [if_pos (by simp [hbe])]
            have hsi : stored s (high B x1) = false := by
              cases hcs : stored s (high B x1)
              · rfl
              · exact absurd ((hsync _ hhigh).mp hcs) (by simpa using hbe)
            obtain ⟨hGs', hsc'⟩ := ihs s rfl hgs (high B x1) (by rw [hsu]; exact hhigh) hsi
            refine ⟨hGs', (insert_UG _ _).trans hsu, fun k hk => ?_⟩
            rw [hsc' k]
            simp only [Bool.or_eq_true, beq_iff_eq]
            tauto
          · rw [if_neg (by simpa using hbe)]
            refine ⟨hgs, hsu, fun k hk => ?_⟩
            constructor
            · intro h
              right
              exact h
            · rintro (rfl | h)
              · exact (hsync _ hhigh).mpr hbe
              · exact h
        rw [insert_eq_nodeG _ _ _ _ _ _ _ _ hmn hU _ _ hx1 hmn1 hhigh]
        obtain ⟨hGs1, hs1U, hs1c⟩ := hSfacts
        -- facts about the updated block list
        have hlen' : (blk.set (high B x1) (insert (blk.get ⟨high B x1, hhigh⟩) (low B x1))).length
            = blk.length := List.length_set _ _ _
        have hbel' : ∀ y : Nat,
            Below B (blk.set (high B x1) (insert (blk.get ⟨high B x1, hhigh⟩) (low B x1))) y
              = (if high B y = high B x1
                  then stored (insert (blk.get ⟨high B x1, hhigh⟩) (low B x1)) (low B y)
                  else Below B blk y) :=
          fun y => below_setG B blk (high B x1) _ y hhigh
        have hyx1 : ∀ y : Nat, high B y = high B x1 → low B y = low B x1 → y = x1 := by
          intro y h1 h2
          have hy := (index_high_lowG B y).symm
          rw [h1, h2, index_high_lowG] at hy
          exact hy
        have hbelnew : ∀ y : Nat,
            Below B (blk.set (high B x1) (insert (blk.get ⟨high B x1, hhigh⟩) (low B x1))) y = true
              ↔ (Below B blk y = true ∨ y = x1) := by
          intro y
          rw [hbel' y]
          by_cases heq : high B y = high B x1
          · rw [if_pos heq, hcc' (low B y)]
            simp only [Bool.or_eq_true, beq_iff_eq]
            constructor
            · rintro (h | h)
              · left
                rw [below_of_ltG B blk y (heq ▸ hhigh)]
                have : (⟨high B y, heq ▸ hhigh⟩ : Fin blk.length) = ⟨high B x1, hhigh⟩ := by
                  simp [heq]
                rw [this]
                exact h
              · right
                exact hyx1 y heq h
            · rintro (h | rfl)
              · left
                rw [below_of_ltG B blk y (heq ▸ hhigh)] at h
                have : (⟨high B y, heq ▸ hhigh⟩ : Fin blk.length) = ⟨high B x1, hhigh⟩ := by
                  simp [heq]
                rw [this] at h
                exact h
              · right
                rfl
          · rw [if_neg heq]
            constructor
            · intro h
              left
              exact h
            · rintro (h | rfl)
              · exact h
              · exact absurd rfl heq
        constructor
        · rw [good_node_iffG _ _ _ _ _ _ _ hU]
          refine ⟨by rw [hlen']; exact hsU, by rw [hlen']; exact hpos, ?_,
            by rw [hs1U, hlen'], hGs1, ?_, by intro h; omega,
            fun _ => ⟨hmn10, ?_, ?_, ?_, ?_⟩⟩
          · intro b hbm
            rcases List.mem_or_eq_of_mem_set hbm with hbm | rfl
            · exact hb b hbm
            · exact ⟨hc'U.trans hcU, hGc'⟩
          · intro k hk
            rw [hlen'] at hk
            rw [hs1c k hk]
            by_cases hki : k = high B x1
            · subst hki
              rw [blkD_set_selfG _ _ _ hhigh]
              constructor
              · intro _
                exact hc'min
              · intro _
                exact Or.inl rfl
            · rw [blkD_set_neG _ _ _ _ hki]
              constructor
              · rintro (rfl | h)
                · exact absurd rfl hki
                · exact (hsync k hk).mp h
              · intro h
                right
                exact (hsync k hk).mpr h
          · split <;> omega
          · split
            · exact_mod_cast hx1U
            · exact hmxU
          · intro y hy
            rw [hbelnew y] at hy
            rcases hy with hy | rfl
            · have := hbel y hy
              constructor
              · omega
              · split <;> omega
            · constructor
              · exact hmn1x1
              · split <;> omega
          · by_cases hgt : (x1 : Int) > mx
            · rw [if_pos hgt]
              right
              rw [Int.toNat_natCast, hbelnew x1]
              right
              rfl
            · rw [if_neg hgt]
              right
              rcases hwit with hw | hw
              · have hxlt : (x : Int) < mn := by
                  by_contra hh
                  rw [hx1, if_neg hh] at hgt
                  omega
                rw [hbelnew mx.toNat]
                right
                rw [hw, hx1, if_pos hxlt]
              · rw [hbelnew mx.toNat]
                left
                exact hw
        · intro y
          rw [contains_unfoldG, contains_unfoldG, Bool.eq_iff_iff]
          simp only [hU, if_false, Bool.or_eq_true, beq_iff_eq]
          rw [hbelnew y]
          by_cases hby : Below B blk y = true
          · simp [hby]
          · simp only [hby, false_or, or_false]
            rw [hx1, hmn1]
            split_ifs with hlt <;> first
              | omega
              | (simp only [false_or, or_false] <;> omega)
      | none, hg => exact absurd hg (good_node_noneG _ _ _ _ _ _ hU)

end Gen


namespace Gen

theorem min_nonnegG (v : V) (hg : Good v) (hmn : v.min ≠ -1) : 0 ≤ v.min := by
  obtain ⟨U, B, mn, mx, sm, summ, blk⟩ := v
  simp only [V.min_mk] at hmn ⊢
  by_cases hU : U < 32
  · exact (((good_leaf_iffG _ _ _ _ _ _ _ hU).mp hg).2.2.2 hmn).1
  · match summ, hg with
    | some s, hg => exact (((good_node_iffG _ _ _ _ _ _ _ hU).mp hg).2.2.2.2.2.2.2 hmn).1
    | none, hg => exact absurd hg (good_node_noneG _ _ _ _ _ _ hU)

theorem succ_eq_ltG (U B : Nat) (mn mx : Int) (sm : Nat) (summ : Option V)
    (blk : List V) (x : Nat) (hlt : (x : Int) < mn) :
    successor (.mk U B mn mx sm summ blk) x = mn := by
  rw [successor.eq_def]
  simp [hlt]

theorem succ_eq_leafG (U B : Nat) (mn mx : Int) (sm : Nat) (summ : Option V)
    (blk : List V) (x : Nat) (hlt : ¬ (x : Int) < mn) (hU : U < 32) :
    successor (.mk U B mn mx sm summ blk) x =
      scanList sm (List.range' (x + 1) (U - (x + 1))) := by
  rw [successor.eq_def]
  simp [hlt, hU]

theorem succ_eq_node_inG (U B : Nat) (mn mx : Int) (sm : Nat) (s : V)
    (blk : List V) (x : Nat) (hlt : ¬ (x : Int) < mn) (hU : ¬ U < 32)
    (hhigh : high B x < blk.length)
    (hin : ((low B x : Nat) : Int) < (blkD blk (high B x)).max) :
    successor (.mk U B mn mx sm (some s) blk) x =
      (index B (high B x) (successor (blk.get ⟨high B x, hhigh⟩) (low B x)).toNat : Int) := by
  rw [successor.eq_def]
  simp [hlt, hU, hin, hhigh]

theorem succ_eq_node_foundG (U B : Nat) (mn mx : Int) (sm : Nat) (s : V)
    (blk : List V) (x : Nat) (hlt : ¬ (x : Int) < mn) (hU : ¬ U < 32)
    (hout : ¬ ((low B x : Nat) : Int) < (blkD blk (high B x)).max)
    (hi2 : successor s (high B x) ≠ -1) :
    successor (.mk U B mn mx sm (some s) blk) x =
      (index B (successor s (high B x)).toNat
        ((blkD blk (successor s (high B x)).toNat).min.toNat) : Int) := by
  rw [successor.eq_def]
  simp only [hlt, if_false, hU, hout]
  simp [hi2]

theorem succ_eq_node_noneG (U B : Nat) (mn mx : Int) (sm : Nat) (s : V)
    (blk : List V) (x : Nat) (hlt : ¬ (x : Int) < mn) (hU : ¬ U < 32)
    (hout : ¬ ((low B x : Nat) : Int) < (blkD blk (high B x)).max)
    (hi2 : successor s (high B x) = -1) :
    successor (.mk U B mn mx sm (some s) blk) x = -1 := by
  rw [successor.eq_def]
  simp only [hlt, if_false, hU, hout]
  simp [hi2]

end Gen

namespace Gen

theorem below_elimG (B : Nat) (blk : List V) (y : Nat) (h : Below B blk y = true) :
    ∃ hh : high B y < blk.length, stored (blk.get ⟨high B y, hh⟩) (low B y) = true := by
  rw [Below] at h
  split at h
  · exact ⟨‹_›, h⟩
  · cases h

theorem below_indexG (B : Nat) (blk : List V) (i j : Nat) (hi : i < blk.length)
    (hj : j < B) :
    Below B blk (index B i j) = stored (blk.get ⟨i, hi⟩) j := by
  rw [Below]
  simp only [high_indexG B i j hj, low_indexG B i j hj, hi, dif_pos]

theorem nonempty_of_containsG (b : V) (hg : Good b) (z : Nat) (h : stored b z = true) :
    b.min ≠ -1 := by
  intro hh
  rw [contains_emptyG b hg hh z] at h
  cases h

theorem successor_specG : ∀ v : V, Good v → ∀ x : Nat, x < v.U →
    FirstAbove (fun y => stored v y) x (successor v x) := by
  refine V.induct _ ?_
  intro U B mn mx sm summ blk ihs ihb hg x hx
  simp only [V.U_mk] at hx
  by_cases hlt : (x : Int) < mn
  · -- step 1: x below the cached minimum, which is then the answer
    rw [succ_eq_ltG _ _ _ _ _ _ _ _ hlt]
    have hmn : mn ≠ -1 := by
      intro h
      rw [h] at hlt
      omega
    have hmn0 : 0 ≤ mn := min_nonnegG (V.mk U B mn mx sm summ blk) hg (by simpa using hmn)
    right
    refine ⟨mn.toNat, (Int.toNat_of_nonneg hmn0).symm, by omega, ?_, ?_⟩
    · simpa using min_memG (V.mk U B mn mx sm summ blk) hg (by simpa using hmn)
    · intro y hy1 hy2
      cases hc : stored (V.mk U B mn mx sm summ blk) y
      · exact hc
      · have := min_le_of_memG _ hg y hc
        simp only [V.min_mk] at this
        omega
  · by_cases hU : U < 32
    · -- leaf scan over the mask
      rw [succ_eq_leafG _ _ _ _ _ _ _ _ hlt hU]
      rcases scanList_specG sm (x + 1) (U - (x + 1)) with ⟨h1, h2⟩ | ⟨m, h1, h2, h3, h4, h5⟩
      · left
        refine ⟨h1, fun y hy => ?_⟩
        cases hc : stored (V.mk U B mn mx sm summ blk) y
        · exact hc
        · exfalso
          have hyU : y < U := by simpa using contains_lt_UG _ hg y hc
          rw [contains_unfoldG] at hc
          simp only [hU, if_true, Bool.or_eq_true, beq_iff_eq] at hc
          rcases hc with hc | hc
          · omega
          · rw [h2 y (by omega) (by omega)] at hc
            cases hc
      · right
        refine ⟨m, h1, by omega, ?_, ?_⟩
        · show stored (V.mk U B mn mx sm summ blk) m = true
          rw [contains_unfoldG]
          simp [hU, h4]
        · intro y hy1 hy2
          cases hc : stored (V.mk U B mn mx sm summ blk) y
          · exact hc
          · exfalso
            rw [contains_unfoldG] at hc
            simp only [hU, if_true, Bool.or_eq_true, beq_iff_eq] at hc
            rcases hc with hc | hc
            · omega
            · rw [h5 y (by omega) hy2] at hc
              cases hc
    · -- internal node
      match summ, hg with
      | some s, hg =>
        obtain ⟨hsU, hpos, hb, hsu, hgs, hsync, -, -⟩ := (good_node_iffG _ _ _ _ _ _ _ hU).mp hg
        have hB : 0 < B := by
          rcases Nat.eq_zero_or_pos B with h0 | h0
          · rw [h0, Nat.mul_zero] at hsU
            omega
          · exact h0
        have hhigh : high B x < blk.length := high_ltG B x _ (lt_of_lt_of_le hx hsU)
        have hbDi : blkD blk (high B x) = blk.get ⟨high B x, hhigh⟩ := blkD_eq_getG _ _ hhigh
        have hcmem := List.get_mem blk (high B x) hhigh
        have hcU : (blk.get ⟨high B x, hhigh⟩).U = B := (hb _ hcmem).1
        have hcG := (hb _ hcmem).2
        have hmem_node : ∀ y : Nat, stored (V.mk U B mn mx sm (some s) blk) y = true ↔
            ((y : Int) = mn ∨ Below B blk y = true) := by
          intro y
          rw [contains_unfoldG]
          simp [hU]
        have hxeq : x = index B (high B x) (low B x) := (index_high_lowG B x).symm
        have hxarith : x = high B x * B + low B x := by
          nth_rewrite 1 [hxeq]
          rw [index_eqG _ _ _ (low_ltG B x hB)]
        have hyarith : ∀ y : Nat, y = high B y * B + low B y := by
          intro y
          nth_rewrite 1 [(index_high_lowG B y).symm]
          rw [index_eqG _ _ _ (low_ltG B y hB)]
        by_cases hin : ((low B x : Nat) : Int) < (blkD blk (high B x)).max
        · rw [succ_eq_node_inG _ _ _ _ _ _ _ _ hlt hU hhigh hin]
          rw [hbDi] at hin
          have hcmax : (blk.get ⟨high B x, hhigh⟩).max ≠ -1 := by
            intro h
            rw [h] at hin
            omega
          have hcmin : (blk.get ⟨high B x, hhigh⟩).min ≠ -1 := fun h =>
            hcmax ((min_neg_iff_max_negG _ hcG).mp h)
          rcases ihb _ hcmem hcG (low B x) (by rw [hcU]; exact low_ltG B x hB) with
            ⟨hr, hall⟩ | ⟨n, hr, hn1, hn2, hn3⟩
          · exfalso
            have hmxmem := max_memG _ hcG hcmin
            have h0 : stored (blk.get ⟨high B x, hhigh⟩)
                ((blk.get ⟨high B x, hhigh⟩).max.toNat) = false :=
              hall ((blk.get ⟨high B x, hhigh⟩).max.toNat) (by omega)
            rw [hmxmem] at h0
            cases h0
          · have hn2'' : stored (blk.get ⟨high B x, hhigh⟩) n = true := hn2
            have hn3'' : ∀ y : Nat, low B x < y → y < n →
                stored (blk.get ⟨high B x, hhigh⟩) y = false := hn3
            rw [hr, Int.toNat_natCast]
            right
            have hn2' : n < B := by
              have := contains_lt_UG _ hcG n hn2''
              rwa [hcU] at this
            refine ⟨index B (high B x) n, rfl, ?_, ?_, ?_⟩
            · rw [index_eqG _ _ _ hn2']
              omega
            · show stored (V.mk U B mn mx sm (some s) blk) (index B (high B x) n) = true
              rw [contains_unfoldG]
              simp only [hU, if_false, Bool.or_eq_true]
              right
              rw [below_indexG B blk _ _ hhigh hn2']
              exact hn2''
            · intro y hy1 hy2
              cases hc : stored (V.mk U B mn mx sm (some s) blk) y
              · exact hc
              · exfalso
                rcases (hmem_node y).mp hc with hc' | hc'
                · omega
                · obtain ⟨hylen, hyc⟩ := below_elimG _ _ _ hc'
                  rw [index_eqG _ _ _ hn2'] at hy2
                  have hy1' := hy1
                  rw [hxarith, hyarith y] at hy1'
                  rw [hyarith y] at hy2
                  rw [lex_ltG _ _ _ _ _ (low_ltG B x hB) (low_ltG B y hB)] at hy1'
                  rw [lex_ltG _ _ _ _ _ (low_ltG B y hB) hn2'] at hy2
                  have hiy : high B y = high B x := by omega
                  have hjy1 : low B x < low B y := by omega
                  have hjy2 : low B y < n := by omega
                  have hfin : (⟨high B y, hylen⟩ : Fin blk.length) = ⟨high B x, hhigh⟩ := by
                    simp [hiy]
                  rw [hfin] at hyc
                  rw [hn3'' (low B y) hjy1 hjy2] at hyc
                  cases hyc
        · -- no member above inside the block: route through the summary
          have hcbound : ∀ z : Nat, stored (blk.get ⟨high B x, hhigh⟩) z = true →
              (z : Int) ≤ ((low B x : Nat) : Int) := by
            intro z hz
            have h1 := mem_le_maxG _ hcG z hz
            rw [← hbDi] at h1
            omega
          have hIHs := ihs s rfl hgs (high B x) (by rw [hsu]; exact hhigh)
          rcases hIHs with ⟨hr2, hall2⟩ | ⟨n2, hr2, hn21, hn22, hn23⟩
          · -- no later non-empty block either: no successor
            rw [succ_eq_node_noneG _ _ _ _ _ _ _ _ hlt hU hin hr2]
            left
            refine ⟨rfl, fun y hy => ?_⟩
            cases hc : stored (V.mk U B mn mx sm (some s) blk) y
            · exact hc
            · exfalso
              rcases (hmem_node y).mp hc with hc' | hc'
              · omega
              · obtain ⟨hylen, hyc⟩ := below_elimG _ _ _ hc'
                have hy' := hy
                rw [hxarith, hyarith y] at hy'
                rw [lex_ltG _ _ _ _ _ (low_ltG B x hB) (low_ltG B y hB)] at hy'
                rcases hy' with hcase | ⟨hceq, hclt⟩
                · -- a later block would have to be non-empty, but the summary is empty above
                  have hnon : (blkD blk (high B y)).min ≠ -1 := by
                    rw [blkD_eq_getG _ _ hylen]
                    exact nonempty_of_containsG _ ((hb _ (List.get_mem _ _ hylen)).2) _ hyc
                  have hsmem := (hsync (high B y) hylen).mpr hnon
                  have h0 : stored s (high B y) = false := hall2 (high B y) hcase
                  rw [h0] at hsmem
                  cases hsmem
                · -- same block: bounded by the block maximum
                  have hfin : (⟨high B y, hylen⟩ : Fin blk.length) = ⟨high B x, hhigh⟩ := by
                    simp [hceq]
                  rw [hfin] at hyc
                  have := hcbound (low B y) hyc
                  omega
          · -- the next non-empty block exists: answer is its cached minimum
            have hn22' : stored s n2 = true := hn22
            have hn23' : ∀ k : Nat, high B x < k → k < n2 → stored s k = false := hn23
            have hn2len : n2 < blk.length := by
              have := contains_lt_UG _ hgs n2 hn22'
              rwa [hsu] at this
            have hr2' : successor s (high B x) ≠ -1 := by
              rw [hr2]
              omega
            rw [succ_eq_node_foundG _ _ _ _ _ _ _ _ hlt hU hin hr2', hr2, Int.toNat_natCast]
            have hbD2 : blkD blk n2 = blk.get ⟨n2, hn2len⟩ := blkD_eq_getG _ _ hn2len
            have hc2mem := List.get_mem blk n2 hn2len
            have hc2U : (blk.get ⟨n2, hn2len⟩).U = B := (hb _ hc2mem).1
            have hc2G := (hb _ hc2mem).2
            have hc2min : (blk.get ⟨n2, hn2len⟩).min ≠ -1 := by
              have := (hsync n2 hn2len).mp hn22'
              rwa [hbD2] at this
            have hc2min0 : 0 ≤ (blk.get ⟨n2, hn2len⟩).min := min_nonnegG _ hc2G hc2min
            have hm2mem : stored (blk.get ⟨n2, hn2len⟩)
                (blk.get ⟨n2, hn2len⟩).min.toNat = true := min_memG _ hc2G hc2min
            have hm2lt : (blk.get ⟨n2, hn2len⟩).min.toNat < B := by
              have := contains_lt_UG _ hc2G _ hm2mem
              rwa [hc2U] at this
            rw [hbD2]
            right
            refine ⟨index B n2 (blk.get ⟨n2, hn2len⟩).min.toNat, rfl, ?_, ?_, ?_⟩
            · rw [index_eqG _ _ _ hm2lt]
              have h5 : (high B x + 1) * B ≤ n2 * B :=
                Nat.mul_le_mul_right _ hn21
              have h6 : (high B x + 1) * B = high B x * B + B := by ring
              have h7 := low_ltG B x hB
              omega
            · show stored (V.mk U B mn mx sm (some s) blk)
                (index B n2 (blk.get ⟨n2, hn2len⟩).min.toNat) = true
              rw [contains_unfoldG]
              simp only [hU, if_false, Bool.or_eq_true]
              right
              rw [below_indexG B blk _ _ hn2len hm2lt]
              exact hm2mem
            · intro y hy1 hy2
              cases hc : stored (V.mk U B mn mx sm (some s) blk) y
              · exact hc
              · exfalso
                rcases (hmem_node y).mp hc with hc' | hc'
                · omega
                · obtain ⟨hylen, hyc⟩ := below_elimG _ _ _ hc'
                  have hy1' := hy1
                  rw [hxarith, hyarith y] at hy1'
                  rw [lex_ltG _ _ _ _ _ (low_ltG B x hB) (low_ltG B y hB)] at hy1'
                  rw [index_eqG _ _ _ hm2lt] at hy2
                  have hy2' := hy2
                  rw [hyarith y] at hy2'
                  rw [lex_ltG _ _ _ _ _ (low_ltG B y hB) hm2lt] at hy2'
                  rcases hy1' with hcase | ⟨hceq, hclt⟩
                  · rcases hy2' with hy2c | ⟨hyeq2, hylow2⟩
                    · -- strictly later block, strictly before n2: that block is empty
                      have hnon : (blkD blk (high B y)).min ≠ -1 := by
                        rw [blkD_eq_getG _ _ hylen]
                        exact nonempty_of_containsG _ ((hb _ (List.get_mem _ _ hylen)).2) _ hyc
                      have hsmem := (hsync (high B y) hylen).mpr hnon
                      rw [hn23' (high B y) hcase hy2c] at hsmem
                      cases hsmem
                    · -- y would sit below the cached minimum of block n2
                      have hfin2 : (⟨high B y, hylen⟩ : Fin blk.length) = ⟨n2, hn2len⟩ := by
                        simp [hyeq2]
                      rw [hfin2] at hyc
                      have := min_le_of_memG _ hc2G _ hyc
                      omega
                  · -- same block as x: bounded by its maximum
                    have hfin : (⟨high B y, hylen⟩ : Fin blk.length) = ⟨high B x, hhigh⟩ := by
                      simp [hceq]
                    rw [hfin] at hyc
                    have := hcbound (low B y) hyc
                    omega
      | none, hg => exact absurd hg (good_node_noneG _ _ _ _ _ _ hU)

end Gen


namespace Gen

theorem erase_eq_leafG (U B : Nat) (mn mx : Int) (sm : Nat) (summ : Option V)
    (blk : List V) (x : Nat) (hU : U < 32) (mn1 mx1 : Int)
    (hmn1 : mn1 = if (x : Int) == mn then -1 else mn)
    (hmx1 : mx1 = if (x : Int) == mx then mn1 else mx) :
    erase (.mk U B mn mx sm summ blk) x =
      .mk U B (rescanList (clearBit sm x) mn1 mx1 (List.range U)).2.1
        (rescanList (clearBit sm x) mn1 mx1 (List.range U)).2.2
        (rescanList (clearBit sm x) mn1 mx1 (List.range U)).1 summ blk := by
  subst hmn1 hmx1
  rw [erase.eq_def]
  simp [hU]

theorem erase_eq_lastG (U B : Nat) (mn mx : Int) (sm : Nat) (s : V)
    (blk : List V) (x : Nat) (hU : ¬ U < 32) (hxm : (x : Int) = mn) (hsm : s.min = -1) :
    erase (.mk U B mn mx sm (some s) blk) x = .mk U B (-1) (-1) sm (some s) blk := by
  rw [erase.eq_def]
  simp [hU, hxm, hsm]

theorem erase_eq_notminG (U B : Nat) (mn mx : Int) (sm : Nat) (s : V)
    (blk : List V) (x : Nat) (hU : ¬ U < 32) (hxm : ((x : Int) == mn) = false)
    (hhigh : high B x < blk.length) (blk1 : List V) (s1 : V) (mx1 : Int)
    (hblk1 : blk1 = blk.set (high B x) (erase (blk.get ⟨high B x, hhigh⟩) (low B x)))
    (hs1 : s1 = if (blkD blk1 (high B x)).min == -1 then erase s (high B x) else s)
    (hmx1 : mx1 = if (x : Int) == mx then
        (if s1.max == -1 then mn
         else (index B s1.max.toNat ((blkD blk1 s1.max.toNat).max.toNat) : Int))
      else mx) :
    erase (.mk U B mn mx sm (some s) blk) x = .mk U B mn mx1 sm (some s1) blk1 := by
  subst hblk1 hs1 hmx1
  rw [erase.eq_def]
  simp only [hU, if_false, hxm, Bool.false_and]
  simp [hhigh, hxm]

theorem erase_eq_minG (U B : Nat) (mn mx : Int) (sm : Nat) (s : V)
    (blk : List V) (x : Nat) (hU : ¬ U < 32) (hxm : (x : Int) = mn) (hsm : s.min ≠ -1)
    (m : Nat) (hm : m = index B s.min.toNat (blkD blk s.min.toNat).min.toNat)
    (hhigh : high B m < blk.length) (blk1 : List V) (s1 : V) (mx1 : Int)
    (hblk1 : blk1 = blk.set (high B m) (erase (blk.get ⟨high B m, hhigh⟩) (low B m)))
    (hs1 : s1 = if (blkD blk1 (high B m)).min == -1 then erase s (high B m) else s)
    (hmx1 : mx1 = if (m : Int) == mx then
        (if s1.max == -1 then (m : Int)
         else (index B s1.max.toNat ((blkD blk1 s1.max.toNat).max.toNat) : Int))
      else mx) :
    erase (.mk U B mn mx sm (some s) blk) x = .mk U B (m : Int) mx1 sm (some s1) blk1 := by
  subst hblk1 hs1 hmx1 hm
  rw [erase.eq_def]
  simp only [hU, if_false, hxm, beq_self_eq_true, Bool.true_and]
  simp [hsm, hhigh]

end Gen

namespace Gen

theorem erase_absentG : ∀ v : V, Good v → ∀ x : Nat, x < v.U → stored v x = false →
    erase v x = v := by
  refine V.induct _ ?_
  intro U B mn mx sm summ blk ihs ihb hg x hx hcx
  simp only [V.U_mk] at hx
  rw [contains_unfoldG] at hcx
  have hxm : ((x : Int) == mn) = false := by
    by_contra hh
    rw [Bool.not_eq_false] at hh
    rw [hh] at hcx
    simp at hcx
  have hrest : (if U < 32 then sm.testBit x else Below B blk x) = false := by
    by_contra hh
    rw [Bool.not_eq_false] at hh
    rw [hh, hxm] at hcx
    simp at hcx
  by_cases hU : U < 32
  · -- leaf: clearing an unset bit and rescanning is the identity
    have hbit : sm.testBit x = false := by simpa [hU] using hrest
    obtain ⟨-, -, h1, h2⟩ := (good_leaf_iffG _ _ _ _ _ _ _ hU).mp hg
    have hxmn : ¬ (x : Int) = mn := by simpa using hxm
    have hxmx : ((x : Int) == mx) = false := by
      rw [beq_eq_false_iff_ne]
      intro hh
      by_cases hmn : mn = -1
      · rw [(h1 hmn).1] at hh
        omega
      · have hmxm := max_memG (V.mk U B mn mx sm summ blk) hg (by simpa using hmn)
        obtain ⟨hmn0, hmnmx, hmxU, hbits, hwit⟩ := h2 hmn
        rw [contains_unfoldG] at hmxm
        simp only [hU, if_true, Bool.or_eq_true, beq_iff_eq, V.max_mk] at hmxm
        have hxt : mx.toNat = x := by omega
        rcases hmxm with hc | hc
        · omega
        · rw [hxt, hbit] at hc
          cases hc
    rw [erase_eq_leafG _ _ _ _ _ _ _ _ hU mn mx (by rw [hxm]; simp) (by rw [hxmx]; simp),
      clearBit_noop sm x hbit]
    by_cases hmn : mn = -1
    · obtain ⟨hmx0, hsm0⟩ := h1 hmn
      subst hsm0 hmn hmx0
      rw [List.range_eq_range', rescan_nobitsG _ _ _ _ _ (fun i h1 h2 => Nat.zero_testBit i)]
    · obtain ⟨hmn0, hmnmx, hmxU, hbits, hwit⟩ := h2 hmn
      by_cases hsm : sm = 0
      · subst hsm
        rw [List.range_eq_range', rescan_nobitsG _ _ _ _ _ (fun i h1 h2 => Nat.zero_testBit i)]
      · -- the mask is non-empty: its greatest bit is mx, which the loop restores
        have hwit' : sm.testBit mx.toNat = true := by
          rcases hwit with hw | hw
          · exfalso
            obtain ⟨i, hi⟩ := Nat.ne_zero_implies_bit_true hsm
            have := hbits i hi
            omega
          · exact hw
        have hrs := rescan_stableG sm mn mx (by intro hh; rw [hh] at hmn0; omega) 0 U
          mx.toNat (by omega) (by omega) hwit'
          (fun i hi1 hi2 => by
            cases hb2 : sm.testBit i
            · rfl
            · exfalso
              have := hbits i hb2
              omega)
        rw [List.range_eq_range', hrs]
        rw [Int.toNat_of_nonneg (by omega)]
  · -- internal: the recursive erase is a no-op on the (absent) low part
    match summ, hg with
    | some s, hg =>
      obtain ⟨hsU, hpos, hb, hsu, hgs, hsync, hemp, h2⟩ := (good_node_iffG _ _ _ _ _ _ _ hU).mp hg
      have hB : 0 < B := by
        rcases Nat.eq_zero_or_pos B with h0 | h0
        · rw [h0, Nat.mul_zero] at hsU
          omega
        · exact h0
      have hbelx : Below B blk x = false := by simpa [hU] using hrest
      have hhigh : high B x < blk.length := high_ltG B x _ (lt_of_lt_of_le hx hsU)
      have hbDi : blkD blk (high B x) = blk.get ⟨high B x, hhigh⟩ := blkD_eq_getG _ _ hhigh
      have hcmem := List.get_mem blk (high B x) hhigh
      have hcU : (blk.get ⟨high B x, hhigh⟩).U = B := (hb _ hcmem).1
      have hcG := (hb _ hcmem).2
      have hcx0 : stored (blk.get ⟨high B x, hhigh⟩) (low B x) = false := by
        rw [← below_of_ltG B blk x hhigh]
        exact hbelx
      have hce : erase (blk.get ⟨high B x, hhigh⟩) (low B x) = blk.get ⟨high B x, hhigh⟩ :=
        ihb _ hcmem hcG (low B x) (by rw [hcU]; exact low_ltG B x hB) hcx0
      have hxmn : ¬ (x : Int) = mn := by simpa using hxm
      have hblk1 : blk.set (high B x) (erase (blk.get ⟨high B x, hhigh⟩) (low B x)) = blk := by
        rw [hce, set_get_self]
      have hxmx : ((x : Int) == mx) = false := by
        rw [beq_eq_false_iff_ne]
        intro hh
        by_cases hmn : mn = -1
        · rw [(hemp hmn).1] at hh
          omega
        · have hmxm := max_memG (V.mk U B mn mx sm (some s) blk) hg (by simpa using hmn)
          rw [contains_unfoldG] at hmxm
          simp only [hU, if_false, Bool.or_eq_true, beq_iff_eq, V.max_mk] at hmxm
          obtain ⟨hmn0, hmnmx, hmxU, hbel, hwit⟩ := h2 hmn
          have hxt : mx.toNat = x := by omega
          rcases hmxm with hc | hc
          · omega
          · rw [hxt, hbelx] at hc
            cases hc
      have hs1 : (if (blkD (blk.set (high B x) (erase (blk.get ⟨high B x, hhigh⟩) (low B x)))
            (high B x)).min == -1 then erase s (high B x) else s) = s := by
        rw [hblk1, hbDi]
        by_cases hbe : (blk.get ⟨high B x, hhigh⟩).min = -1
        · rw [if_pos (beq_iff_eq.mpr hbe)]
          have hsc : stored s (high B x) = false := by
            cases hcs : stored s (high B x)
            · rfl
            · exact absurd ((hsync _ hhigh).mp hcs) (by rw [hbDi]; simpa using hbe)
          exact ihs s rfl hgs (high B x) (by rw [hsu]; exact hhigh) hsc
        · rw [if_neg (by simpa using hbe)]
      rw [erase_eq_notminG _ _ _ _ _ _ _ _ hU hxm hhigh _ _ _ rfl rfl rfl]
      rw [hs1, hblk1, hxmx]
      simp
    | none, hg => exact absurd hg (good_node_noneG _ _ _ _ _ _ hU)

end Gen


namespace Gen

/-- Common part of the internal-node erase: after removing `low x2` from block
`high x2` and fixing the summary, the blocks store exactly the old below-set
minus `x2`, the summary again tracks the non-empty blocks, and the recombined
`summary.max`/`block_max` value is the greatest remaining below-member. -/
theorem min_le_maxG (v : V) (hg : Good v) (hmn : v.min ≠ -1) : v.min ≤ v.max := by
  obtain ⟨U, B, mn, mx, sm, summ, blk⟩ := v
  simp only [V.min_mk, V.max_mk] at hmn ⊢
  by_cases hU : U < 32
  · exact (((good_leaf_iffG _ _ _ _ _ _ _ hU).mp hg).2.2.2 hmn).2.1
  · match summ, hg with
    | some s, hg => exact (((good_node_iffG _ _ _ _ _ _ _ hU).mp hg).2.2.2.2.2.2.2 hmn).2.1
    | none, hg => exact absurd hg (good_node_noneG _ _ _ _ _ _ hU)

theorem erase_coreG (B : Nat) (hB : 0 < B) (blk : List V) (s : V)
    (hb : ∀ b ∈ blk, b.U = B ∧ Good b) (hsu : s.U = blk.length) (hgs : Good s)
    (hsync : ∀ k : Nat, k < blk.length → (stored s k = true ↔ (blkD blk k).min ≠ -1))
    (x2 : Nat) (hhigh : high B x2 < blk.length)
    (hcx2 : stored (blk.get ⟨high B x2, hhigh⟩) (low B x2) = true)
    (hIHcG : Good (erase (blk.get ⟨high B x2, hhigh⟩) (low B x2)))
    (hIHcc : ∀ z : Nat, stored (erase (blk.get ⟨high B x2, hhigh⟩) (low B x2)) z
      = (stored (blk.get ⟨high B x2, hhigh⟩) z && !(z == low B x2)))
    (hIHsG : stored s (high B x2) = true → Good (erase s (high B x2)))
    (hIHsc : stored s (high B x2) = true → ∀ k : Nat,
      stored (erase s (high B x2)) k = (stored s k && !(k == high B x2)))
    (blk1 : List V)
    (hblk1 : blk1 = blk.set (high B x2) (erase (blk.get ⟨high B x2, hhigh⟩) (low B x2)))
    (s1 : V) (hs1 : s1 = if (blkD blk1 (high B x2)).min == -1 then erase s (high B x2) else s) :
    (∀ b ∈ blk1, b.U = B ∧ Good b) ∧ Good s1 ∧ s1.U = blk.length ∧
    (∀ k : Nat, k < blk.length → (stored s1 k = true ↔ (blkD blk1 k).min ≠ -1)) ∧
    (∀ y : Nat, Below B blk1 y = true ↔ (Below B blk y = true ∧ y ≠ x2)) ∧
    (s1.min = -1 → ∀ y : Nat, Below B blk1 y = false) ∧
    (s1.min ≠ -1 →
      Below B blk1 (index B s1.max.toNat ((blkD blk1 s1.max.toNat).max.toNat)) = true ∧
      (∀ y : Nat, Below B blk1 y = true →
        y ≤ index B s1.max.toNat ((blkD blk1 s1.max.toNat).max.toNat))) := by
  have hcmem := List.get_mem blk (high B x2) hhigh
  have hcU : (blk.get ⟨high B x2, hhigh⟩).U = B := (hb _ hcmem).1
  have hcG := (hb _ hcmem).2
  have hcmin : (blk.get ⟨high B x2, hhigh⟩).min ≠ -1 :=
    nonempty_of_containsG _ hcG _ hcx2
  have hssome : stored s (high B x2) = true :=
    (hsync _ hhigh).mpr (by rw [blkD_eq_getG _ _ hhigh]; exact hcmin)
  have hlen1 : blk1.length = blk.length := by rw [hblk1, List.length_set]
  have hbD1i : blkD blk1 (high B x2) = erase (blk.get ⟨high B x2, hhigh⟩) (low B x2) := by
    rw [hblk1]
    exact blkD_set_selfG _ _ _ hhigh
  have hc'U : (erase (blk.get ⟨high B x2, hhigh⟩) (low B x2)).U = B :=
    (erase_UG _ _).trans hcU
  -- C1
  have hC1 : ∀ b ∈ blk1, b.U = B ∧ Good b := by
    intro b hbm
    rw [hblk1] at hbm
    rcases List.mem_or_eq_of_mem_set hbm with hbm | rfl
    · exact hb b hbm
    · exact ⟨hc'U, hIHcG⟩
  -- C4
  have hC4 : ∀ y : Nat, Below B blk1 y = true ↔ (Below B blk y = true ∧ y ≠ x2) := by
    intro y
    rw [hblk1, below_setG B blk _ _ y hhigh]
    by_cases heq : high B y = high B x2
    · rw [if_pos heq, hIHcc (low B y)]
      rw [below_of_ltG B blk y (heq ▸ hhigh)]
      have hfin : (⟨high B y, heq ▸ hhigh⟩ : Fin blk.length) = ⟨high B x2, hhigh⟩ := by
        simp [heq]
      rw [hfin]
      simp only [Bool.and_eq_true, Bool.not_eq_true', beq_eq_false_iff_ne, ne_eq]
      constructor
      · rintro ⟨h1, h2⟩
        refine ⟨h1, fun hy => h2 ?_⟩
        rw [hy]
      · rintro ⟨h1, h2⟩
        refine ⟨h1, fun hy => h2 ?_⟩
        have := (index_high_lowG B y).symm
        rw [heq, hy] at this
        rw [this, index_high_lowG]
    · rw [if_neg heq]
      constructor
      · intro h
        refine ⟨h, fun hy => heq ?_⟩
        rw [hy]
      · exact fun h => h.1
  -- summary characterisation
  have hSfact : Good s1 ∧ s1.U = blk.length ∧
      (∀ k : Nat, stored s1 k =
        (stored s k && !((k == high B x2) &&
          ((erase (blk.get ⟨high B x2, hhigh⟩) (low B x2)).min == -1)))) := by
    rw [hs1, hbD1i]
    by_cases hbe : (erase (blk.get ⟨high B x2, hhigh⟩) (low B x2)).min = -1
    · rw [if_pos (beq_iff_eq.mpr hbe)]
      refine ⟨hIHsG hssome, (erase_UG _ _).trans hsu, fun k => ?_⟩
      rw [hIHsc hssome k, beq_iff_eq.mpr hbe]
      simp
    · rw [if_neg (by simpa using hbe)]
      refine ⟨hgs, hsu, fun k => ?_⟩
      rw [beq_eq_false_iff_ne.mpr hbe]
      simp
  obtain ⟨hGs1, hs1U, hs1c⟩ := hSfact
  -- C3
  have hC3 : ∀ k : Nat, k < blk.length → (stored s1 k = true ↔ (blkD blk1 k).min ≠ -1) := by
    intro k hk
    rw [hs1c k]
    by_cases hki : k = high B x2
    · subst hki
      rw [hbD1i]
      by_cases hbe : (erase (blk.get ⟨high B x2, hhigh⟩) (low B x2)).min = -1
      · rw [beq_iff_eq.mpr hbe, beq_self_eq_true]
        simp only [Bool.and_self, Bool.not_true, Bool.and_false]
        exact ⟨fun h => Bool.noConfusion h, fun h => absurd hbe h⟩
      · rw [beq_eq_false_iff_ne.mpr hbe, beq_self_eq_true]
        simp only [Bool.true_and, Bool.not_false, Bool.and_true]
        exact ⟨fun _ => hbe, fun _ => hssome⟩
    · rw [hblk1, blkD_set_neG _ _ _ _ hki]
      have hkif : ((k == high B x2) = false) := beq_eq_false_iff_ne.mpr hki
      rw [hkif]
      simp only [Bool.false_and, Bool.not_false, Bool.and_true]
      exact hsync k hk
  -- C5
  have hC5 : s1.min = -1 → ∀ y : Nat, Below B blk1 y = false := by
    intro hse y
    apply below_emptyG
    · exact fun b hbm => (hC1 b hbm).2
    · intro b hbm
      obtain ⟨⟨n, hn⟩, hget⟩ := List.mem_iff_get.mp hbm
      have hn' : n < blk.length := by rwa [hlen1] at hn
      have h0 : stored s1 n = false := contains_emptyG s1 hGs1 hse n
      have h1 := (hC3 n hn')
      rw [h0] at h1
      have h2 : (blkD blk1 n).min = -1 := by
        by_contra hh
        exact absurd (h1.mpr hh) (by simp)
      rw [blkD_eq_getG _ _ hn] at h2
      rw [← hget]
      exact h2
  refine ⟨hC1, hGs1, hs1U, hC3, hC4, hC5, ?_⟩
  -- C6
  intro hne
  have hsmax : s1.max ≠ -1 := fun h => hne ((min_neg_iff_max_negG s1 hGs1).mpr h)
  have hsmax0 : 0 ≤ s1.max :=
    le_trans (min_nonnegG s1 hGs1 hne) (min_le_maxG s1 hGs1 hne)
  have hmaxmem : stored s1 s1.max.toNat = true := max_memG s1 hGs1 hne
  have hmaxlen : s1.max.toNat < blk.length := by
    have := contains_lt_UG s1 hGs1 _ hmaxmem
    rwa [hs1U] at this
  have hmaxlen1 : s1.max.toNat < blk1.length := by rwa [hlen1]
  have hc3min : (blkD blk1 s1.max.toNat).min ≠ -1 := (hC3 _ hmaxlen).mp hmaxmem
  have hbD3 : blkD blk1 s1.max.toNat = blk1.get ⟨s1.max.toNat, hmaxlen1⟩ :=
    blkD_eq_getG _ _ hmaxlen1
  have hc3G : Good (blk1.get ⟨s1.max.toNat, hmaxlen1⟩) :=
    (hC1 _ (List.get_mem _ _ _)).2
  have hc3U : (blk1.get ⟨s1.max.toNat, hmaxlen1⟩).U = B :=
    (hC1 _ (List.get_mem _ _ _)).1
  have hc3min' : (blk1.get ⟨s1.max.toNat, hmaxlen1⟩).min ≠ -1 := by
    rwa [hbD3] at hc3min
  have hc3maxmem : stored (blk1.get ⟨s1.max.toNat, hmaxlen1⟩)
      (blk1.get ⟨s1.max.toNat, hmaxlen1⟩).max.toNat = true := max_memG _ hc3G hc3min'
  have hc3maxlt : (blk1.get ⟨s1.max.toNat, hmaxlen1⟩).max.toNat < B := by
    have := contains_lt_UG _ hc3G _ hc3maxmem
    rwa [hc3U] at this
  constructor
  · rw [hbD3, below_indexG B blk1 _ _ hmaxlen1 hc3maxlt]
    exact hc3maxmem
  · intro y hy
    obtain ⟨hylen1, hyc⟩ := below_elimG _ _ _ hy
    have hylen : high B y < blk.length := by rwa [hlen1] at hylen1
    have hynon : (blkD blk1 (high B y)).min ≠ -1 := by
      rw [blkD_eq_getG _ _ hylen1]
      exact nonempty_of_containsG _ (hC1 _ (List.get_mem _ _ _)).2 _ hyc
    have hys1 : stored s1 (high B y) = true := (hC3 _ hylen).mpr hynon
    have hyle : (high B y : Int) ≤ s1.max := mem_le_maxG s1 hGs1 _ hys1
    have hyleN : high B y ≤ s1.max.toNat := by omega
    have hyarith : y = high B y * B + low B y := by
      nth_rewrite 1 [(index_high_lowG B y).symm]
      rw [index_eqG _ _ _ (low_ltG B y hB)]
    rw [hbD3, index_eqG _ _ _ hc3maxlt]
    rcases Nat.eq_or_lt_of_le hyleN with heq | hlt
    · have hfin : (⟨high B y, hylen1⟩ : Fin blk1.length) = ⟨s1.max.toNat, hmaxlen1⟩ := by
        simp [heq]
      rw [hfin] at hyc
      have hjy := mem_le_maxG _ hc3G _ hyc
      have hjy' : low B y ≤ (blk1.get ⟨s1.max.toNat, hmaxlen1⟩).max.toNat := by omega
      rw [hyarith, heq]
      omega
    · have h1 : (high B y + 1) * B ≤ s1.max.toNat * B :=
        Nat.mul_le_mul_right _ hlt
      have h2 : (high B y + 1) * B = high B y * B + B := by ring
      have h3 := low_ltG B y hB
      omega

end Gen


namespace Gen

theorem erase_specG : ∀ v : V, Good v → ∀ x : Nat, stored v x = true →
    Good (erase v x) ∧ ∀ y : Nat, stored (erase v x) y = (stored v y && !(y == x)) := by
  refine V.induct _ ?_
  intro U B mn mx sm summ blk ihs ihb hg x hcx
  have hmn : mn ≠ -1 := by simpa using nonempty_of_containsG _ hg x hcx
  have hxU : x < U := by simpa using contains_lt_UG _ hg x hcx
  by_cases hU : U < 32
  · -- LEAF
    obtain ⟨-, -, -, h2⟩ := (good_leaf_iffG _ _ _ _ _ _ _ hU).mp hg
    obtain ⟨hmn0, hmnmx, hmxU, hbits, hwit⟩ := h2 hmn
    rw [contains_unfoldG] at hcx
    simp only [hU, if_true, Bool.or_eq_true, beq_iff_eq] at hcx
    by_cases hxm : (x : Int) = mn
    · -- erase the cached minimum: the rescan loop promotes the lowest mask bit
      have hbitx : sm.testBit x = false := by
        cases hb2 : sm.testBit x
        · rfl
        · exfalso
          have := hbits x hb2
          omega
      rw [erase_eq_leafG _ _ _ _ _ _ _ _ hU (-1) (if (x : Int) == mx then -1 else mx)
        (by rw [beq_iff_eq.mpr hxm]; simp) rfl, clearBit_noop sm x hbitx]
      by_cases hsm : sm = 0
      · -- x was the only member
        have hmxmn : mx = mn := by
          rcases hwit with hw | hw
          · exact hw
          · rw [hsm, Nat.zero_testBit] at hw
            cases hw
        have hxmx : ((x : Int) == mx) = true := by
          rw [beq_iff_eq, hmxmn]
          exact hxm
        rw [hxmx, hsm, List.range_eq_range',
          rescan_nobitsG _ _ _ _ _ (fun i h1 h2 => Nat.zero_testBit i)]
        dsimp only
        constructor
        · rw [good_leaf_iffG _ _ _ _ _ _ _ hU]
          exact ⟨((good_leaf_iffG _ _ _ _ _ _ _ hU).mp hg).1, ((good_leaf_iffG _ _ _ _ _ _ _ hU).mp hg).2.1, fun _ => ⟨rfl, rfl⟩, fun h => absurd rfl h⟩
        · intro y
          rw [contains_unfoldG, contains_unfoldG, Bool.eq_iff_iff]
          simp only [hU, if_true, Nat.zero_testBit, Bool.or_false, Bool.and_eq_true,
            beq_iff_eq, Bool.not_eq_true', beq_eq_false_iff_ne, ne_eq]
          omega
      · -- promote the lowest remaining bit to be the new minimum
        have hex : ∃ i, sm.testBit i = true := Nat.ne_zero_implies_bit_true hsm
        have hlo : sm.testBit (Nat.find hex) = true := Nat.find_spec hex
        have hlomin : ∀ i, i < Nat.find hex → sm.testBit i = false := by
          intro i hi
          have := Nat.find_min hex hi
          simpa using this
        have hlobnd := hbits _ hlo
        have hmxmn : mx ≠ mn := by
          intro hh
          rw [hh] at hlobnd
          omega
        have hxmx : ((x : Int) == mx) = false := by
          rw [beq_eq_false_iff_ne]
          intro hh
          exact hmxmn (by omega)
        have hmx0 : 0 ≤ mx := by omega
        have hlomx : Nat.find hex ≤ mx.toNat := by omega
        have hhiG : sm.testBit (Nat.findGreatest (fun i => sm.testBit i = true) mx.toNat)
            = true :=
          @Nat.findGreatest_spec (Nat.find hex) (fun i => sm.testBit i = true) _ mx.toNat
            hlomx hlo
        have hhiGb := hbits _ hhiG
        have hhiGmax : ∀ i, Nat.findGreatest (fun i => sm.testBit i = true) mx.toNat < i →
            sm.testBit i = false := by
          intro i hi
          by_cases him : i ≤ mx.toNat
          · have := @Nat.findGreatest_is_greatest i (fun i => sm.testBit i = true) _
              mx.toNat hi him
            cases hb2 : sm.testBit i
            · rfl
            · exact absurd hb2 this
          · cases hb2 : sm.testBit i
            · rfl
            · exfalso
              have := hbits i hb2
              omega
        have hlole : Nat.find hex ≤ Nat.findGreatest (fun i => sm.testBit i = true) mx.toNat :=
          @Nat.le_findGreatest (Nat.find hex) (fun i => sm.testBit i = true) _ mx.toNat
            hlomx hlo
        have hres : rescanList sm (-1) mx (List.range' 0 U) =
            (clearBit sm (Nat.find hex), ((Nat.find hex : Nat) : Int),
              ((Nat.findGreatest (fun i => sm.testBit i = true) mx.toNat : Nat) : Int)) := by
          rw [rescan_newminG sm mx 0 U (Nat.find hex) (by omega) (by omega) hlo
            (fun i h1 h2 => hlomin i h2)]
          rcases Nat.eq_or_lt_of_le hlole with heq | hlt
          · rw [← heq]
            rw [rescan_nobitsG _ _ _ _ _ ?_]
            intro i h1 h2
            rw [heq] at h1
            rw [testBit_clearBitG, hhiGmax i (by omega)]
            simp
          · rw [rescan_stableG _ _ _ (by omega) _ _
              (Nat.findGreatest (fun i => sm.testBit i = true) mx.toNat)
              (by omega) (by omega) ?_ ?_]
            · rw [testBit_clearBitG]
              simp only [hhiG, Bool.true_and, Bool.not_eq_true', beq_eq_false_iff_ne, ne_eq]
              omega
            · intro i h1 h2
              rw [testBit_clearBitG, hhiGmax i h1]
              simp
        rw [hxmx]
        simp only [Bool.false_eq_true, if_false]
        rw [List.range_eq_range', hres]
        dsimp only
        constructor
        · rw [good_leaf_iffG _ _ _ _ _ _ _ hU]
          refine ⟨((good_leaf_iffG _ _ _ _ _ _ _ hU).mp hg).1, ((good_leaf_iffG _ _ _ _ _ _ _ hU).mp hg).2.1, by intro h; omega, fun _ => ⟨by omega, by exact_mod_cast hlole,
            by omega, ?_, ?_⟩⟩
          · intro i hi
            rw [testBit_clearBitG, Bool.and_eq_true, Bool.not_eq_true',
              beq_eq_false_iff_ne] at hi
            obtain ⟨hi1, hi2⟩ := hi
            have hge : Nat.find hex ≤ i := by
              by_contra hh
              rw [hlomin i (by omega)] at hi1
              cases hi1
            have hle : i ≤ Nat.findGreatest (fun i => sm.testBit i = true) mx.toNat := by
              by_contra hh
              rw [hhiGmax i (by omega)] at hi1
              cases hi1
            constructor
            · omega
            · omega
          · rcases Nat.eq_or_lt_of_le hlole with heq | hlt
            · left
              rw [← heq]
            · right
              rw [Int.toNat_natCast, testBit_clearBitG]
              simp only [hhiG, Bool.true_and, Bool.not_eq_true', beq_eq_false_iff_ne, ne_eq]
              omega
        · intro y
          rw [contains_unfoldG, contains_unfoldG, Bool.eq_iff_iff]
          simp only [hU, if_true, Bool.or_eq_true, Bool.and_eq_true, beq_iff_eq,
            testBit_clearBitG, Bool.not_eq_true', beq_eq_false_iff_ne, ne_eq]
          by_cases hby : sm.testBit y = true
          · have hybnd := hbits y hby
            constructor
            · intro _
              exact ⟨Or.inr hby, by omega⟩
            · intro _
              by_cases hyl : y = Nat.find hex
              · exact Or.inl (by rw [hyl])
              · exact Or.inr ⟨hby, hyl⟩
          · have hyf : y ≠ Nat.find hex := by
              intro hh
              rw [hh] at hby
              exact hby hlo
            constructor
            · rintro (h | ⟨h, -⟩)
              · exact absurd h (by exact_mod_cast hyf)
              · exact absurd h hby
            · rintro ⟨(h | h), hne⟩
              · exfalso
                omega
              · exact absurd h hby
    · -- erase a mask bit (x is not the cached minimum)
      have hbitx : sm.testBit x = true := by
        rcases hcx with hc | hc
        · exact absurd hc hxm
        · exact hc
      have hxbnd := hbits x hbitx
      rw [erase_eq_leafG _ _ _ _ _ _ _ _ hU mn (if (x : Int) == mx then mn else mx)
        (by rw [beq_eq_false_iff_ne.mpr hxm]; simp) rfl]
      by_cases hsm1 : clearBit sm x = 0
      · -- x was the only mask bit: only the cached minimum remains
        have honly : ∀ i : Nat, sm.testBit i = true → i = x := by
          intro i hi
          by_contra hne
          have hbit1 : (clearBit sm x).testBit i = true := by
            rw [testBit_clearBitG, hi]
            simp [hne]
          rw [hsm1, Nat.zero_testBit] at hbit1
          cases hbit1
        have hmx_x : mx = (x : Int) := by
          rcases hwit with hw | hw
          · exfalso
            omega
          · have := honly _ hw
            omega
        have hxmx : ((x : Int) == mx) = true := beq_iff_eq.mpr (by omega)
        rw [hxmx, hsm1]
        simp only [if_true]
        rw [List.range_eq_range', rescan_nobitsG _ _ _ _ _ (fun i h1 h2 => Nat.zero_testBit i)]
        dsimp only
        constructor
        · rw [good_leaf_iffG _ _ _ _ _ _ _ hU]
          refine ⟨((good_leaf_iffG _ _ _ _ _ _ _ hU).mp hg).1, ((good_leaf_iffG _ _ _ _ _ _ _ hU).mp hg).2.1, fun h => absurd h hmn, fun _ => ⟨hmn0, le_refl mn, by omega, ?_, Or.inl rfl⟩⟩
          intro i hi
          rw [Nat.zero_testBit] at hi
          cases hi
        · intro y
          rw [contains_unfoldG, contains_unfoldG, Bool.eq_iff_iff]
          simp only [hU, if_true, Bool.or_eq_true, Bool.and_eq_true, beq_iff_eq,
            Nat.zero_testBit, Bool.false_eq_true, or_false, Bool.not_eq_true',
            beq_eq_false_iff_ne, ne_eq]
          constructor
          · intro h
            refine ⟨Or.inl h, ?_⟩
            omega
          · rintro ⟨(h | h), hne⟩
            · exact h
            · exact absurd (honly y h) hne
      · -- other mask bits remain: the rescan keeps min and finds the new max
        obtain ⟨i0, hi0⟩ := Nat.ne_zero_implies_bit_true hsm1
        rw [testBit_clearBitG, Bool.and_eq_true, Bool.not_eq_true', beq_eq_false_iff_ne] at hi0
        obtain ⟨hi0b, hi0x⟩ := hi0
        have hi0bnd := hbits _ hi0b
        have hmx0 : 0 ≤ mx := by omega
        have hi0mx : i0 ≤ mx.toNat := by omega
        have hhiG : (clearBit sm x).testBit
            (Nat.findGreatest (fun i => (clearBit sm x).testBit i = true) mx.toNat) = true :=
          @Nat.findGreatest_spec i0 (fun i => (clearBit sm x).testBit i = true) _ mx.toNat
            hi0mx (by
              show (clearBit sm x).testBit i0 = true
              rw [testBit_clearBitG, hi0b]
              simp [hi0x])
        have hhiGsm : sm.testBit
            (Nat.findGreatest (fun i => (clearBit sm x).testBit i = true) mx.toNat) = true := by
          rw [testBit_clearBitG, Bool.and_eq_true] at hhiG
          exact hhiG.1
        have hhiGx : Nat.findGreatest (fun i => (clearBit sm x).testBit i = true) mx.toNat
            ≠ x := by
          rw [testBit_clearBitG, Bool.and_eq_true, Bool.not_eq_true',
            beq_eq_false_iff_ne] at hhiG
          exact hhiG.2
        have hhiGbnd := hbits _ hhiGsm
        have hhiGmax : ∀ i, Nat.findGreatest (fun i => (clearBit sm x).testBit i = true)
            mx.toNat < i → (clearBit sm x).testBit i = false := by
          intro i hi
          by_cases him : i ≤ mx.toNat
          · have := @Nat.findGreatest_is_greatest i
              (fun i => (clearBit sm x).testBit i = true) _ mx.toNat hi him
            cases hb2 : (clearBit sm x).testBit i
            · rfl
            · exact absurd hb2 this
          · cases hb2 : (clearBit sm x).testBit i
            · rfl
            · exfalso
              rw [testBit_clearBitG, Bool.and_eq_true] at hb2
              have := hbits i hb2.1
              omega
        have hres : rescanList (clearBit sm x) mn (if (x : Int) == mx then mn else mx)
            (List.range' 0 U) = (clearBit sm x, mn,
              ((Nat.findGreatest (fun i => (clearBit sm x).testBit i = true) mx.toNat : Nat)
                : Int)) :=
          rescan_stableG _ _ _ (by omega) 0 U _ (by omega) (by omega) hhiG
            (fun i h1 h2 => hhiGmax i h1)
        rw [List.range_eq_range', hres]
        dsimp only
        constructor
        · rw [good_leaf_iffG _ _ _ _ _ _ _ hU]
          refine ⟨((good_leaf_iffG _ _ _ _ _ _ _ hU).mp hg).1, ((good_leaf_iffG _ _ _ _ _ _ _ hU).mp hg).2.1, by intro h; omega, fun _ => ⟨hmn0, by omega, by omega, ?_, ?_⟩⟩
          · intro i hi
            rw [testBit_clearBitG, Bool.and_eq_true] at hi
            have h1 := hbits i hi.1
            constructor
            · omega
            · have hle : i ≤ Nat.findGreatest (fun i => (clearBit sm x).testBit i = true)
                  mx.toNat := by
                by_contra hh
                have := hhiGmax i (by omega)
                rw [testBit_clearBitG, hi.1, hi.2] at this
                simp at this
              omega
          · right
            rw [Int.toNat_natCast]
            exact hhiG
        · intro y
          rw [contains_unfoldG, contains_unfoldG, Bool.eq_iff_iff]
          simp only [hU, if_true, Bool.or_eq_true, Bool.and_eq_true, beq_iff_eq,
            testBit_clearBitG, Bool.not_eq_true', beq_eq_false_iff_ne, ne_eq]
          constructor
          · rintro (h | ⟨h1, h2⟩)
            · exact ⟨Or.inl h, by omega⟩
            · exact ⟨Or.inr h1, h2⟩
          · rintro ⟨(h | h), hne⟩
            · exact Or.inl h
            · exact Or.inr ⟨h, hne⟩
  · -- INTERNAL NODE
    match summ, hg with
    | some s, hg =>
      obtain ⟨hsU, hpos, hb, hsu, hgs, hsync, -, h2⟩ := (good_node_iffG _ _ _ _ _ _ _ hU).mp hg
      have hB : 0 < B := by
        rcases Nat.eq_zero_or_pos B with h0 | h0
        · rw [h0, Nat.mul_zero] at hsU
          omega
        · exact h0
      obtain ⟨hmn0, hmnmx, hmxU, hbel, hwit⟩ := h2 hmn
      rw [contains_unfoldG] at hcx
      simp only [hU, if_false, Bool.or_eq_true, beq_iff_eq] at hcx
      by_cases hxm : (x : Int) = mn
      · by_cases hsmin : s.min = -1
        · -- deleting the last element: every block is already empty
          rw [erase_eq_lastG _ _ _ _ _ _ _ _ hU hxm hsmin]
          have hempb : ∀ b ∈ blk, b.min = -1 := by
            intro b hbm
            obtain ⟨⟨n, hn⟩, hget⟩ := List.mem_iff_get.mp hbm
            have h0 : stored s n = false := contains_emptyG s hgs hsmin n
            have h1 := hsync n hn
            rw [h0] at h1
            have h3 : (blkD blk n).min = -1 := by
              by_contra hh
              exact absurd (h1.mpr hh) (by simp)
            rw [blkD_eq_getG _ _ hn] at h3
            rw [← hget]
            exact h3
          have hbelall : ∀ y : Nat, Below B blk y = false :=
            fun y => below_emptyG _ _ _ (fun b hbm => (hb b hbm).2) hempb
          constructor
          · rw [good_node_iffG _ _ _ _ _ _ _ hU]
            exact ⟨hsU, hpos, hb, hsu, hgs, hsync, fun _ => ⟨rfl, hempb⟩,
              fun h => absurd rfl h⟩
          · intro y
            rw [contains_unfoldG, contains_unfoldG, Bool.eq_iff_iff]
            simp only [hU, if_false, Bool.or_eq_true, Bool.and_eq_true, beq_iff_eq,
              hbelall, Bool.false_eq_true, or_false, Bool.not_eq_true',
              beq_eq_false_iff_ne, ne_eq]
            constructor
            · intro h
              cases h
            · rintro ⟨h, hne⟩
              exact absurd (by omega) hne
        · -- x is the cached minimum: pull up the next-smallest element
          have hsmin0 : 0 ≤ s.min := min_nonnegG s hgs hsmin
          have hsminmem : stored s s.min.toNat = true := min_memG s hgs hsmin
          have hsminlen : s.min.toNat < blk.length := by
            have := contains_lt_UG s hgs _ hsminmem
            rwa [hsu] at this
          have hbD0 : blkD blk s.min.toNat = blk.get ⟨s.min.toNat, hsminlen⟩ :=
            blkD_eq_getG _ _ hsminlen
          have hc0G : Good (blk.get ⟨s.min.toNat, hsminlen⟩) :=
            (hb _ (List.get_mem _ _ _)).2
          have hc0U : (blk.get ⟨s.min.toNat, hsminlen⟩).U = B :=
            (hb _ (List.get_mem _ _ _)).1
          have hc0min : (blk.get ⟨s.min.toNat, hsminlen⟩).min ≠ -1 := by
            have := (hsync _ hsminlen).mp hsminmem
            rwa [hbD0] at this
          have hc0min0 : 0 ≤ (blk.get ⟨s.min.toNat, hsminlen⟩).min :=
            min_nonnegG _ hc0G hc0min
          have hj0mem : stored (blk.get ⟨s.min.toNat, hsminlen⟩)
              (blk.get ⟨s.min.toNat, hsminlen⟩).min.toNat = true := min_memG _ hc0G hc0min
          have hj0lt : (blk.get ⟨s.min.toNat, hsminlen⟩).min.toNat < B := by
            have := contains_lt_UG _ hc0G _ hj0mem
            rwa [hc0U] at this
          obtain ⟨m, hm⟩ : ∃ m : Nat,
              m = index B s.min.toNat (blkD blk s.min.toNat).min.toNat := ⟨_, rfl⟩
          have hmBel : Below B blk m = true := by
            rw [hm, hbD0, below_indexG B blk _ _ hsminlen hj0lt]
            exact hj0mem
          have hmbnd := hbel _ hmBel
          have hmLeast : ∀ y : Nat, Below B blk y = true → m ≤ y := by
            intro y hy
            obtain ⟨hylen, hyc⟩ := below_elimG _ _ _ hy
            have hynon : (blkD blk (high B y)).min ≠ -1 := by
              rw [blkD_eq_getG _ _ hylen]
              exact nonempty_of_containsG _ (hb _ (List.get_mem _ _ _)).2 _ hyc
            have hys : stored s (high B y) = true := (hsync _ hylen).mpr hynon
            have hsle : s.min ≤ (high B y : Int) := min_le_of_memG s hgs _ hys
            have hyarith : y = high B y * B + low B y := by
              nth_rewrite 1 [(index_high_lowG B y).symm]
              rw [index_eqG _ _ _ (low_ltG B y hB)]
            rw [hm, hbD0, index_eqG _ _ _ hj0lt]
            rcases Nat.eq_or_lt_of_le (show s.min.toNat ≤ high B y by omega) with heq | hlt
            · have hfin : (⟨high B y, hylen⟩ : Fin blk.length) = ⟨s.min.toNat, hsminlen⟩ := by
                simp [heq]
              rw [hfin] at hyc
              have := min_le_of_memG _ hc0G _ hyc
              have hprod : s.min.toNat * B = high B y * B := by rw [heq]
              omega
            · have h1 : (s.min.toNat + 1) * B ≤ high B y * B :=
                Nat.mul_le_mul_right _ hlt
              have h2 : (s.min.toNat + 1) * B = s.min.toNat * B + B := by ring
              have h3 := hj0lt
              omega
          have hmU : m < U := by
            have := hmbnd.2
            omega
          have hhighm : high B m < blk.length := high_ltG B _ _ (lt_of_lt_of_le hmU hsU)
          have hcxm : stored (blk.get ⟨high B m, hhighm⟩) (low B m) = true := by
            obtain ⟨hh, hc⟩ := below_elimG _ _ _ hmBel
            exact hc
          have hIH := ihb _ (List.get_mem _ _ hhighm)
            (hb _ (List.get_mem _ _ hhighm)).2 _ hcxm
          obtain ⟨c1, hc1⟩ : ∃ c, c = erase (blk.get ⟨high B m, hhighm⟩) (low B m) := ⟨_, rfl⟩
          obtain ⟨blk1, hblk1⟩ : ∃ l, l = blk.set (high B m) c1 := ⟨_, rfl⟩
          obtain ⟨s1, hs1d⟩ : ∃ t,
              t = if (blkD blk1 (high B m)).min == -1 then erase s (high B m) else s := ⟨_, rfl⟩
          obtain ⟨mx1, hmx1⟩ : ∃ z : Int, z = if (m : Int) == mx then
              (if s1.max == -1 then (m : Int)
               else (index B s1.max.toNat ((blkD blk1 s1.max.toNat).max.toNat) : Int))
            else mx := ⟨_, rfl⟩
          obtain ⟨hcore1, hcoreG, hcoreU, hcore3, hcore4, hcore5, hcore6⟩ :=
            erase_coreG B hB blk s hb hsu hgs hsync _ hhighm hcxm hIH.1 hIH.2
              (fun hcs => (ihs s rfl hgs _ hcs).1)
              (fun hcs => (ihs s rfl hgs _ hcs).2)
              blk1 (by rw [hblk1, hc1]) s1 hs1d
          rw [erase_eq_minG _ _ _ _ _ _ _ _ hU hxm hsmin m hm hhighm blk1 s1 mx1
            (by rw [hblk1, hc1]) hs1d hmx1]
          have hlen1 : blk1.length = blk.length := by
            rw [hblk1]
            exact List.length_set _ _ _
          -- the new max is correct in every branch of the fix-up
          have hGB : s1.min ≠ -1 →
              (Below B blk1 (index B s1.max.toNat ((blkD blk1 s1.max.toNat).max.toNat)) = true ∧
               ∀ y : Nat, Below B blk1 y = true →
                 y ≤ index B s1.max.toNat ((blkD blk1 s1.max.toNat).max.toNat)) := hcore6
          have hMX : ((m : Int) ≤ mx1 ∧ mx1 < (U : Int)) ∧
              (∀ y : Nat, Below B blk1 y = true → (m : Int) < y ∧ (y : Int) ≤ mx1) ∧
              (mx1 = (m : Int) ∨ Below B blk1 mx1.toNat = true) := by
            by_cases hme : (m : Int) = mx
            · rw [hmx1, if_pos (beq_iff_eq.mpr hme)]
              by_cases hs1e : s1.max = -1
              · rw [if_pos (beq_iff_eq.mpr hs1e)]
                have hs1mine : s1.min = -1 := (min_neg_iff_max_negG s1 hcoreG).mpr hs1e
                have hbel1e := hcore5 hs1mine
                refine ⟨⟨le_refl _, by omega⟩, ?_, Or.inl rfl⟩
                intro y hy
                rw [hbel1e y] at hy
                cases hy
              · rw [if_neg (by simpa using hs1e)]
                have hs1mine : s1.min ≠ -1 := fun hh =>
                  hs1e ((min_neg_iff_max_negG s1 hcoreG).mp hh)
                obtain ⟨hGBb, hGBle⟩ := hGB hs1mine
                have hGBblk := (hcore4 _).mp hGBb
                have hGBbnd := hbel _ hGBblk.1
                have hGBm : m ≤ index B s1.max.toNat ((blkD blk1 s1.max.toNat).max.toNat) :=
                  hmLeast _ hGBblk.1
                refine ⟨⟨by omega, by omega⟩, ?_, ?_⟩
                · intro y hy
                  obtain ⟨hyb, hyne⟩ := (hcore4 _).mp hy
                  have := hmLeast _ hyb
                  have := hGBle _ hy
                  constructor
                  · omega
                  · omega
                · right
                  rw [Int.toNat_natCast]
                  exact hGBb
            · rw [hmx1, if_neg (by simpa using hme)]
              refine ⟨⟨by omega, by omega⟩, ?_, ?_⟩
              · intro y hy
                obtain ⟨hyb, hyne⟩ := (hcore4 _).mp hy
                have h1 := hmLeast _ hyb
                have h2 := hbel _ hyb
                constructor
                · omega
                · omega
              · rcases hwit with hw | hw
                · exfalso
                  omega
                · right
                  have hmxne : mx.toNat ≠ m := by
                    intro hh
                    apply hme
                    omega
                  exact (hcore4 _).mpr ⟨hw, hmxne⟩
          constructor
          · rw [good_node_iffG _ _ _ _ _ _ _ hU]
            refine ⟨by rw [hlen1]; exact hsU, by rw [hlen1]; exact hpos, hcore1,
              by rw [hcoreU, hlen1], hcoreG, ?_, by intro h; omega, fun _ => ?_⟩
            · intro k hk
              rw [hlen1] at hk
              exact hcore3 k hk
            · exact ⟨by omega, hMX.1.1, hMX.1.2, hMX.2.1, hMX.2.2⟩
          · intro y
            rw [contains_unfoldG, contains_unfoldG, Bool.eq_iff_iff]
            simp only [hU, if_false, Bool.or_eq_true, Bool.and_eq_true, beq_iff_eq,
              Bool.not_eq_true', beq_eq_false_iff_ne, ne_eq]
            rw [show (Below B blk1 y = true) ↔ (Below B blk y = true ∧ y ≠ m) from hcore4 y]
            constructor
            · rintro (h | ⟨hb1, hbne⟩)
              · refine ⟨Or.inr (by rw [show y = m by omega]; exact hmBel), ?_⟩
                omega
              · refine ⟨Or.inr hb1, ?_⟩
                have := hbel _ hb1
                omega
            · rintro ⟨(hy | hy), hne⟩
              · exfalso
                omega
              · by_cases hym : y = m
                · exact Or.inl (by rw [hym])
                · exact Or.inr ⟨hy, hym⟩
      · -- x ≠ min: erase from x's block and run the same fix-up
        have hbelx : Below B blk x = true := by
          rcases hcx with h | h
          · exact absurd h hxm
          · exact h
        have hhighx : high B x < blk.length := high_ltG B x _ (lt_of_lt_of_le hxU hsU)
        have hcxl : stored (blk.get ⟨high B x, hhighx⟩) (low B x) = true := by
          obtain ⟨hh, hc⟩ := below_elimG _ _ _ hbelx
          exact hc
        have hIH := ihb _ (List.get_mem _ _ hhighx)
          (hb _ (List.get_mem _ _ hhighx)).2 _ hcxl
        obtain ⟨c1, hc1⟩ : ∃ c, c = erase (blk.get ⟨high B x, hhighx⟩) (low B x) := ⟨_, rfl⟩
        obtain ⟨blk1, hblk1⟩ : ∃ l, l = blk.set (high B x) c1 := ⟨_, rfl⟩
        obtain ⟨s1, hs1d⟩ : ∃ t,
            t = if (blkD blk1 (high B x)).min == -1 then erase s (high B x) else s := ⟨_, rfl⟩
        obtain ⟨mx1, hmx1⟩ : ∃ z : Int, z = if (x : Int) == mx then
            (if s1.max == -1 then mn
             else (index B s1.max.toNat ((blkD blk1 s1.max.toNat).max.toNat) : Int))
          else mx := ⟨_, rfl⟩
        obtain ⟨hcore1, hcoreG, hcoreU, hcore3, hcore4, hcore5, hcore6⟩ :=
          erase_coreG B hB blk s hb hsu hgs hsync _ hhighx hcxl hIH.1 hIH.2
            (fun hcs => (ihs s rfl hgs _ hcs).1)
            (fun hcs => (ihs s rfl hgs _ hcs).2)
            blk1 (by rw [hblk1, hc1]) s1 hs1d
        rw [erase_eq_notminG _ _ _ _ _ _ _ _ hU (beq_eq_false_iff_ne.mpr hxm) hhighx blk1 s1 mx1
          (by rw [hblk1, hc1]) hs1d hmx1]
        have hlen1 : blk1.length = blk.length := by
          rw [hblk1]
          exact List.length_set _ _ _
        have hbndx := hbel x hbelx
        have hMX : (mn ≤ mx1 ∧ mx1 < (U : Int)) ∧
            (∀ y : Nat, Below B blk1 y = true → mn < (y : Int) ∧ (y : Int) ≤ mx1) ∧
            (mx1 = mn ∨ Below B blk1 mx1.toNat = true) := by
          by_cases hme : (x : Int) = mx
          · rw [hmx1, if_pos (beq_iff_eq.mpr hme)]
            by_cases hs1e : s1.max = -1
            · rw [if_pos (beq_iff_eq.mpr hs1e)]
              have hs1mine : s1.min = -1 := (min_neg_iff_max_negG s1 hcoreG).mpr hs1e
              have hbel1e := hcore5 hs1mine
              refine ⟨⟨le_refl _, by omega⟩, ?_, Or.inl rfl⟩
              intro y hy
              rw [hbel1e y] at hy
              cases hy
            · rw [if_neg (by simpa using hs1e)]
              have hs1mine : s1.min ≠ -1 := fun hh =>
                hs1e ((min_neg_iff_max_negG s1 hcoreG).mp hh)
              obtain ⟨hGBb, hGBle⟩ := hcore6 hs1mine
              have hGBblk := (hcore4 _).mp hGBb
              have hGBbnd := hbel _ hGBblk.1
              refine ⟨⟨by omega, by omega⟩, ?_, ?_⟩
              · intro y hy
                obtain ⟨hyb, hyne⟩ := (hcore4 _).mp hy
                have h1 := hbel _ hyb
                have h2 := hGBle _ hy
                exact ⟨h1.1, by omega⟩
              · right
                rw [Int.toNat_natCast]
                exact hGBb
          · rw [hmx1, if_neg (by simpa using hme)]
            refine ⟨⟨hmnmx, hmxU⟩, ?_, ?_⟩
            · intro y hy
              obtain ⟨hyb, hyne⟩ := (hcore4 _).mp hy
              exact hbel _ hyb
            · rcases hwit with hw | hw
              · exact Or.inl hw
              · right
                have hmxne : mx.toNat ≠ x := by
                  intro hh
                  apply hme
                  omega
                exact (hcore4 _).mpr ⟨hw, hmxne⟩
        constructor
        · rw [good_node_iffG _ _ _ _ _ _ _ hU]
          refine ⟨by rw [hlen1]; exact hsU, by rw [hlen1]; exact hpos, hcore1,
            by rw [hcoreU, hlen1], hcoreG, ?_, by intro h; omega, fun _ => ?_⟩
          · intro k hk
            rw [hlen1] at hk
            exact hcore3 k hk
          · exact ⟨hmn0, hMX.1.1, hMX.1.2, hMX.2.1, hMX.2.2⟩
        · intro y
          rw [contains_unfoldG, contains_unfoldG, Bool.eq_iff_iff]
          simp only [hU, if_false, Bool.or_eq_true, Bool.and_eq_true, beq_iff_eq,
            Bool.not_eq_true', beq_eq_false_iff_ne, ne_eq]
          rw [show (Below B blk1 y = true) ↔ (Below B blk y = true ∧ y ≠ x) from hcore4 y]
          constructor
          · rintro (h | ⟨hb1, hbne⟩)
            · refine ⟨Or.inl h, ?_⟩
              omega
            · exact ⟨Or.inr hb1, hbne⟩
          · rintro ⟨(hy | hy), hne⟩
            · exact Or.inl hy
            · exact Or.inr ⟨hy, hne⟩
    | none, hg => exact absurd hg (good_node_noneG _ _ _ _ _ _ hU)

end Gen


namespace Gen

theorem build_goodG : ∀ size : Nat, Good (build size) ∧ (build size).min = -1 ∧
    (build size).U = size := by
  intro size
  induction size using Nat.strong_induction_on with
  | _ size ih =>
    rw [build]
    split
    · rename_i h
      refine ⟨?_, rfl, rfl⟩
      rw [good_leaf_iffG _ _ _ _ _ _ _ h]
      exact ⟨rfl, rfl, fun _ => ⟨rfl, rfl⟩, fun hne => absurd rfl hne⟩
    · rename_i h
      have hB5 : 5 ≤ Nat.sqrt size := Nat.le_sqrt.mpr (by omega)
      have hBlt : Nat.sqrt size < size := Nat.sqrt_lt_self (by omega)
      have hblocks : blockCount size (Nat.sqrt size) < size := by
        have hdiv : (size + Nat.sqrt size - 1) / Nat.sqrt size < size := by
          rw [Nat.div_lt_iff_lt_mul (by omega)]
          have h1 : 5 * size ≤ size * Nat.sqrt size := by nlinarith
          omega
        exact max_lt hBlt hdiv
      have ihc := ih (Nat.sqrt size) hBlt
      have ihs := ih (blockCount size (Nat.sqrt size)) hblocks
      refine ⟨?_, rfl, rfl⟩
      rw [good_node_iffG _ _ _ _ _ _ _ h]
      have hrep : ∀ b ∈ List.replicate (blockCount size (Nat.sqrt size))
            (build (Nat.sqrt size)), b = build (Nat.sqrt size) :=
        fun b hb => List.eq_of_mem_replicate hb
      have hlen : (List.replicate (blockCount size (Nat.sqrt size))
            (build (Nat.sqrt size))).length = blockCount size (Nat.sqrt size) :=
        List.length_replicate _ _
      refine ⟨?_, ?_, ?_, ?_, ihs.1, ?_, fun _ => ⟨rfl, ?_⟩, fun hne => absurd rfl hne⟩
      · rw [hlen]
        have hd := Nat.div_add_mod (size + Nat.sqrt size - 1) (Nat.sqrt size)
        have hm : (size + Nat.sqrt size - 1) % Nat.sqrt size < Nat.sqrt size :=
          Nat.mod_lt _ (by omega)
        have hle : (size + Nat.sqrt size - 1) / Nat.sqrt size ≤
            blockCount size (Nat.sqrt size) := Nat.le_max_right _ _
        have hmul : (size + Nat.sqrt size - 1) / Nat.sqrt size * Nat.sqrt size ≤
            blockCount size (Nat.sqrt size) * Nat.sqrt size :=
          Nat.mul_le_mul_right _ hle
        have hcomm : (size + Nat.sqrt size - 1) / Nat.sqrt size * Nat.sqrt size =
            Nat.sqrt size * ((size + Nat.sqrt size - 1) / Nat.sqrt size) :=
          Nat.mul_comm _ _
        omega
      · rw [hlen]
        have := Nat.le_max_left (Nat.sqrt size) ((size + Nat.sqrt size - 1) / Nat.sqrt size)
        rw [blockCount]
        omega
      · intro b hb
        rw [hrep b hb]
        exact ⟨ihc.2.2, ihc.1⟩
      · rw [ihs.2.2, hlen]
      · intro k hk
        have hcf : stored (build (blockCount size (Nat.sqrt size))) k = false :=
          contains_emptyG _ ihs.1 ihs.2.1 k
        rw [hcf]
        rw [hlen] at hk
        have hbd : blkD (List.replicate (blockCount size (Nat.sqrt size))
              (build (Nat.sqrt size))) k = build (Nat.sqrt size) := by
          rw [blkD_eq_getG _ _ (by rw [hlen]; exact hk)]
          exact hrep _ (List.get_mem _ _ _)
        rw [hbd]
        simp [ihc.2.1]
      · intro b hb
        rw [hrep b hb]
        exact ihc.2.1

/-- Running one request against the sqrt-decomposition tree. -/
def applyOp (v : V) : Op → V
  | .ins x => insert v x
  | .del x => erase v x

/-- Running a whole request sequence against the sqrt-decomposition tree. -/
def applyOps (v : V) (ops : List Op) : V := ops.foldl applyOp v

theorem good_allNodesG : ∀ v : V, Good v → AllNodes Good v := by
  refine V.induct _ ?_
  intro U B mn mx sm summ blk ihs ihb hg
  rw [allNodes_iff]
  by_cases hU : U < 32
  · obtain ⟨hsn, hbn, -, -⟩ := (good_leaf_iffG _ _ _ _ _ _ _ hU).mp hg
    refine ⟨hg, ?_, ?_⟩
    · intro s hs
      rw [show V.summary (V.mk U B mn mx sm summ blk) = summ from rfl, hsn] at hs
      cases hs
    · intro b hb
      rw [show V.block (V.mk U B mn mx sm summ blk) = blk from rfl, hbn] at hb
      cases hb
  · match summ, hg with
    | some s, hg =>
      obtain ⟨-, -, hb, -, hgs, -, -, -⟩ := (good_node_iffG _ _ _ _ _ _ _ hU).mp hg
      refine ⟨hg, ?_, ?_⟩
      · intro t ht
        rw [show V.summary (V.mk U B mn mx sm (some s) blk) = some s from rfl] at ht
        cases ht
        exact ihs s rfl hgs
      · intro b hbm
        exact ihb b hbm (hb b hbm).2
    | none, hg => exact absurd hg (good_node_noneG _ _ _ _ _ _ hU)

theorem applyOps_specG : ∀ (ops : List Op) (v : V) (cur : List Nat), Good v →
    cur.Nodup → (∀ y : Nat, stored v y = true ↔ y ∈ cur) →
    validFrom v.U cur ops = true →
    Good (applyOps v ops) ∧ (applyOps v ops).U = v.U ∧
    (ops.foldl stepRef cur).Nodup ∧
    (∀ y : Nat, stored (applyOps v ops) y = true ↔ y ∈ ops.foldl stepRef cur) := by
  intro ops
  induction ops with
  | nil => exact fun v cur hg hnd hmem _ => ⟨hg, rfl, hnd, hmem⟩
  | cons op t ih =>
    intro v cur hg hnd hmem hval
    match op with
    | .ins x =>
      rw [validFrom, Bool.and_eq_true, Bool.and_eq_true] at hval
      obtain ⟨⟨hxU, hxnew⟩, hval⟩ := hval
      rw [decide_eq_true_iff] at hxU
      rw [Bool.not_eq_true', ← Bool.not_eq_true] at hxnew
      have hxmem : x ∉ cur := fun hc => hxnew (List.elem_eq_true_of_mem hc)
      have hcf : stored v x = false := by
        cases hc : stored v x
        · rfl
        · exact absurd ((hmem x).mp hc) hxmem
      obtain ⟨hG1, hc1⟩ := insert_specG v hg x hxU hcf
      have hU1 : (insert v x).U = v.U := insert_UG v x
      have hmem1 : ∀ y : Nat, stored (insert v x) y = true ↔ y ∈ x :: cur := by
        intro y
        rw [hc1 y, Bool.or_eq_true, beq_iff_eq, List.mem_cons]
        rw [hmem y]
        tauto
      have := ih (insert v x) (x :: cur) hG1 (List.nodup_cons.mpr ⟨hxmem, hnd⟩)
        hmem1 (by rw [hU1]; exact hval)
      simpa [applyOps, List.foldl_cons, applyOp, stepRef, hU1] using this
    | .del x =>
      rw [validFrom, Bool.and_eq_true, Bool.and_eq_true] at hval
      obtain ⟨⟨hxU, hxold⟩, hval⟩ := hval
      rw [decide_eq_true_iff] at hxU
      have hxmem : x ∈ cur := List.mem_of_elem_eq_true hxold
      have hct : stored v x = true := (hmem x).mpr hxmem
      obtain ⟨hG1, hc1⟩ := erase_specG v hg x hct
      have hU1 : (erase v x).U = v.U := erase_UG v x
      have hmem1 : ∀ y : Nat, stored (erase v x) y = true ↔ y ∈ cur.erase x := by
        intro y
        rw [hc1 y, Bool.and_eq_true, Bool.not_eq_true', beq_eq_false_iff_ne,
          List.Nodup.mem_erase_iff hnd]
        rw [hmem y]
        tauto
      have := ih (erase v x) (cur.erase x) hG1 (List.Nodup.erase x hnd)
        hmem1 (by rw [hU1]; exact hval)
      simpa [applyOps, List.foldl_cons, applyOp, stepRef, hU1] using this

end Gen


/-! ## Per-node observable properties, shared by both implementations -/

/-- The `min`/`max` caches of a node equal the true extrema of the member set
of its subtree (both `-1` exactly when it is empty), for a given membership
reading `member`. -/
def MinMaxOK (member : V → Nat → Bool) (v : V) : Prop :=
  (v.min = -1 → v.max = -1 ∧ ∀ y : Nat, member v y = false) ∧
  (v.min ≠ -1 → 0 ≤ v.min ∧ v.min ≤ v.max ∧
    member v v.min.toNat = true ∧ member v v.max.toNat = true ∧
    ∀ y : Nat, member v y = true → v.min ≤ (y : Int) ∧ (y : Int) ≤ v.max)

/-- At an internal node, block index `i` is a member of the summary exactly
when `block[i]` is non-empty. -/
def SummarySyncOK (member : V → Nat → Bool) (v : V) : Prop :=
  ∀ s, v.summary = some s → ∀ i : Nat, i < v.block.length →
    (member s i = true ↔ (blkD v.block i).min ≠ -1)

/-- At a leaf, bit `i` of the mask is set exactly when `i` is a member other
than the cached minimum. -/
def LeafMaskOK (member : V → Nat → Bool) (v : V) : Prop :=
  v.U < 32 → ∀ i : Nat, v.small.testBit i = true ↔
    (member v i = true ∧ (i : Int) ≠ v.min)

theorem allNodes_mono (P Q : V → Prop) (hpq : ∀ v, P v → Q v) :
    ∀ v : V, AllNodes P v → AllNodes Q v := by
  refine V.induct _ ?_
  intro U B mn mx sm summ blk ihs ihb hp
  rw [allNodes_iff] at hp ⊢
  exact ⟨hpq _ hp.1, fun s hs => ihs s hs (hp.2.1 s hs), fun b hb => ihb b hb (hp.2.2 b hb)⟩

theorem pow2_minmax : ∀ v : V, Pow2.Good v → MinMaxOK Pow2.contains v := by
  intro v hg
  constructor
  · intro hmn
    exact ⟨(Pow2.min_neg_iff_max_neg v hg).mp hmn, Pow2.contains_empty v hg hmn⟩
  · intro hmn
    exact ⟨Pow2.min_nonneg v hg hmn, Pow2.min_le_max v hg hmn, Pow2.min_mem v hg hmn,
      Pow2.max_mem v hg hmn,
      fun y hy => ⟨Pow2.min_le_of_mem v hg y hy, Pow2.mem_le_max v hg y hy⟩⟩

theorem gen_minmax : ∀ v : V, Gen.Good v → MinMaxOK Gen.stored v := by
  intro v hg
  constructor
  · intro hmn
    exact ⟨(Gen.min_neg_iff_max_negG v hg).mp hmn, Gen.contains_emptyG v hg hmn⟩
  · intro hmn
    exact ⟨Gen.min_nonnegG v hg hmn, Gen.min_le_maxG v hg hmn, Gen.min_memG v hg hmn,
      Gen.max_memG v hg hmn,
      fun y hy => ⟨Gen.min_le_of_memG v hg y hy, Gen.mem_le_maxG v hg y hy⟩⟩

theorem pow2_sync : ∀ v : V, Pow2.Good v → SummarySyncOK Pow2.contains v := by
  intro v hg s hs i hi
  obtain ⟨U, B, mn, mx, sm, summ, blk⟩ := v
  rw [show (V.mk U B mn mx sm summ blk).summary = summ from rfl] at hs
  by_cases hU : U < 32
  · obtain ⟨hsn, -, -, -⟩ := (Pow2.good_leaf_iff _ _ _ _ _ _ _ hU).mp hg
    rw [hsn] at hs
    cases hs
  · match summ, hs, hg with
    | some s0, hs, hg =>
      cases hs
      obtain ⟨-, -, -, -, -, hsync, -, -⟩ := (Pow2.good_node_iff _ _ _ _ _ _ _ hU).mp hg
      exact hsync i hi
    | none, hs, hg => exact absurd hg (Pow2.good_node_none _ _ _ _ _ _ hU)

theorem gen_sync : ∀ v : V, Gen.Good v → SummarySyncOK Gen.stored v := by
  intro v hg s hs i hi
  obtain ⟨U, B, mn, mx, sm, summ, blk⟩ := v
  rw [show (V.mk U B mn mx sm summ blk).summary = summ from rfl] at hs
  by_cases hU : U < 32
  · obtain ⟨hsn, -, -, -⟩ := (Gen.good_leaf_iffG _ _ _ _ _ _ _ hU).mp hg
    rw [hsn] at hs
    cases hs
  · match summ, hs, hg with
    | some s0, hs, hg =>
      cases hs
      obtain ⟨-, -, -, -, -, hsync, -, -⟩ := (Gen.good_node_iffG _ _ _ _ _ _ _ hU).mp hg
      exact hsync i hi
    | none, hs, hg => exact absurd hg (Gen.good_node_noneG _ _ _ _ _ _ hU)

theorem pow2_leafmask : ∀ v : V, Pow2.Good v → LeafMaskOK Pow2.contains v := by
  intro v hg
  obtain ⟨U, B, mn, mx, sm, summ, blk⟩ := v
  intro hU i
  simp only [V.U_mk] at hU
  obtain ⟨-, -, h1, h2⟩ := (Pow2.good_leaf_iff _ _ _ _ _ _ _ hU).mp hg
  rw [Pow2.contains_unfold]
  simp only [V.min_mk, V.small_mk, hU, if_true, Bool.or_eq_true, beq_iff_eq, ne_eq]
  by_cases hmn : mn = -1
  · obtain ⟨-, hsm⟩ := h1 hmn
    subst hsm hmn
    simp only [Nat.zero_testBit]
    constructor
    · intro h
      cases h
    · rintro ⟨(h | h), -⟩
      · exact absurd h (by omega)
      · cases h
  · obtain ⟨hmn0, hmnmx, hmxU, hbits, -⟩ := h2 hmn
    constructor
    · intro hbit
      obtain ⟨hlt, -⟩ := hbits i hbit
      exact ⟨Or.inr hbit, by omega⟩
    · rintro ⟨(h | h), hne⟩
      · exact absurd h hne
      · exact h

theorem gen_leafmask : ∀ v : V, Gen.Good v → LeafMaskOK Gen.stored v := by
  intro v hg
  obtain ⟨U, B, mn, mx, sm, summ, blk⟩ := v
  intro hU i
  simp only [V.U_mk] at hU
  obtain ⟨-, -, h1, h2⟩ := (Gen.good_leaf_iffG _ _ _ _ _ _ _ hU).mp hg
  rw [Gen.contains_unfoldG]
  simp only [V.min_mk, V.small_mk, hU, if_true, Bool.or_eq_true, beq_iff_eq, ne_eq]
  by_cases hmn : mn = -1
  · obtain ⟨-, hsm⟩ := h1 hmn
    subst hsm hmn
    simp only [Nat.zero_testBit]
    constructor
    · intro h
      cases h
    · rintro ⟨(h | h), -⟩
      · exact absurd h (by omega)
      · cases h
  · obtain ⟨hmn0, hmnmx, hmxU, hbits, -⟩ := h2 hmn
    constructor
    · intro hbit
      obtain ⟨hlt, -⟩ := hbits i hbit
      exact ⟨Or.inr hbit, by omega⟩
    · rintro ⟨(h | h), hne⟩
      · exact absurd h hne
      · exact h

/-! ## The reachable state after a precondition-respecting operation sequence -/

theorem pow2_state (bits : Nat) (ops : List Op) (h : validOps (1 <<< bits) ops = true) :
    Pow2.Good (Pow2.applyOps (Pow2.build bits) ops) ∧
    (Pow2.applyOps (Pow2.build bits) ops).U = 1 <<< bits ∧
    (∀ y : Nat,
      Pow2.contains (Pow2.applyOps (Pow2.build bits) ops) y = true ↔ y ∈ refList ops) := by
  obtain ⟨hg, hmn, hUe⟩ := Pow2.build_good bits
  have hmem : ∀ y : Nat, Pow2.contains (Pow2.build bits) y = true ↔ y ∈ ([] : List Nat) := by
    intro y
    rw [Pow2.contains_empty _ hg hmn y]
    simp
  have hr := Pow2.applyOps_spec ops (Pow2.build bits) [] hg List.nodup_nil hmem
    (by rw [hUe]; exact h)
  exact ⟨hr.1, by rw [hr.2.1, hUe], hr.2.2.2⟩

theorem gen_state (size : Nat) (ops : List Op) (h : validOps size ops = true) :
    Gen.Good (Gen.applyOps (Gen.build size) ops) ∧
    (Gen.applyOps (Gen.build size) ops).U = size ∧
    (∀ y : Nat,
      Gen.stored (Gen.applyOps (Gen.build size) ops) y = true ↔ y ∈ refList ops) := by
  obtain ⟨hg, hmn, hUe⟩ := Gen.build_goodG size
  have hmem : ∀ y : Nat, Gen.stored (Gen.build size) y = true ↔ y ∈ ([] : List Nat) := by
    intro y
    rw [Gen.contains_emptyG _ hg hmn y]
    simp
  have hr := Gen.applyOps_specG ops (Gen.build size) [] hg List.nodup_nil hmem
    (by rw [hUe]; exact h)
  exact ⟨hr.1, by rw [hr.2.1, hUe], hr.2.2.2⟩


/-! ## The claims -/

/-- Claim C1: for every universe size, every precondition-respecting
`insert`/`erase` sequence and every `x` in `[0, U)`, `successor(x)` returns
the smallest currently-stored member strictly greater than `x`, and `-1`
when none exists — in the power-of-two implementation and in the generic
sqrt-decomposition implementation alike. -/
theorem claim_C1 :
    (∀ (bits : Nat) (ops : List Op), validOps (1 <<< bits) ops = true →
      ∀ x : Nat, x < 1 <<< bits →
      FirstAbove (fun y => decide (y ∈ refList ops)) x
        (Pow2.successor (Pow2.applyOps (Pow2.build bits) ops) x)) ∧
    (∀ (size : Nat) (ops : List Op), validOps size ops = true →
      ∀ x : Nat, x < size →
      FirstAbove (fun y => decide (y ∈ refList ops)) x
        (Gen.successor (Gen.applyOps (Gen.build size) ops) x)) := by
  constructor
  · intro bits ops hv x hx
    obtain ⟨hg, hU, hmem⟩ := pow2_state bits ops hv
    have hc : ∀ y : Nat, Pow2.contains (Pow2.applyOps (Pow2.build bits) ops) y
        = decide (y ∈ refList ops) := by
      intro y
      rw [Bool.eq_iff_iff, decide_eq_true_iff]
      exact hmem y
    exact Pow2.firstAbove_congr _ _ hc x _
      (Pow2.successor_spec _ hg x (by rw [hU]; exact hx))
  · intro size ops hv x hx
    obtain ⟨hg, hU, hmem⟩ := gen_state size ops hv
    have hc : ∀ y : Nat, Gen.stored (Gen.applyOps (Gen.build size) ops) y
        = decide (y ∈ refList ops) := by
      intro y
      rw [Bool.eq_iff_iff, decide_eq_true_iff]
      exact hmem y
    exact Pow2.firstAbove_congr _ _ hc x _
      (Gen.successor_specG _ hg x (by rw [hU]; exact hx))

theorem claim_C1_witness :
    FirstAbove (fun y => decide (y ∈ refList [Op.ins 3])) 1
      (Pow2.successor (Pow2.applyOps (Pow2.build 3) [Op.ins 3]) 1) ∧
    FirstAbove (fun y => decide (y ∈ refList [Op.ins 5])) 2
      (Gen.successor (Gen.applyOps (Gen.build 40) [Op.ins 5]) 2) :=
  ⟨claim_C1.1 3 [Op.ins 3] (by decide) 1 (by decide),
   claim_C1.2 40 [Op.ins 5] (by decide) 2 (by decide)⟩

/-- Claim C2: after every precondition-respecting sequence, `contains(x)`
agrees with the reference set for every `x`; and membership is exactly
`x == min`, or the leaf mask bit, or recursively `contains(low x)` in
`block[high x]`. -/
theorem claim_C2 :
    (∀ (bits : Nat) (ops : List Op), validOps (1 <<< bits) ops = true →
      ∀ y : Nat,
        Pow2.contains (Pow2.applyOps (Pow2.build bits) ops) y = true ↔ y ∈ refList ops) ∧
    (∀ (U B : Nat) (mn mx : Int) (sm : Nat) (summ : Option V) (blk : List V) (x : Nat),
      Pow2.contains (V.mk U B mn mx sm summ blk) x =
        (((x : Int) == mn) ||
          (if U < 32 then sm.testBit x else Pow2.Below B blk x))) := by
  constructor
  · intro bits ops hv
    exact (pow2_state bits ops hv).2.2
  · intro U B mn mx sm summ blk x
    exact Pow2.contains_unfold U B mn mx sm summ blk x

theorem claim_C2_witness :
    Pow2.contains (Pow2.applyOps (Pow2.build 3) [Op.ins 2]) 2 = true ↔
      2 ∈ refList [Op.ins 2] :=
  claim_C2.1 3 [Op.ins 2] (by decide) 2

/-- Claim C3: after every precondition-respecting sequence, at every node of
the power-of-two tree the `min`/`max` fields are the true extrema of the
node's member set, both `-1` exactly when it is empty, and `min ≤ max`
otherwise. -/
theorem claim_C3 :
    ∀ (bits : Nat) (ops : List Op), validOps (1 <<< bits) ops = true →
      AllNodes (MinMaxOK Pow2.contains) (Pow2.applyOps (Pow2.build bits) ops) := by
  intro bits ops hv
  exact allNodes_mono _ _ pow2_minmax _ (Pow2.good_allNodes _ (pow2_state bits ops hv).1)

theorem claim_C3_witness :
    AllNodes (MinMaxOK Pow2.contains) (Pow2.applyOps (Pow2.build 3) [Op.ins 2]) :=
  claim_C3 3 [Op.ins 2] (by decide)

/-- Claim C4: after every precondition-respecting sequence, at every internal
node of either implementation, block index `i` is a member of the summary iff
`block[i]` is non-empty (`block[i].min ≠ -1`). -/
theorem claim_C4 :
    (∀ (bits : Nat) (ops : List Op), validOps (1 <<< bits) ops = true →
      AllNodes (SummarySyncOK Pow2.contains) (Pow2.applyOps (Pow2.build bits) ops)) ∧
    (∀ (size : Nat) (ops : List Op), validOps size ops = true →
      AllNodes (SummarySyncOK Gen.stored) (Gen.applyOps (Gen.build size) ops)) := by
  constructor
  · intro bits ops hv
    exact allNodes_mono _ _ pow2_sync _ (Pow2.good_allNodes _ (pow2_state bits ops hv).1)
  · intro size ops hv
    exact allNodes_mono _ _ gen_sync _ (Gen.good_allNodesG _ (gen_state size ops hv).1)

theorem claim_C4_witness :
    AllNodes (SummarySyncOK Pow2.contains) (Pow2.applyOps (Pow2.build 3) [Op.ins 2]) ∧
    AllNodes (SummarySyncOK Gen.stored) (Gen.applyOps (Gen.build 40) [Op.ins 2]) :=
  ⟨claim_C4.1 3 [Op.ins 2] (by decide), claim_C4.2 40 [Op.ins 2] (by decide)⟩

/-- Claim C5: after every precondition-respecting sequence, at every leaf of
the power-of-two tree, mask bit `i` is set iff `i` is a member other than the
cached minimum; and when the cached minimum of a non-singleton leaf is erased,
the rescan promotes the lowest set bit to `min` and clears it from the mask. -/
theorem claim_C5 :
    (∀ (bits : Nat) (ops : List Op), validOps (1 <<< bits) ops = true →
      AllNodes (LeafMaskOK Pow2.contains) (Pow2.applyOps (Pow2.build bits) ops)) ∧
    (∀ (U B : Nat) (mn mx : Int) (sm : Nat) (summ : Option V) (blk : List V) (x : Nat),
      Pow2.Good (V.mk U B mn mx sm summ blk) → U < 32 → (x : Int) = mn → sm ≠ 0 →
      ∃ lo : Nat, sm.testBit lo = true ∧ (∀ i : Nat, i < lo → sm.testBit i = false) ∧
        (Pow2.erase (V.mk U B mn mx sm summ blk) x).min = (lo : Int) ∧
        (Pow2.erase (V.mk U B mn mx sm summ blk) x).small = clearBit sm lo) := by
  constructor
  · intro bits ops hv
    exact allNodes_mono _ _ pow2_leafmask _ (Pow2.good_allNodes _ (pow2_state bits ops hv).1)
  · intro U B mn mx sm summ blk x hg hU hxm hsm
    obtain ⟨-, -, h1, h2⟩ := (Pow2.good_leaf_iff _ _ _ _ _ _ _ hU).mp hg
    have hmn : mn ≠ -1 := fun hh => hsm (h1 hh).2
    obtain ⟨hmn0, hmnmx, hmxU, hbits, hwit⟩ := h2 hmn
    have hbitx : sm.testBit x = false := by
      cases hb2 : sm.testBit x
      · rfl
      · exfalso
        have := hbits x hb2
        omega
    have hex : ∃ i, sm.testBit i = true := Nat.ne_zero_implies_bit_true hsm
    have hlo : sm.testBit (Nat.find hex) = true := Nat.find_spec hex
    have hlomin : ∀ i : Nat, i < Nat.find hex → sm.testBit i = false := by
      intro i hi
      have := Nat.find_min hex hi
      simpa using this
    have hlobnd := hbits _ hlo
    have hmxmn : mx ≠ mn := by
      intro hh
      rw [hh] at hlobnd
      omega
    have hxmx : ((x : Int) == mx) = false := by
      rw [beq_eq_false_iff_ne]
      intro hh
      exact hmxmn (by omega)
    have hmx0 : 0 ≤ mx := by omega
    have hlomx : Nat.find hex ≤ mx.toNat := by omega
    have hhiG : sm.testBit (Nat.findGreatest (fun i => sm.testBit i = true) mx.toNat)
        = true :=
      @Nat.findGreatest_spec (Nat.find hex) (fun i => sm.testBit i = true) _ mx.toNat
        hlomx hlo
    have hhiGb := hbits _ hhiG
    have hhiGmax : ∀ i, Nat.findGreatest (fun i => sm.testBit i = true) mx.toNat < i →
        sm.testBit i = false := by
      intro i hi
      by_cases him : i ≤ mx.toNat
      · have := @Nat.findGreatest_is_greatest i (fun i => sm.testBit i = true) _
          mx.toNat hi him
        cases hb2 : sm.testBit i
        · rfl
        · exact absurd hb2 this
      · cases hb2 : sm.testBit i
        · rfl
        · exfalso
          have := hbits i hb2
          omega
    have hlole : Nat.find hex ≤ Nat.findGreatest (fun i => sm.testBit i = true) mx.toNat :=
      @Nat.le_findGreatest (Nat.find hex) (fun i => sm.testBit i = true) _ mx.toNat
        hlomx hlo
    have hres : rescanList sm (-1) mx (List.range' 0 U) =
        (clearBit sm (Nat.find hex), ((Nat.find hex : Nat) : Int),
          ((Nat.findGreatest (fun i => sm.testBit i = true) mx.toNat : Nat) : Int)) := by
      rw [Pow2.rescan_newmin sm mx 0 U (Nat.find hex) (by omega) (by omega) hlo
        (fun i h1 h2 => hlomin i h2)]
      rcases Nat.eq_or_lt_of_le hlole with heq | hlt
      · rw [← heq]
        rw [Pow2.rescan_nobits _ _ _ _ _ ?_]
        intro i h1 h2
        rw [heq] at h1
        rw [Pow2.testBit_clearBit, hhiGmax i (by omega)]
        simp
      · rw [Pow2.rescan_stable _ _ _ (by omega) _ _
          (Nat.findGreatest (fun i => sm.testBit i = true) mx.toNat)
          (by omega) (by omega) ?_ ?_]
        · rw [Pow2.testBit_clearBit]
          simp only [hhiG, Bool.true_and, Bool.not_eq_true', beq_eq_false_iff_ne, ne_eq]
          omega
        · intro i h1 h2
          rw [Pow2.testBit_clearBit, hhiGmax i h1]
          simp
    have herase : Pow2.erase (V.mk U B mn mx sm summ blk) x =
        V.mk U B ((Nat.find hex : Nat) : Int)
          ((Nat.findGreatest (fun i => sm.testBit i = true) mx.toNat : Nat) : Int)
          (clearBit sm (Nat.find hex)) summ blk := by
      rw [Pow2.erase_eq_leaf _ _ _ _ _ _ _ _ hU (-1) (if (x : Int) == mx then -1 else mx)
        (by rw [beq_iff_eq.mpr hxm]; simp) rfl, clearBit_noop sm x hbitx, hxmx]
      simp only [Bool.false_eq_true, if_false]
      rw [List.range_eq_range', hres]
    exact ⟨Nat.find hex, hlo, hlomin, by rw [herase, V.min_mk], by rw [herase, V.small_mk]⟩

theorem claim_C5_witness :
    AllNodes (LeafMaskOK Pow2.contains) (Pow2.applyOps (Pow2.build 3) [Op.ins 2]) ∧
    (∃ lo : Nat, (32 : Nat).testBit lo = true ∧
      (∀ i : Nat, i < lo → (32 : Nat).testBit i = false) ∧
      (Pow2.erase (V.mk 8 1 2 5 32 none []) 2).min = (lo : Int) ∧
      (Pow2.erase (V.mk 8 1 2 5 32 none []) 2).small = clearBit 32 lo) := by
  have hg : Pow2.Good (V.mk 8 1 2 5 32 none []) := by
    rw [Pow2.good_leaf_iff 8 1 2 5 32 none [] (by decide)]
    refine ⟨rfl, rfl, fun h => absurd h (by decide), fun _ => ?_⟩
    refine ⟨by decide, by decide, by decide, ?_, Or.inr (by decide)⟩
    intro i hi
    have h32 : (32 : Nat) = 2 ^ 5 := rfl
    rw [h32] at hi
    have hi5 : i = 5 := by
      rcases eq_or_ne i 5 with h | h
      · exact h
      · rw [Nat.testBit_two_pow_of_ne (fun hh => h hh.symm)] at hi
        cases hi
    subst hi5
    exact ⟨by decide, by decide⟩
  exact ⟨claim_C5.1 3 [Op.ins 2] (by decide),
    claim_C5.2 8 1 2 5 32 none [] 2 hg (by decide) (by decide) (by decide)⟩

/-- Claim C6 (corrected): the original claim — that `insert(x)` with
`x == min` is intercepted by a duplicate-detection short-circuit and leaves
the state unchanged — is false: the code has no such short-circuit. This
counterexample reaches the singleton state `{3}` at `U = 8` (a leaf with
`min = 3`) and shows `insert(3)` changes the state (it sets mask bit 3,
breaking the leaf-mask invariant). -/
theorem claim_C6_counterexample :
    validOps (1 <<< 3) [Op.ins 3] = true ∧
    (Pow2.applyOps (Pow2.build 3) [Op.ins 3]).min = 3 ∧
    Pow2.insert (Pow2.applyOps (Pow2.build 3) [Op.ins 3]) 3 ≠
      Pow2.applyOps (Pow2.build 3) [Op.ins 3] := by
  have hb : Pow2.build 3 = V.mk 8 1 (-1) (-1) 0 none [] := by
    rw [Pow2.build.eq_def, dif_pos (by decide : (1 : Nat) <<< 3 < 32)]
    rfl
  have hstate : Pow2.applyOps (Pow2.build 3) [Op.ins 3] = V.mk 8 1 3 3 0 none [] := by
    simp only [Pow2.applyOps, List.foldl_cons, List.foldl_nil, Pow2.applyOp]
    rw [hb, Pow2.insert_eq_empty _ _ _ _ _ _ _ _ rfl]
    rfl
  refine ⟨by decide, by rw [hstate]; rfl, ?_⟩
  rw [hstate, Pow2.insert_eq_leaf 8 1 3 3 0 none [] 3 (by decide) (by decide) 3 3
    (by norm_num) (by norm_num)]
  intro heq
  rw [V.mk.injEq] at heq
  exact absurd heq.2.2.2.2.1 (by decide)

/-- Claim C6 (amended): `insert` has no duplicate-detection short-circuit at
all. Inserting the cached minimum again into any non-empty leaf, in either
implementation, mutates the state: the mask gains bit `min` (which the leaf
invariant forbids), so the state strictly changes. -/
theorem claim_C6 :
    (∀ (U B : Nat) (mn mx : Int) (sm : Nat) (summ : Option V) (blk : List V),
      Pow2.Good (V.mk U B mn mx sm summ blk) → U < 32 → mn ≠ -1 →
      Pow2.insert (V.mk U B mn mx sm summ blk) mn.toNat =
        V.mk U B mn mx (sm ||| 1 <<< mn.toNat) summ blk ∧
      Pow2.insert (V.mk U B mn mx sm summ blk) mn.toNat ≠
        V.mk U B mn mx sm summ blk) ∧
    (∀ (U B : Nat) (mn mx : Int) (sm : Nat) (summ : Option V) (blk : List V),
      Gen.Good (V.mk U B mn mx sm summ blk) → U < 32 → mn ≠ -1 →
      Gen.insert (V.mk U B mn mx sm summ blk) mn.toNat =
        V.mk U B mn mx (sm ||| 1 <<< mn.toNat) summ blk ∧
      Gen.insert (V.mk U B mn mx sm summ blk) mn.toNat ≠
        V.mk U B mn mx sm summ blk) := by
  constructor
  · intro U B mn mx sm summ blk hg hU hmn
    obtain ⟨-, -, -, h2⟩ := (Pow2.good_leaf_iff _ _ _ _ _ _ _ hU).mp hg
    obtain ⟨hmn0, hmnmx, hmxU, hbits, -⟩ := h2 hmn
    have hxm : ((mn.toNat : Nat) : Int) = mn := Int.toNat_of_nonneg hmn0
    have hlt : ¬ ((mn.toNat : Nat) : Int) < mn := by omega
    have hgt : ¬ ((mn.toNat : Nat) : Int) > mx := by omega
    have hins : Pow2.insert (V.mk U B mn mx sm summ blk) mn.toNat =
        V.mk U B mn mx (sm ||| 1 <<< mn.toNat) summ blk := by
      rw [Pow2.insert_eq_leaf U B mn mx sm summ blk mn.toNat hmn hU mn.toNat mn
        (by rw [if_neg hlt]) (by rw [if_neg hlt])]
      rw [if_neg hgt]
    have hbit : sm.testBit mn.toNat = false := by
      cases hb2 : sm.testBit mn.toNat
      · rfl
      · exfalso
        have := hbits _ hb2
        omega
    refine ⟨hins, ?_⟩
    rw [hins]
    intro heq
    rw [V.mk.injEq] at heq
    have hsm := heq.2.2.2.2.1
    have : (sm ||| 1 <<< mn.toNat).testBit mn.toNat = sm.testBit mn.toNat := by
      rw [hsm]
    rw [Nat.testBit_or, Pow2.testBit_one_shift, hbit] at this
    simp at this
  · intro U B mn mx sm summ blk hg hU hmn
    obtain ⟨-, -, -, h2⟩ := (Gen.good_leaf_iffG _ _ _ _ _ _ _ hU).mp hg
    obtain ⟨hmn0, hmnmx, hmxU, hbits, -⟩ := h2 hmn
    have hxm : ((mn.toNat : Nat) : Int) = mn := Int.toNat_of_nonneg hmn0
    have hlt : ¬ ((mn.toNat : Nat) : Int) < mn := by omega
    have hgt : ¬ ((mn.toNat : Nat) : Int) > mx := by omega
    have hins : Gen.insert (V.mk U B mn mx sm summ blk) mn.toNat =
        V.mk U B mn mx (sm ||| 1 <<< mn.toNat) summ blk := by
      rw [Gen.insert_eq_leafG U B mn mx sm summ blk mn.toNat hmn hU mn.toNat mn
        (by rw [if_neg hlt]) (by rw [if_neg hlt])]
      rw [if_neg hgt]
    have hbit : sm.testBit mn.toNat = false := by
      cases hb2 : sm.testBit mn.toNat
      · rfl
      · exfalso
        have := hbits _ hb2
        omega
    refine ⟨hins, ?_⟩
    rw [hins]
    intro heq
    rw [V.mk.injEq] at heq
    have hsm := heq.2.2.2.2.1
    have : (sm ||| 1 <<< mn.toNat).testBit mn.toNat = sm.testBit mn.toNat := by
      rw [hsm]
    rw [Nat.testBit_or, Gen.testBit_one_shiftG, hbit] at this
    simp at this

theorem claim_C6_witness :
    (Pow2.insert (V.mk 8 1 2 2 0 none []) (2 : Int).toNat =
        V.mk 8 1 2 2 (0 ||| 1 <<< (2 : Int).toNat) none [] ∧
      Pow2.insert (V.mk 8 1 2 2 0 none []) (2 : Int).toNat ≠ V.mk 8 1 2 2 0 none []) ∧
    (Gen.insert (V.mk 8 1 2 2 0 none []) (2 : Int).toNat =
        V.mk 8 1 2 2 (0 ||| 1 <<< (2 : Int).toNat) none [] ∧
      Gen.insert (V.mk 8 1 2 2 0 none []) (2 : Int).toNat ≠ V.mk 8 1 2 2 0 none []) := by
  have hgp : Pow2.Good (V.mk 8 1 2 2 0 none []) := by
    rw [Pow2.good_leaf_iff 8 1 2 2 0 none [] (by decide)]
    refine ⟨rfl, rfl, fun h => absurd h (by decide), fun _ => ?_⟩
    refine ⟨by decide, by decide, by decide, ?_, Or.inl rfl⟩
    intro i hi
    rw [Nat.zero_testBit] at hi
    cases hi
  have hgg : Gen.Good (V.mk 8 1 2 2 0 none []) := by
    rw [Gen.good_leaf_iffG 8 1 2 2 0 none [] (by decide)]
    refine ⟨rfl, rfl, fun h => absurd h (by decide), fun _ => ?_⟩
    refine ⟨by decide, by decide, by decide, ?_, Or.inl rfl⟩
    intro i hi
    rw [Nat.zero_testBit] at hi
    cases hi
  exact ⟨claim_C6.1 8 1 2 2 0 none [] hgp (by decide) (by decide),
    claim_C6.2 8 1 2 2 0 none [] hgg (by decide) (by decide)⟩

/-- Claim C7: a freshly constructed structure of any universe size reports
`contains(x) = false` and `successor(x) = -1` for every `x` in `[0, U)`;
`successor`'s `x < min` guard never fires because `min = -1`. -/
theorem claim_C7 :
    ∀ bits x : Nat, x < 1 <<< bits →
      Pow2.contains (Pow2.build bits) x = false ∧
      Pow2.successor (Pow2.build bits) x = -1 ∧
      ¬ ((x : Int) < (Pow2.build bits).min) := by
  intro bits x hx
  obtain ⟨hg, hmn, hU⟩ := Pow2.build_good bits
  have hcf := Pow2.contains_empty _ hg hmn
  refine ⟨hcf x, ?_, ?_⟩
  · have hfa := Pow2.successor_spec _ hg x (by rw [hU]; exact hx)
    rcases hfa with ⟨he, -⟩ | ⟨n, he, hxn, hp, -⟩
    · exact he
    · have hp' : Pow2.contains (Pow2.build bits) n = true := hp
      rw [hcf n] at hp'
      cases hp'
  · rw [hmn]
    omega

theorem claim_C7_witness :
    Pow2.contains (Pow2.build 3) 0 = false ∧
    Pow2.successor (Pow2.build 3) 0 = -1 ∧
    ¬ ((0 : Nat) : Int) < (Pow2.build 3).min :=
  claim_C7 3 0 (by decide)

/-- Claim C8: recombining the split parts of a key yields the key back under
both decomposition policies: `index(high(x), low(x)) = x` for the shift/mask
policy and for the division/modulo policy. -/
theorem claim_C8 : ∀ B x : Nat,
    Pow2.index B (Pow2.high B x) (Pow2.low B x) = x ∧
    Gen.index B (Gen.high B x) (Gen.low B x) = x := by
  intro B x
  exact ⟨Pow2.index_high_low B x, Gen.index_high_lowG B x⟩

/-- Claim C9: for every power-of-two universe and every precondition-
respecting sequence, the generic sqrt-decomposition implementation and the
power-of-two implementation return the same `successor(x)` for every `x`. -/
theorem claim_C9 :
    ∀ (bits : Nat) (ops : List Op), validOps (1 <<< bits) ops = true →
      ∀ x : Nat, x < 1 <<< bits →
      Pow2.successor (Pow2.applyOps (Pow2.build bits) ops) x =
        Gen.successor (Gen.applyOps (Gen.build (1 <<< bits)) ops) x := by
  intro bits ops hv x hx
  obtain ⟨hgp, hUp, hmemp⟩ := pow2_state bits ops hv
  obtain ⟨hgg, hUg, hmemg⟩ := gen_state (1 <<< bits) ops hv
  have hcp : ∀ y : Nat, Pow2.contains (Pow2.applyOps (Pow2.build bits) ops) y
      = decide (y ∈ refList ops) := by
    intro y
    rw [Bool.eq_iff_iff, decide_eq_true_iff]
    exact hmemp y
  have hcg : ∀ y : Nat, Gen.stored (Gen.applyOps (Gen.build (1 <<< bits)) ops) y
      = decide (y ∈ refList ops) := by
    intro y
    rw [Bool.eq_iff_iff, decide_eq_true_iff]
    exact hmemg y
  exact Pow2.firstAbove_unique _ x _ _
    (Pow2.firstAbove_congr _ _ hcp x _
      (Pow2.successor_spec _ hgp x (by rw [hUp]; exact hx)))
    (Pow2.firstAbove_congr _ _ hcg x _
      (Gen.successor_specG _ hgg x (by rw [hUg]; exact hx)))

theorem claim_C9_witness :
    Pow2.successor (Pow2.applyOps (Pow2.build 3) [Op.ins 3]) 0 =
      Gen.successor (Gen.applyOps (Gen.build (1 <<< 3)) [Op.ins 3]) 0 :=
  claim_C9 3 [Op.ins 3] (by decide) 0 (by decide)

/-- Claim C10 (implicit): erasing an element that is not currently stored is
a silent no-op in both implementations — the whole tree (every node's fields)
is returned unchanged. -/
theorem claim_C10 :
    (∀ (bits : Nat) (ops : List Op), validOps (1 <<< bits) ops = true →
      ∀ x : Nat, x < 1 <<< bits → x ∉ refList ops →
      Pow2.erase (Pow2.applyOps (Pow2.build bits) ops) x =
        Pow2.applyOps (Pow2.build bits) ops) ∧
    (∀ (size : Nat) (ops : List Op), validOps size ops = true →
      ∀ x : Nat, x < size → x ∉ refList ops →
      Gen.erase (Gen.applyOps (Gen.build size) ops) x =
        Gen.applyOps (Gen.build size) ops) := by
  constructor
  · intro bits ops hv x hx hnm
    obtain ⟨hg, hU, hmem⟩ := pow2_state bits ops hv
    have hcf : Pow2.contains (Pow2.applyOps (Pow2.build bits) ops) x = false := by
      cases hc : Pow2.contains (Pow2.applyOps (Pow2.build bits) ops) x
      · rfl
      · exact absurd ((hmem x).mp hc) hnm
    exact Pow2.erase_absent _ hg x (by rw [hU]; exact hx) hcf
  · intro size ops hv x hx hnm
    obtain ⟨hg, hU, hmem⟩ := gen_state size ops hv
    have hcf : Gen.stored (Gen.applyOps (Gen.build size) ops) x = false := by
      cases hc : Gen.stored (Gen.applyOps (Gen.build size) ops) x
      · rfl
      · exact absurd ((hmem x).mp hc) hnm
    exact Gen.erase_absentG _ hg x (by rw [hU]; exact hx) hcf

theorem claim_C10_witness :
    Pow2.erase (Pow2.applyOps (Pow2.build 3) [Op.ins 3]) 4 =
      Pow2.applyOps (Pow2.build 3) [Op.ins 3] ∧
    Gen.erase (Gen.applyOps (Gen.build 40) [Op.ins 3]) 4 =
      Gen.applyOps (Gen.build 40) [Op.ins 3] :=
  ⟨claim_C10.1 3 [Op.ins 3] (by decide) 4 (by decide) (by decide),
   claim_C10.2 40 [Op.ins 3] (by decide) 4 (by decide) (by decide)⟩
